import Mathlib

set_option maxHeartbeats 1000000

/-!
Shallow embedding of the barrier-coordinated dataflow core of the repository:
the stream-chunk compactor (src/common/src/array/compact_chunk.rs), the DML
executor (src/stream/src/executor/dml.rs) and the local barrier worker
(src/stream/src/task/barrier_manager.rs).

Rows are kept abstract: the Rust code only projects a row onto the stream-key
columns, compares rows for equality, and moves rows around, so every
definition is parametrised by a row type with decidable equality and a
key-projection function standing for `row.project(&key_indices)`.  Machine
integers (u64 epochs, u32 actor ids) are modelled as Nat; none of the code
embedded here relies on wrap-around.  Rust panics and assertion failures are
modelled as error results.
-/

namespace RW

/-- Operation tags of stream records (`Op` in the Rust array module).  Encoded
in the wire format as Insert=0, Delete=1, UpdateInsert=2, UpdateDelete=3. -/
inductive Op where
  | insert
  | delete
  | updateDelete
  | updateInsert
deriving DecidableEq, Repr

/-- `Op::normalize_update`: `UpdateDelete` is demoted to `Delete` and
`UpdateInsert` to `Insert`; plain inserts and deletes are unchanged. -/
def Op.normalizeUpdate : Op → Op
  | .updateDelete => .delete
  | .updateInsert => .insert
  | o => o

/-- One record of a stream chunk: its op tag, its row payload and its
visibility bit (one slot of the chunk's ops vector and visibility bitmap). -/
structure Rec (α : Type) where
  op : Op
  row : α
  vis : Bool
deriving DecidableEq, Repr

/-- A stream chunk, as the list of its (op, row, visibility) slots. -/
abbrev Chunk (α : Type) := List (Rec α)

/-- `StreamChunk::cardinality`: the number of visible rows of a chunk. -/
def chunkCard {α : Type} (c : Chunk α) : Nat :=
  (c.filter (fun r => r.vis)).length

/-- Summed cardinality of a chunk sequence. -/
def totalCard {α : Type} (cs : List (Chunk α)) : Nat :=
  (cs.map chunkCard).sum

/-- Position of a row inside a chunk sequence: (chunk index, row index).
This models an `OpRowMutRef` pointing into one of the mutable chunks. -/
abbrev Pos := Nat × Nat

/-- A chunk sequence flattened into positioned records; the working
representation for the in-place compactor, which mutates op tags and
visibility bits of rows addressed by (chunk, row) position. -/
abbrev FChunks (α : Type) := List (Pos × Rec α)

/-- Rows of one chunk, positioned: chunk index `i`, row indices from `j`. -/
def chunkRows {α : Type} (i : Nat) : Nat → List (Rec α) → FChunks α
  | _, [] => []
  | j, r :: rs => ((i, j), r) :: chunkRows i (j + 1) rs

/-- Flatten a chunk sequence into positioned records, chunk indices from `i`. -/
def flattenFrom {α : Type} : Nat → List (Chunk α) → FChunks α
  | _, [] => []
  | i, c :: cs => chunkRows i 0 c ++ flattenFrom (i + 1) cs

/-- Flatten a chunk sequence into positioned records in chunk-major order. -/
def flattenChunks {α : Type} (cs : List (Chunk α)) : FChunks α :=
  flattenFrom 0 cs

/-- Rebuild a chunk sequence from a flattened record list, using the chunk
boundaries (lengths) of `cs`.  Inverse of `flattenChunks` for record lists
whose positions are aligned with `cs`. -/
def unflattenLike {α : Type} : List (Chunk α) → FChunks α → List (Chunk α)
  | [], _ => []
  | c :: cs, f => (f.take c.length).map (fun e => e.2) :: unflattenLike cs (f.drop c.length)

/-- Read the record stored at position `p`. -/
def readAt {α : Type} : FChunks α → Pos → Option (Rec α)
  | [], _ => none
  | (q, r) :: t, p => if q = p then some r else readAt t p

/-- Mutate the record stored at position `p` (no-op for absent positions). -/
def writeAt {α : Type} : FChunks α → Pos → (Rec α → Rec α) → FChunks α
  | [], _, _ => []
  | (q, r) :: t, p, g =>
    if q = p then (q, g r) :: writeAt t p g else (q, r) :: writeAt t p g

/-- `OpRowMutRef::set_op`. -/
def setOpAt {α : Type} (f : FChunks α) (p : Pos) (o : Op) : FChunks α :=
  writeAt f p (fun r => { r with op := o })

/-- `OpRowMutRef::set_vis`. -/
def setVisAt {α : Type} (f : FChunks α) (p : Pos) (b : Bool) : FChunks α :=
  writeAt f p (fun r => { r with vis := b })

/-- The visible records of key `k`, in stream order.  Two records are "same
key" iff their rows project to equal key tuples. -/
def keyFilter {α κ : Type} [DecidableEq κ] (proj : α → κ) (k : κ) : FChunks α → FChunks α
  | [] => []
  | e :: t =>
    if e.2.vis = true ∧ proj e.2.row = k then e :: keyFilter proj k t
    else keyFilter proj k t

/-! ## In-place compaction (`StreamChunkCompactor::into_compacted_chunks`) -/

/-- `OpRowMutRefTuple`: the per-key state kept by the in-place compactor. The
`latest` (and optional `previous`) fields are references to rows of the
chunks, modelled as positions. -/
structure OpRowTuple where
  previous : Option Pos
  latest : Pos
deriving DecidableEq, Repr

/-- The pre-hashed per-key map of the in-place compactor, as an association
list keyed by the projected stream key (the CRC32 pre-hash only speeds up
bucket lookup in the Rust map; map equality is on the projected key tuple). -/
abbrev TupleMap (κ : Type) := List (κ × OpRowTuple)

def mlookup {κ β : Type} [DecidableEq κ] : List (κ × β) → κ → Option β
  | [], _ => none
  | (k', v) :: t, k => if k' = k then some v else mlookup t k

/-- Replace the value of the (first) entry with key `k`. -/
def mreplace {κ β : Type} [DecidableEq κ] : List (κ × β) → κ → β → List (κ × β)
  | [], _, _ => []
  | (k', v) :: t, k, w => if k' = k then (k', w) :: t else (k', v) :: mreplace t k w

/-- Remove the (first) entry with key `k` (`Entry::remove_entry`). -/
def mremove {κ β : Type} [DecidableEq κ] : List (κ × β) → κ → List (κ × β)
  | [], _ => []
  | (k', v) :: t, k => if k' = k then t else (k', v) :: mremove t k

/-- State of the in-place compaction pass: the mutable chunks plus the
per-key tuple map. -/
structure CompSt (α κ : Type) where
  f : FChunks α
  m : TupleMap κ

/-- `OpRowMutRefTuple::push`, called with the occupied map entry `t` for key
`k` and the incoming row at position `p` whose (already normalized) op is
`nop`.  The `dbg` flag models whether `debug_assert!` is compiled in; the
duplicated insert/delete panics are plain `panic!` and fire regardless. -/
def pushStep {α κ : Type} [DecidableEq κ] (dbg : Bool) (st : CompSt α κ) (k : κ)
    (t : OpRowTuple) (p : Pos) (nop : Op) : Except String (CompSt α κ) :=
  match readAt st.f t.latest with
  | none => .error "invalid latest row reference"
  | some lrec =>
    if dbg ∧ lrec.vis = false then .error "assertion failed: self.latest.vis()"
    else
      match lrec.op, nop with
      | .insert, .insert => .error "receive duplicated insert on the stream"
      | .delete, .delete => .error "receive duplicated delete on the stream"
      | .insert, .delete =>
        let f2 := setVisAt (setVisAt st.f t.latest false) p false
        match t.previous with
        | some q => .ok ⟨f2, mreplace st.m k ⟨none, q⟩⟩
        | none => .ok ⟨f2, mremove st.m k⟩
      | .delete, .insert =>
        if dbg ∧ t.previous.isSome then .error "assertion failed: self.previous.is_none()"
        else .ok ⟨st.f, mreplace st.m k ⟨some t.latest, p⟩⟩
      | _, _ => .error "unreachable: update op reached the compaction map"

/-- Process the row at position `p` during the first pass of
`into_compacted_chunks`: skip invisible rows, normalize the op tag in place,
then insert into / push onto the per-key map entry. -/
def rowStep {α κ : Type} [DecidableEq κ] (dbg : Bool) (proj : α → κ)
    (st : CompSt α κ) (p : Pos) : Except String (CompSt α κ) :=
  match readAt st.f p with
  | none => .ok st
  | some r =>
    if r.vis = false then .ok st
    else
      let nop := r.op.normalizeUpdate
      let f1 := setOpAt st.f p nop
      let k := proj r.row
      match mlookup st.m k with
      | none => .ok ⟨f1, st.m ++ [(k, ⟨none, p⟩)]⟩
      | some t => pushStep dbg ⟨f1, st.m⟩ k t p nop

/-- The first pass of `into_compacted_chunks`: fold `rowStep` over all row
positions in chunk-major order. -/
def mainPass {α κ : Type} [DecidableEq κ] (dbg : Bool) (proj : α → κ)
    (f0 : FChunks α) : Except String (CompSt α κ) :=
  (f0.map (fun e => e.1)).foldlM (rowStep dbg proj) ⟨f0, []⟩

/-- The second pass of `into_compacted_chunks`, for one map entry: if the
entry is an update pair (`as_update_op`), cancel it when old and new rows are
equal, and re-tag it as `UpdateDelete`/`UpdateInsert` when the two rows are
adjacent in the same chunk. -/
def postTuple {α : Type} [DecidableEq α] (dbg : Bool) (f : FChunks α)
    (t : OpRowTuple) : Except String (FChunks α) :=
  match t.previous with
  | none => .ok f
  | some q =>
    match readAt f q, readAt f t.latest with
    | some pr, some la =>
      if dbg ∧ ¬(pr.op = .delete ∧ la.op = .insert) then
        .error "assertion failed: update pair op tags"
      else if pr.row = la.row then
        .ok (setVisAt (setVisAt f q false) t.latest false)
      else if q.1 = t.latest.1 ∧ q.2 + 1 = t.latest.2 then
        .ok (setOpAt (setOpAt f q .updateDelete) t.latest .updateInsert)
      else .ok f
    | _, _ => .error "invalid update pair row reference"

/-- The second pass of `into_compacted_chunks` over all map entries. -/
def postPass {α κ : Type} [DecidableEq α] (dbg : Bool) (f : FChunks α)
    (m : TupleMap κ) : Except String (FChunks α) :=
  m.foldlM (fun f e => postTuple dbg f e.2) f

/-- Both passes of the in-place compactor over a flattened chunk sequence. -/
def compactF {α κ : Type} [DecidableEq α] [DecidableEq κ] (dbg : Bool)
    (proj : α → κ) (f0 : FChunks α) : Except String (FChunks α) := do
  let st ← mainPass dbg proj f0
  postPass dbg st.f st.m

/-- `StreamChunkCompactor::into_compacted_chunks`: compact a chunk sequence by
mutating only op tags and visibility bits, emitting the chunks themselves
unchanged in count and order.  Errors model the panics of the Rust code. -/
def intoCompactedChunks {α κ : Type} [DecidableEq α] [DecidableEq κ] (dbg : Bool)
    (proj : α → κ) (chunks : List (Chunk α)) : Except String (List (Chunk α)) := do
  let f ← compactF dbg proj (flattenChunks chunks)
  pure (unflattenLike chunks f)

/-! ## Per-key abstract machine and downstream replay

The per-key state machine of the spec (states none, I(row), D(row),
DI(old, new)) with the positions of the surviving rows, used to state what
compaction does for each stream key. -/

/-- Per-key compaction state: `ins p r` is a surviving insert of row `r` at
position `p`; `del p r` a surviving delete; `delins q d p i` a surviving
delete of `d` at `q` followed by an insert of `i` at `p`. -/
inductive KSt (α : Type) where
  | ins (p : Pos) (r : α)
  | del (p : Pos) (r : α)
  | delins (q : Pos) (d : α) (p : Pos) (i : α)
deriving DecidableEq, Repr

/-- One transition of the per-key machine on a (position, normalized op, row)
record; errors mirror the duplicated-operation panics. -/
def kstep {α : Type} : Option (KSt α) → Pos × Op × α → Except String (Option (KSt α))
  | none, (p, .insert, r) => .ok (some (.ins p r))
  | none, (p, .delete, r) => .ok (some (.del p r))
  | some (.ins _ _), (_, .insert, _) => .error "receive duplicated insert on the stream"
  | some (.ins _ _), (_, .delete, _) => .ok none
  | some (.del q d), (p, .insert, i) => .ok (some (.delins q d p i))
  | some (.del _ _), (_, .delete, _) => .error "receive duplicated delete on the stream"
  | some (.delins _ _ _ _), (_, .insert, _) => .error "receive duplicated insert on the stream"
  | some (.delins q d _ _), (_, .delete, _) => .ok (some (.del q d))
  | _, (_, _, _) => .error "unreachable: update op reached the compaction map"

/-- Run the per-key machine over a record list. -/
def machineRun {α : Type} (l : List (Pos × Op × α)) : Except String (Option (KSt α)) :=
  l.foldlM kstep none

/-- The key-`k` records of a flattened chunk sequence as machine input:
visible records only, ops normalized. -/
def pat {α κ : Type} [DecidableEq κ] (proj : α → κ) (k : κ) (f : FChunks α) :
    List (Pos × Op × α) :=
  (keyFilter proj k f).map (fun e => (e.1, e.2.op.normalizeUpdate, e.2.row))

/-- The map entry the in-place compactor holds for a key in machine state
`tup` after the first pass. -/
def tupEntry {α : Type} : Option (KSt α) → Option OpRowTuple
  | none => none
  | some (.ins p _) => some ⟨none, p⟩
  | some (.del p _) => some ⟨none, p⟩
  | some (.delins q _ p _) => some ⟨some q, p⟩

/-- The visible key-`k` positioned records after the first pass, for machine
state `tup`. -/
def tupRecs {α : Type} : Option (KSt α) → FChunks α
  | none => []
  | some (.ins p r) => [(p, ⟨.insert, r, true⟩)]
  | some (.del p r) => [(p, ⟨.delete, r, true⟩)]
  | some (.delins q d p i) => [(q, ⟨.delete, d, true⟩), (p, ⟨.insert, i, true⟩)]

/-- The visible key-`k` positioned records after the second pass: an update
pair with equal rows is cancelled, an adjacent one is re-tagged as
`UpdateDelete`/`UpdateInsert`. -/
def finalRecs {α : Type} [DecidableEq α] : Option (KSt α) → FChunks α
  | none => []
  | some (.ins p r) => [(p, ⟨.insert, r, true⟩)]
  | some (.del p r) => [(p, ⟨.delete, r, true⟩)]
  | some (.delins q d p i) =>
    if d = i then []
    else if q.1 = p.1 ∧ q.2 + 1 = p.2 then
      [(q, ⟨.updateDelete, d, true⟩), (p, ⟨.updateInsert, i, true⟩)]
    else [(q, ⟨.delete, d, true⟩), (p, ⟨.insert, i, true⟩)]

/-- One step of replaying a change record against the downstream state of its
key: an insert requires the key to be absent and stores the row, a delete
requires the stored row to equal the deleted row and removes it.  `none`
means the record is inconsistent with the state. -/
def replayStep {α : Type} [DecidableEq α] (v : Option α) : Op × α → Option (Option α)
  | (op, r) =>
    match op.normalizeUpdate with
    | .insert => match v with | none => some (some r) | some _ => none
    | .delete => match v with | some w => if w = r then some none else none | none => none
    | _ => none

/-- Replay a record sequence of one key against that key's downstream state. -/
def perKeyReplay {α : Type} [DecidableEq α] (v : Option α) (l : List (Op × α)) :
    Option (Option α) :=
  l.foldlM replayStep v

/-- The visible key-`k` records of a chunk sequence, as (op, row) pairs in
stream order: the per-key slice of the downstream-visible change stream. -/
def keyOps {α κ : Type} [DecidableEq κ] (proj : α → κ) (k : κ) (cs : List (Chunk α)) :
    List (Op × α) :=
  (keyFilter proj k (flattenChunks cs)).map (fun e => (e.2.op, e.2.row))

/-! ## Stream-chunk builder

The builder's source file (stream_chunk_builder.rs) is not among the provided
sources; it is modelled from the spec. -/

/-- `Record`: a change record of the stream, as appended to a builder. -/
inductive Record (α : Type) where
  | ins (newRow : α)
  | del (oldRow : α)
  | upd (oldRow newRow : α)
deriving DecidableEq, Repr

/-- Modelled from the spec: the stream-chunk builder (its source file,
stream_chunk_builder.rs, is not among the provided sources).  It assembles
bounded chunks from record streams: rows accumulate in a pending buffer and a
full chunk is emitted once the buffer reaches the configured chunk size; the
paired-update protocol (an `UpdateDelete` immediately followed by its
`UpdateInsert`) is never split across chunks, so the first half of an update
pair never triggers emission.  Built chunks have all rows visible. -/
structure StreamChunkBuilder (α : Type) where
  chunkSize : Nat
  pending : List (Op × α)
deriving DecidableEq, Repr

def StreamChunkBuilder.new {α : Type} (chunkSize : Nat) : StreamChunkBuilder α :=
  ⟨chunkSize, []⟩

/-- Append one (op, row) slot; emit the pending rows as a chunk when `canEmit`
and the buffer has reached the chunk size. -/
def StreamChunkBuilder.appendRowInner {α : Type} (b : StreamChunkBuilder α)
    (canEmit : Bool) (op : Op) (row : α) : Option (Chunk α) × StreamChunkBuilder α :=
  let pend := b.pending ++ [(op, row)]
  if canEmit ∧ b.chunkSize ≤ pend.length then
    (some (pend.map (fun e => ⟨e.1, e.2, true⟩)), { b with pending := [] })
  else (none, { b with pending := pend })

/-- `StreamChunkBuilder::append_row`. -/
def StreamChunkBuilder.appendRow {α : Type} (b : StreamChunkBuilder α) (op : Op)
    (row : α) : Option (Chunk α) × StreamChunkBuilder α :=
  b.appendRowInner true op row

/-- `StreamChunkBuilder::append_record`: an insert or delete appends one row;
an update appends its `UpdateDelete`/`UpdateInsert` halves without splitting
them across chunks. -/
def StreamChunkBuilder.appendRecord {α : Type} (b : StreamChunkBuilder α) :
    Record α → Option (Chunk α) × StreamChunkBuilder α
  | .ins r => b.appendRow .insert r
  | .del r => b.appendRow .delete r
  | .upd o n =>
    let (_, b1) := b.appendRowInner false .updateDelete o
    b1.appendRow .updateInsert n

/-- `StreamChunkBuilder::take`: emit the pending rows, if any, as a final
chunk. -/
def StreamChunkBuilder.take {α : Type} (b : StreamChunkBuilder α) :
    Option (Chunk α) × StreamChunkBuilder α :=
  match b.pending with
  | [] => (none, b)
  | _ => (some (b.pending.map (fun e => ⟨e.1, e.2, true⟩)), { b with pending := [] })

/-! ## Reconstruct compaction
(`RowOpMap` and `StreamChunkCompactor::reconstructed_compacted_chunks`) -/

/-- `RowOp`: the final per-key change kept by the reconstruct-mode map. -/
inductive RowOp (α : Type) where
  | ins (r : α)
  | del (r : α)
  | upd (old new : α)
deriving DecidableEq, Repr

/-- `RowOpMap`: the reconstruct-mode per-key map, as an association list in
insertion order.  The Boolean in the results of `insert`/`delete` records
whether a duplicate-operation warning was logged. -/
abbrev RowOpMapL (α κ : Type) := List (κ × RowOp α)

/-- `RowOpMap::insert`: a vacant key stores an Insert; on a Delete the pair
becomes an Update; on an Insert or an Update a "double insert for the same
pk" warning is logged and the newer value wins. -/
def rmInsert {α κ : Type} [DecidableEq κ] : RowOpMapL α κ → κ → α → RowOpMapL α κ × Bool
  | [], k, v => ([(k, .ins v)], false)
  | (k', e) :: t, k, v =>
    if k' = k then
      match e with
      | .del old => ((k', .upd old v) :: t, false)
      | .ins _ => ((k', .ins v) :: t, true)
      | .upd old _ => ((k', .upd old v) :: t, true)
    else
      let r := rmInsert t k v
      ((k', e) :: r.1, r.2)

/-- `RowOpMap::delete`: a vacant key stores a Delete; an Insert cancels and
the entry is removed; an Update falls back to deleting the original old row;
on a Delete a "double delete for the same pk" warning is logged and the newer
value wins. -/
def rmDelete {α κ : Type} [DecidableEq κ] : RowOpMapL α κ → κ → α → RowOpMapL α κ × Bool
  | [], k, v => ([(k, .del v)], false)
  | (k', e) :: t, k, v =>
    if k' = k then
      match e with
      | .ins _ => (t, false)
      | .upd prev _ => ((k', .del prev) :: t, false)
      | .del _ => ((k', .del v) :: t, true)
    else
      let r := rmDelete t k v
      ((k', e) :: r.1, r.2)

/-- One step of `RowOpMap::into_chunks`: append one map entry's records to the
builder, collecting any finished chunk (a no-op update is skipped). -/
def rmEmitStep {α κ : Type} [DecidableEq α]
    (acc : List (Chunk α) × StreamChunkBuilder α) (e : κ × RowOp α) :
    List (Chunk α) × StreamChunkBuilder α :=
  match e.2 with
  | .ins r =>
    let (c, b) := acc.2.appendRecord (.ins r)
    (acc.1 ++ c.toList, b)
  | .del r =>
    let (c, b) := acc.2.appendRecord (.del r)
    (acc.1 ++ c.toList, b)
  | .upd o n =>
    if o = n then acc
    else
      let (c, b) := acc.2.appendRecord (.upd o n)
      (acc.1 ++ c.toList, b)

/-- `RowOpMap::into_chunks`: materialize the final per-key changes through a
stream-chunk builder; a no-op update (old row equals new row) is skipped. -/
def rowOpMapIntoChunks {α κ : Type} [DecidableEq α] (m : RowOpMapL α κ)
    (chunkSize : Nat) : List (Chunk α) :=
  let r := m.foldl rmEmitStep ([], StreamChunkBuilder.new chunkSize)
  r.1 ++ (r.2.take).1.toList

/-- One step of the reconstruct-mode map building: dispatch one visible record
on its op tag (`DataChunk::rows` skips invisible rows), counting the
duplicate-operation warnings logged. -/
def reconStep {α κ : Type} [DecidableEq κ] (proj : α → κ)
    (acc : RowOpMapL α κ × Nat) (e : Pos × Rec α) : RowOpMapL α κ × Nat :=
  if e.2.vis = true then
    match e.2.op with
    | .insert | .updateInsert =>
      let r := rmInsert acc.1 (proj e.2.row) e.2.row
      (r.1, acc.2 + (if r.2 then 1 else 0))
    | .delete | .updateDelete =>
      let r := rmDelete acc.1 (proj e.2.row) e.2.row
      (r.1, acc.2 + (if r.2 then 1 else 0))
  else acc

/-- Build the reconstruct-mode map from the visible records of the flattened
chunks (`DataChunk::rows` yields the visible rows, each dispatched on its op
tag).  Also counts the duplicate-operation warnings logged. -/
def reconBuildMap {α κ : Type} [DecidableEq κ] (proj : α → κ) (f : FChunks α) :
    RowOpMapL α κ × Nat :=
  f.foldl (reconStep proj) ([], 0)

/-- `StreamChunkCompactor::reconstructed_compacted_chunks`: fold every visible
record into the per-key `RowOpMap`, then materialize fresh chunks bounded by
`chunkSize`.  The second component counts duplicate-operation warnings. -/
def reconstructedCompactedChunks {α κ : Type} [DecidableEq α] [DecidableEq κ]
    (proj : α → κ) (chunkSize : Nat) (chunks : List (Chunk α)) :
    List (Chunk α) × Nat :=
  let r := reconBuildMap proj (flattenChunks chunks)
  (rowOpMapIntoChunks r.1 chunkSize, r.2)

/-! ## DML executor (src/stream/src/executor/dml.rs) -/

/-- Transaction ids. -/
abbrev TxnId := Nat

/-- `MAX_CHUNK_FOR_ATOMICITY`: atomicity is provided only for transactions of
at most this many buffered chunks. -/
def MAX_CHUNK_FOR_ATOMICITY : Nat := 32

/-- `TxnBuffer`: the buffered chunks of one open transaction, plus the
overflow flag set once the buffer was drained for exceeding
`MAX_CHUNK_FOR_ATOMICITY`. -/
structure TxnBuffer (α : Type) where
  vec : List (Chunk α)
  overflow : Bool
deriving DecidableEq, Repr

/-- Barrier mutations relevant to the DML executor. -/
inductive DmlMutation where
  | pause
  | resume
  | other
deriving DecidableEq, Repr

/-- A barrier as seen by the DML executor. -/
structure DmlBarrier where
  id : Nat
  mutation : Option DmlMutation
deriving DecidableEq, Repr

/-- A downstream message of the DML executor. -/
inductive DmlMessage (α : Type) where
  | chunk (c : Chunk α)
  | barrier (b : DmlBarrier)
deriving DecidableEq, Repr

/-- `TxnMsg`: messages of the transactional write stream. -/
inductive TxnMsg (α : Type) where
  | txnBegin (id : TxnId)
  | txnData (id : TxnId) (c : Chunk α)
  | txnEnd (id : TxnId)
  | txnRollback (id : TxnId)
deriving DecidableEq, Repr

/-- The DML executor's state between messages: the active-transaction map,
the batch group of small committed transactions, the chunk builder, and the
paused flag of the DML side. -/
structure DmlState (α : Type) where
  chunkSize : Nat
  activeTxnMap : List (TxnId × TxnBuffer α)
  batchGroup : List (Chunk α)
  builder : StreamChunkBuilder α
  paused : Bool
deriving DecidableEq, Repr

/-- The visible (op, row) slots of a chunk (`StreamChunk::rows`). -/
def chunkRecs {α : Type} (c : Chunk α) : List (Op × α) :=
  (c.filter (fun r => r.vis)).map (fun r => (r.op, r.row))

/-- Feed rows through the builder one by one, collecting emitted chunks. -/
def builderFeed {α : Type} (b : StreamChunkBuilder α) :
    List (Op × α) → StreamChunkBuilder α × List (Chunk α)
  | [] => (b, [])
  | e :: rest =>
    let r := b.appendRow e.1 e.2
    let r' := builderFeed r.2 rest
    (r'.1, r.1.toList ++ r'.2)

/-- Flush the batch group: if it is non-empty, feed every visible row of its
chunks through the chunk builder and take the final partial chunk. -/
def flushBatchGroup {α : Type} (st : DmlState α) : DmlState α × List (Chunk α) :=
  match st.batchGroup with
  | [] => (st, [])
  | _ =>
    let rows := (st.batchGroup.map chunkRecs).flatten
    let r := builderFeed st.builder rows
    let t := r.1.take
    ({ st with batchGroup := [], builder := t.2 }, r.2 ++ t.1.toList)

/-- The Pause/Resume effect of a barrier's mutation on the DML side. -/
def pauseAdjust {α : Type} (st : DmlState α) (b : DmlBarrier) : DmlState α :=
  match b.mutation with
  | some .pause => { st with paused := true }
  | some .resume => { st with paused := false }
  | _ => st

/-- Handling of an upstream barrier: apply Pause/Resume to the DML side, flush
the batch group if non-empty, then forward the barrier itself. -/
def handleBarrier {α : Type} (st : DmlState α) (b : DmlBarrier) :
    DmlState α × List (DmlMessage α) :=
  let r := flushBatchGroup (pauseAdjust st b)
  (r.1, r.2.map .chunk ++ [.barrier b])

/-- `TxnMsg::Begin`: insert an empty buffer; a colliding transaction id is a
panic (modelled as `none`). -/
def handleTxnBegin {α : Type} (st : DmlState α) (id : TxnId) : Option (DmlState α) :=
  match mlookup st.activeTxnMap id with
  | some _ => none
  | none => some { st with activeTxnMap := st.activeTxnMap ++ [(id, ⟨[], false⟩)] }

/-- `TxnMsg::Data`: an unknown id is a panic; an overflowed transaction's
chunk is forwarded immediately; otherwise the chunk is buffered, and if the
buffer length now exceeds `MAX_CHUNK_FOR_ATOMICITY` all buffered chunks are
drained downstream in order, overflow is set, and a warning is logged (the
Boolean of the result). -/
def handleTxnData {α : Type} (st : DmlState α) (id : TxnId) (c : Chunk α) :
    Option (DmlState α × List (DmlMessage α) × Bool) :=
  match mlookup st.activeTxnMap id with
  | none => none
  | some buf =>
    if buf.overflow then some (st, [.chunk c], false)
    else
      let vec := buf.vec ++ [c]
      if MAX_CHUNK_FOR_ATOMICITY < vec.length then
        some ({ st with activeTxnMap := mreplace st.activeTxnMap id ⟨[], true⟩ },
              vec.map .chunk, true)
      else
        some ({ st with activeTxnMap := mreplace st.activeTxnMap id ⟨vec, false⟩ },
              [], false)

/-- `TxnMsg::End`: remove the buffer; with `T` the transaction's summed
cardinality and `G` the batch group's, either (`T ≥ chunk_size`) flush the
batch group and forward the buffered chunks as-is, or (`T + G ≤ chunk_size`)
extend the batch group, or flush the batch group and make the transaction's
chunks the new batch group. -/
def handleTxnEnd {α : Type} (st : DmlState α) (id : TxnId) :
    Option (DmlState α × List (DmlMessage α)) :=
  match mlookup st.activeTxnMap id with
  | none => none
  | some buf =>
    let st1 := { st with activeTxnMap := mremove st.activeTxnMap id }
    let txnCard := (buf.vec.map chunkCard).sum
    let groupCard := (st1.batchGroup.map chunkCard).sum
    if st1.chunkSize ≤ txnCard then
      let r := flushBatchGroup st1
      some (r.1, r.2.map .chunk ++ buf.vec.map .chunk)
    else if txnCard + groupCard ≤ st1.chunkSize then
      some ({ st1 with batchGroup := st1.batchGroup ++ buf.vec }, [])
    else
      let r := flushBatchGroup st1
      some ({ r.1 with batchGroup := buf.vec }, r.2.map .chunk)

/-- `TxnMsg::Rollback`: discard the buffer; an unknown id is a panic; if the
buffer had overflowed, a warning is logged (the Boolean) — the data already
sent downstream is not retracted. -/
def handleTxnRollback {α : Type} (st : DmlState α) (id : TxnId) :
    Option (DmlState α × List (DmlMessage α) × Bool) :=
  match mlookup st.activeTxnMap id with
  | none => none
  | some buf =>
    some ({ st with activeTxnMap := mremove st.activeTxnMap id }, [], buf.overflow)

/-- One merged input of the DML executor: an upstream (left) message or a
transactional (right) message. -/
inductive DmlInput (α : Type) where
  | left (m : DmlMessage α)
  | right (t : TxnMsg α)
deriving DecidableEq, Repr

/-- One step of the DML executor's merge loop on one input message. -/
def dmlStep {α : Type} (st : DmlState α) :
    DmlInput α → Option (DmlState α × List (DmlMessage α))
  | .left (.barrier b) => some (handleBarrier st b)
  | .left (.chunk c) => some (st, [.chunk c])
  | .right (.txnBegin id) => (handleTxnBegin st id).map (fun st' => (st', []))
  | .right (.txnData id c) => (handleTxnData st id c).map (fun r => (r.1, r.2.1))
  | .right (.txnEnd id) => handleTxnEnd st id
  | .right (.txnRollback id) => (handleTxnRollback st id).map (fun r => (r.1, r.2.1))

/-- Run the DML executor over a list of merged inputs, concatenating the
downstream messages. -/
def dmlRun {α : Type} (st : DmlState α) :
    List (DmlInput α) → Option (DmlState α × List (DmlMessage α))
  | [] => some (st, [])
  | i :: is => do
    let r ← dmlStep st i
    let r' ← dmlRun r.1 is
    pure (r'.1, r.2 ++ r'.2)

/-- Initial DML executor state (after the first barrier): no active
transactions, empty batch group, fresh builder. -/
def dmlInit {α : Type} (chunkSize : Nat) : DmlState α :=
  ⟨chunkSize, [], [], StreamChunkBuilder.new chunkSize, false⟩

/-! ## Local barrier worker (src/stream/src/task/barrier_manager.rs) -/

/-- Actor ids. -/
abbrev ActorId := Nat

/-- Barrier kinds. -/
inductive BarrierKind where
  | initial
  | barrier
  | checkpoint
deriving DecidableEq, Repr

/-- A barrier as handled by the local barrier worker: its epoch pair, kind,
and the actors a Stop mutation lists (empty when there is no Stop). -/
structure PbBarrier where
  prevEpoch : Nat
  currEpoch : Nat
  kind : BarrierKind
  stopActors : List ActorId
deriving DecidableEq, Repr

/-- Executor error kinds scored by the failure-root selection. -/
inductive ExecErrKind where
  | channelClosed
  | internalErr
  | otherExec
deriving DecidableEq, Repr

/-- `StreamError` kinds scored by the failure-root selection. -/
inductive StreamErrKind where
  | internalErr
  | executor (e : ExecErrKind)
  | otherKind
deriving DecidableEq, Repr

/-- A recorded actor error: the actor it came from and its kind. -/
structure StreamErr where
  actor : ActorId
  kind : StreamErrKind
deriving DecidableEq, Repr

/-- The score of a `StreamExecutorError`: channel-closed 0, internal 1,
anything else 999. -/
def streamExecutorErrorScore : ExecErrKind → Nat
  | .channelClosed => 0
  | .internalErr => 1
  | .otherExec => 999

/-- The score of a `StreamError`: internal 1000, executor 2000 plus the
executor score, anything else 3000. -/
def streamErrorScore (e : StreamErr) : Nat :=
  match e.kind with
  | .internalErr => 1000
  | .executor ee => 2000 + streamExecutorErrorScore ee
  | .otherKind => 3000

/-- One step of the maximum-by-score fold of `try_find_root_actor_failure`
(Rust `Iterator::max_by_key` keeps the last maximum on ties). -/
def rootFold (acc : Option StreamErr) (e : StreamErr) : Option StreamErr :=
  match acc with
  | none => some e
  | some a => if streamErrorScore a ≤ streamErrorScore e then some e else some a

/-- `try_find_root_actor_failure`: the highest-scored recorded error, the
last one on ties. -/
def tryFindRootActorFailure (l : List StreamErr) : Option StreamErr :=
  l.foldl rootFold none

/-- The errors the worker returns from `send_barrier` (each carries the data
rendered into its message). -/
inductive SendErr where
  | toCollectNotFound (toCollect : List ActorId)
  | priorActorFailure (e : StreamErr)
  | barrierSendChannelClosed (actor : ActorId)
  | barrierSendSenderNotFound (actor : ActorId)
deriving DecidableEq, Repr

/-- The actor ids rendered into the message of a `send_barrier` error (the
"to collect actors not found" message formats the whole `to_collect` set). -/
def sendErrMentions : SendErr → List ActorId
  | .toCollectNotFound tc => tc
  | .priorActorFailure e => [e.actor]
  | .barrierSendChannelClosed a => [a]
  | .barrierSendSenderNotFound a => [a]

/-- The worker state touched by `send_barrier`: the locally known actor
handles, the recorded failed actors, the registered barrier senders (each
with an open/closed flag), the managed barrier state's issued entries, and
the watermark epoch. -/
structure BarrierWorkerState where
  handles : List ActorId
  failureActors : List (ActorId × StreamErr)
  rootFailure : Option StreamErr
  barrierSenders : List (ActorId × List Bool)
  issued : List (Nat × List ActorId)
  watermark : Nat
deriving DecidableEq, Repr

/-- The outcome of `send_barrier`: the resulting state, the actors the
barrier was enqueued to, the structured error returned (if any), and the
panic message if an assertion fired. -/
structure SendOutcome where
  newState : BarrierWorkerState
  sent : List ActorId
  errResult : Option SendErr
  panicked : Option String
deriving DecidableEq, Repr

/-- Enqueue the barrier to every registered sender of every `to_send` actor,
in order; a closed sender or an unregistered actor aborts with an error. -/
def sendToActors (senders : List (ActorId × List Bool)) :
    List ActorId → List ActorId × Option SendErr
  | [] => ([], none)
  | a :: rest =>
    match mlookup senders a with
    | none => ([], some (.barrierSendSenderNotFound a))
    | some chans =>
      if chans.all (fun open_ => open_) then
        let r := sendToActors senders rest
        (a :: r.1, r.2)
      else ([], some (.barrierSendChannelClosed a))

/-- `LocalBarrierWorker::send_barrier` (non-test build): validate that every
`to_collect` actor is known locally, publish an Initial barrier's epoch to
the watermark, assert `to_collect` is non-empty, fail on a previously failed
`to_collect` actor, record the barrier in managed state, enqueue it to the
`to_send` actors' senders, and drop the senders of actors a Stop mutation
lists. -/
def sendBarrier (st : BarrierWorkerState) (b : PbBarrier)
    (toSend toCollect : List ActorId) : SendOutcome :=
  let missing := toCollect.filter (fun id => !(st.handles.contains id))
  if missing ≠ [] then ⟨st, [], some (.toCollectNotFound toCollect), none⟩
  else
    let st1 :=
      if b.kind = .initial then { st with watermark := b.currEpoch } else st
    if toCollect.isEmpty then
      ⟨st1, [], none, some "assertion failed: !to_collect.is_empty()"⟩
    else
      match toCollect.findSome? (fun id => (mlookup st1.failureActors id).map (fun e => (id, e))) with
      | some (_, e) =>
        ⟨st1, [], some (.priorActorFailure (st1.rootFailure.getD e)), none⟩
      | none =>
        let st2 := { st1 with issued := st1.issued ++ [(b.currEpoch, toCollect)] }
        let r := sendToActors st2.barrierSenders toSend
        match r.2 with
        | some e => ⟨st2, r.1, some e, none⟩
        | none =>
          let st3 :=
            { st2 with
              barrierSenders :=
                st2.barrierSenders.filter (fun s => !(b.stopActors.contains s.1)) }
          ⟨st3, r.1, none, none⟩

/-- `ControlStreamHandle::inspect_result` composed over the outcome of an
`InjectBarrier` request: an error result resets the control stream with an
internal status rendering the error. -/
def injectBarrierResetStatus (o : SendOutcome) : Option SendErr :=
  o.errResult

/-! ## Concrete sample inputs (used by witnesses and counterexamples) -/

/-- Sample row type: three integer columns. -/
abbrev Row3 := Int × Int × Int

/-- Stream-key projection onto columns 0 and 1 of a three-column row. -/
def sampleKeyProj : Row3 → Int × Int := fun r => (r.1, r.2.1)

/-- Shorthand for a visible sample record. -/
def mkRec (op : Op) (a b c : Int) : Rec Row3 := ⟨op, (a, b, c), true⟩

/-- The two input chunks of the compactor unit test (`test_merge_chunk_row`
and `test_compact_chunk_row`). -/
def sampleChunks : List (Chunk Row3) :=
  [[mkRec .delete 1 1 1, mkRec .insert 1 1 2, mkRec .insert 2 5 7,
    mkRec .insert 4 9 2, mkRec .delete 2 5 7, mkRec .insert 2 5 5,
    mkRec .delete 6 6 9, mkRec .insert 6 6 9, mkRec .delete 9 9 1],
   [mkRec .delete 6 6 9, mkRec .insert 9 9 9, mkRec .delete 9 9 4,
    mkRec .insert 2 2 2, mkRec .insert 9 9 1]]

/-- The in-place compaction of `sampleChunks`. -/
def sampleCompacted : List (Chunk Row3) :=
  match intoCompactedChunks true sampleKeyProj sampleChunks with
  | .ok o => o
  | .error _ => []

/-- A chunk sequence with a duplicated insert for stream key 1. -/
def dupInsChunks : List (Chunk (Int × Int)) :=
  [[⟨.insert, (1, 1), true⟩, ⟨.insert, (1, 2), true⟩]]

/-- Sample compaction state whose map holds a surviving insert. -/
def dupSampleSt : CompSt Int Int := ⟨[((0, 0), ⟨.insert, 5, true⟩)], [(5, ⟨none, (0, 0)⟩)]⟩

/-- Sample failure list with a channel-closed executor error, an internal
executor error and a third, higher-scored executor error. -/
def tripleErrs : List StreamErr :=
  [⟨1, .executor .channelClosed⟩, ⟨2, .executor .internalErr⟩,
   ⟨3, .executor .otherExec⟩]

/-- Sample failure list with only a channel-closed executor error and an
internal executor error. -/
def pairErrs : List StreamErr :=
  [⟨1, .executor .channelClosed⟩, ⟨2, .executor .internalErr⟩]

/-- Sample barrier worker state knowing actors 1 and 2. -/
def sampleWorkerSt : BarrierWorkerState := ⟨[1, 2], [], none, [], [], 0⟩

/-- A sample barrier. -/
def sampleBarrier : PbBarrier := ⟨1, 2, .barrier, []⟩

/-- A sample two-row chunk over one integer column. -/
def twoRowChunk : Chunk Int := [⟨.insert, 1, true⟩, ⟨.insert, 2, true⟩]

/-- A sample three-row chunk over one integer column. -/
def threeRowChunk : Chunk Int :=
  [⟨.insert, 3, true⟩, ⟨.insert, 4, true⟩, ⟨.insert, 5, true⟩]

/-- A DML state with one open transaction (id 7) holding a two-row chunk. -/
def sampleDmlSt : DmlState Int :=
  { dmlInit 4 with activeTxnMap := [(7, ⟨[twoRowChunk], false⟩)] }

/-- A DML state with a non-empty batch group. -/
def sampleDmlGroupSt : DmlState Int :=
  { dmlInit 1024 with batchGroup := [twoRowChunk, threeRowChunk] }

/-- The S3 scenario input: barrier, a committed 2-row transaction, a
committed 3-row transaction, barrier. -/
def s3Inputs : List (DmlInput Int) :=
  [.left (.barrier ⟨1, none⟩),
   .right (.txnBegin 1), .right (.txnData 1 twoRowChunk), .right (.txnEnd 1),
   .right (.txnBegin 2), .right (.txnData 2 threeRowChunk), .right (.txnEnd 2),
   .left (.barrier ⟨2, none⟩)]

/-! ## Specification predicates and proof-level views of the compactor -/

/-- The skeleton of a flattened chunk sequence: positions and rows only.
In-place compaction mutates only op tags and visibility bits, so the skeleton
is invariant. -/
def skel {α : Type} (f : FChunks α) : List (Pos × α) :=
  f.map (fun e => (e.1, e.2.row))

/-- The position sequence of a flattened chunk sequence. -/
def posOf {α : Type} (f : FChunks α) : List Pos :=
  f.map (fun e => e.1)

/-- Positions are pairwise distinct (true of every flattened chunk
sequence). -/
def posNodup {α : Type} (f : FChunks α) : Prop :=
  (posOf f).Nodup

/-- The number of visible records of a flattened chunk sequence. -/
def countVisF {α : Type} (f : FChunks α) : Nat :=
  (f.filter (fun e => e.2.vis)).length

/-- Invariant of the first compaction pass after the first `n` row positions
of `f0` have been processed: the skeleton is unchanged, unprocessed rows are
untouched, invisible input rows are untouched, map keys are distinct, and for
every key the per-key machine on the processed prefix describes both the map
entry and the surviving visible records. -/
structure MainInv {α κ : Type} [DecidableEq κ] (proj : α → κ) (f0 : FChunks α)
    (n : Nat) (st : CompSt α κ) : Prop where
  skelEq : skel st.f = skel f0
  future : st.f.drop n = f0.drop n
  invis : ∀ p r, (p, r) ∈ f0 → r.vis = false → readAt st.f p = some r
  mkeys : (st.m.map (fun e => e.1)).Nodup
  keys : ∀ k, ∃ tup, machineRun (pat proj k (f0.take n)) = .ok tup ∧
    mlookup st.m k = tupEntry tup ∧
    keyFilter proj k (st.f.take n) = tupRecs tup

/-- What the full in-place compaction does to a flattened chunk sequence:
the skeleton is unchanged, invisible rows are untouched, and for every key
the surviving visible records are exactly those of the per-key machine's
final state (update pairs cancelled when equal, re-tagged when adjacent). -/
structure InplaceSpec {α κ : Type} [DecidableEq α] [DecidableEq κ] (proj : α → κ)
    (f0 fout : FChunks α) : Prop where
  skelEq : skel fout = skel f0
  invis : ∀ p r, (p, r) ∈ f0 → r.vis = false → readAt fout p = some r
  keys : ∀ k, ∃ tup, machineRun (pat proj k f0) = .ok tup ∧
    keyFilter proj k fout = finalRecs tup

/-- The per-key downstream-replay relation between the initial per-key state
`v0`, a machine state, and the current per-key state `v`. -/
def kstRel {α : Type} (v0 : Option α) : Option (KSt α) → Option α → Prop
  | none, v => v = v0
  | some (.ins _ r), v => v0 = none ∧ v = some r
  | some (.del _ r), v => v0 = some r ∧ v = none
  | some (.delins _ d _ i), v => v0 = some d ∧ v = some i

/-- The reconstruct-mode map entry corresponding to a per-key machine
state. -/
def rowOpOf {α : Type} : Option (KSt α) → Option (RowOp α)
  | none => none
  | some (.ins _ r) => some (.ins r)
  | some (.del _ r) => some (.del r)
  | some (.delins _ d _ i) => some (.upd d i)

/-- The records `RowOpMap::into_chunks` appends to the builder for one map
entry (a no-op update is skipped). -/
def entryEmit {α : Type} [DecidableEq α] : RowOp α → List (Op × α)
  | .ins r => [(.insert, r)]
  | .del r => [(.delete, r)]
  | .upd o n => if o = n then [] else [(.updateDelete, o), (.updateInsert, n)]

/-- The weight of a reconstruct-map entry: the number of rows it can emit. -/
def rowOpWeight {α : Type} : RowOp α → Nat
  | .ins _ => 1
  | .del _ => 1
  | .upd _ _ => 2

/-- The total weight of a reconstruct map. -/
def rmWeight {α κ : Type} (m : RowOpMapL α κ) : Nat :=
  (m.map (fun e => rowOpWeight e.2)).sum

/-- The stored rows of a reconstruct-map entry all project to the entry's
key. -/
def ropKeyed {α κ : Type} (proj : α → κ) (e : κ × RowOp α) : Prop :=
  match e.2 with
  | .ins r => proj r = e.1
  | .del r => proj r = e.1
  | .upd o n => proj o = e.1 ∧ proj n = e.1

/-- The visible key-`k` records of a row list, as (op, row) pairs. -/
def rowsKeyOps {α κ : Type} [DecidableEq κ] (proj : α → κ) (k : κ) :
    List (Rec α) → List (Op × α)
  | [] => []
  | r :: t =>
    if r.vis = true ∧ proj r.row = k then (r.op, r.row) :: rowsKeyOps proj k t
    else rowsKeyOps proj k t

/-- The canonical final per-key machine state of a flattened chunk sequence
(meaningful when the machine succeeds). -/
def machineTup {α κ : Type} [DecidableEq κ] (proj : α → κ) (k : κ)
    (f0 : FChunks α) : Option (KSt α) :=
  match machineRun (pat proj k f0) with
  | .ok t => t
  | .error _ => none

end RW

namespace RW

/-! # Theorems -/

/-! ## Helper lemmas: reconstruct-mode duplicate handling -/

theorem rmInsert_dup_ins {α κ : Type} [DecidableEq κ] :
    ∀ (m : RowOpMapL α κ) (k : κ) (v w : α), mlookup m k = some (.ins w) →
      (rmInsert m k v).2 = true ∧ mlookup (rmInsert m k v).1 k = some (.ins v) := by
  intro m k v
  induction m with
  | nil => intro w h; simp [mlookup] at h
  | cons e t ih =>
    intro w h
    obtain ⟨k', x⟩ := e
    by_cases hk : k' = k
    · subst hk
      simp [mlookup] at h
      subst h
      simp [rmInsert, mlookup]
    · simp [mlookup, hk] at h
      have := ih _ h
      simp [rmInsert, hk, mlookup, this.1, this.2]

theorem rmInsert_dup_upd {α κ : Type} [DecidableEq κ] :
    ∀ (m : RowOpMapL α κ) (k : κ) (v old w : α), mlookup m k = some (.upd old w) →
      (rmInsert m k v).2 = true ∧ mlookup (rmInsert m k v).1 k = some (.upd old v) := by
  intro m k v
  induction m with
  | nil => intro old w h; simp [mlookup] at h
  | cons e t ih =>
    intro old w h
    obtain ⟨k', x⟩ := e
    by_cases hk : k' = k
    · subst hk
      simp [mlookup] at h
      subst h
      simp [rmInsert, mlookup]
    · simp [mlookup, hk] at h
      have := ih _ _ h
      simp [rmInsert, hk, mlookup, this.1, this.2]

theorem rmDelete_dup_del {α κ : Type} [DecidableEq κ] :
    ∀ (m : RowOpMapL α κ) (k : κ) (v w : α), mlookup m k = some (.del w) →
      (rmDelete m k v).2 = true ∧ mlookup (rmDelete m k v).1 k = some (.del v) := by
  intro m k v
  induction m with
  | nil => intro w h; simp [mlookup] at h
  | cons e t ih =>
    intro w h
    obtain ⟨k', x⟩ := e
    by_cases hk : k' = k
    · subst hk
      simp [mlookup] at h
      subst h
      simp [rmDelete, mlookup]
    · simp [mlookup, hk] at h
      have := ih _ h
      simp [rmDelete, hk, mlookup, this.1, this.2]

/-! ## Helper lemmas: failure-root selection -/

theorem rootFold_two_kinds :
    ∀ (l : List StreamErr) (a : StreamErr),
      (∀ e ∈ l, e.kind = .executor .channelClosed ∨ e.kind = .executor .internalErr) →
      (a.kind = .executor .channelClosed ∨ a.kind = .executor .internalErr) →
      (a.kind = .executor .internalErr ∨ ∃ e ∈ l, e.kind = .executor .internalErr) →
      ∃ r, l.foldl rootFold (some a) = some r ∧ r.kind = .executor .internalErr := by
  intro l
  induction l with
  | nil =>
    intro a _ _ hex
    refine ⟨a, rfl, ?_⟩
    rcases hex with h | ⟨e, he, _⟩
    · exact h
    · simp at he
  | cons e t ih =>
    intro a hk ha hex
    have hke : e.kind = .executor .channelClosed ∨ e.kind = .executor .internalErr :=
      hk e (by simp)
    have hkt : ∀ x ∈ t, x.kind = .executor .channelClosed ∨ x.kind = .executor .internalErr :=
      fun x hx => hk x (by simp [hx])
    have hstep : List.foldl rootFold (some a) (e :: t) = List.foldl rootFold (rootFold (some a) e) t := rfl
    rcases ha with hacc | hacc <;> rcases hke with hke | hke
    · -- acc channel-closed, e channel-closed: internal witness must be in t
      rcases hex with hex | ⟨x, hx, hxi⟩
      · rw [hacc] at hex; simp at hex
      · rcases (List.mem_cons.mp hx) with rfl | hx
        · rw [hke] at hxi; simp at hxi
        · have : rootFold (some a) e = some e ∨ rootFold (some a) e = some a := by
            simp only [rootFold]
            split <;> simp
          rcases this with h2 | h2 <;> rw [hstep, h2]
          · exact ih e hkt (Or.inl hke) (Or.inr ⟨x, hx, hxi⟩)
          · exact ih a hkt (Or.inl hacc) (Or.inr ⟨x, hx, hxi⟩)
    · -- acc channel-closed, e internal: e wins (2000 ≤ 2001)
      have h2 : rootFold (some a) e = some e := by
        simp only [rootFold, streamErrorScore, hacc, hke, streamExecutorErrorScore]
        norm_num
      rw [hstep, h2]
      exact ih e hkt (Or.inr hke) (Or.inl hke)
    · -- acc internal, e channel-closed: acc survives (2001 ≤ 2000 is false)
      have h2 : rootFold (some a) e = some a := by
        simp only [rootFold, streamErrorScore, hacc, hke, streamExecutorErrorScore]
        norm_num
      rw [hstep, h2]
      exact ih a hkt (Or.inr hacc) (Or.inl hacc)
    · -- both internal: e wins the tie
      have h2 : rootFold (some a) e = some e := by
        simp only [rootFold, streamErrorScore, hacc, hke, streamExecutorErrorScore]
        norm_num
      rw [hstep, h2]
      exact ih e hkt (Or.inr hke) (Or.inl hke)

/-! ## Helper lemmas: chunk builder bounds -/

theorem builderFeed_bound {α : Type} :
    ∀ (rows : List (Op × α)) (b : StreamChunkBuilder α),
      b.pending.length < b.chunkSize →
      (builderFeed b rows).1.chunkSize = b.chunkSize ∧
      (builderFeed b rows).1.pending.length < b.chunkSize ∧
      ∀ c ∈ (builderFeed b rows).2, c.length ≤ b.chunkSize := by
  intro rows
  induction rows with
  | nil => intro b hb; exact ⟨rfl, hb, by simp [builderFeed]⟩
  | cons r rest ih =>
    intro b hb
    simp only [builderFeed]
    have hcs : (b.appendRow r.1 r.2).2.chunkSize = b.chunkSize ∧
        (b.appendRow r.1 r.2).2.pending.length < b.chunkSize ∧
        ∀ c ∈ (b.appendRow r.1 r.2).1.toList, c.length ≤ b.chunkSize := by
      simp only [StreamChunkBuilder.appendRow, StreamChunkBuilder.appendRowInner]
      split
      · rename_i hcond
        refine ⟨rfl, by simpa using Nat.lt_of_le_of_lt (Nat.zero_le _) hb, ?_⟩
        intro c hc
        simp at hc
        subst hc
        simp
        omega
      · rename_i hcond
        simp only [true_and, not_le] at hcond
        exact ⟨rfl, by simpa using hcond, by simp⟩
    have hrec := ih (b.appendRow r.1 r.2).2 (hcs.1 ▸ hcs.2.1)
    rw [hcs.1] at hrec
    refine ⟨hrec.1, hrec.2.1, ?_⟩
    intro c hc
    simp only [List.mem_append] at hc
    rcases hc with hc | hc
    · exact hcs.2.2 c hc
    · exact hrec.2.2 c hc

end RW

namespace RW

theorem pauseAdjust_fields {α : Type} (st : DmlState α) (b : DmlBarrier) :
    (pauseAdjust st b).builder = st.builder ∧
    (pauseAdjust st b).batchGroup = st.batchGroup ∧
    (pauseAdjust st b).chunkSize = st.chunkSize := by
  unfold pauseAdjust
  rcases b.mutation with _ | m
  · exact ⟨rfl, rfl, rfl⟩
  · cases m <;> exact ⟨rfl, rfl, rfl⟩

theorem flushBatchGroup_bound {α : Type} (st : DmlState α)
    (h0 : st.builder.pending = []) (h1 : 1 ≤ st.builder.chunkSize) :
    ∀ c ∈ (flushBatchGroup st).2, c.length ≤ st.builder.chunkSize := by
  unfold flushBatchGroup
  split
  · simp
  · intro c hc
    have hfeed := builderFeed_bound ((st.batchGroup.map chunkRecs).flatten) st.builder
      (by rw [h0]; simpa using h1)
    simp only [List.mem_append] at hc
    rcases hc with hc | hc
    · exact hfeed.2.2 c hc
    · -- the final take: its chunk is the remaining pending buffer
      rcases hfeed with ⟨hsz, hlt, -⟩
      revert hc
      unfold StreamChunkBuilder.take
      split
      · simp
      · rename_i hpend
        intro hc
        simp only [Option.toList_some, List.mem_singleton] at hc
        subst hc
        simp only [List.length_map]
        omega

/-- Claim C5: when the DML executor receives an upstream barrier, it first
emits the flushed batch-group rows, packed by the chunk builder into chunks
of at most chunk_size rows, and only then the barrier itself; and in the S3
scenario (chunk_size 1024, a committed 2-row transaction and a committed
3-row transaction between barriers B1 and B2) downstream sees B1, one single
5-row chunk, then B2. -/
theorem c5_dml_barrier_after_flush {α : Type} (st : DmlState α) (b : DmlBarrier)
    (h0 : st.builder.pending = []) (h1 : 1 ≤ st.builder.chunkSize)
    (h2 : st.builder.chunkSize = st.chunkSize) :
    (∃ (st' : DmlState α) (cs : List (Chunk α)),
      handleBarrier st b = (st', cs.map DmlMessage.chunk ++ [DmlMessage.barrier b]) ∧
      ∀ c ∈ cs, c.length ≤ st.chunkSize) ∧
    (dmlRun (dmlInit 1024) s3Inputs).map (fun r => r.2) =
      some [DmlMessage.barrier ⟨1, none⟩,
            DmlMessage.chunk (twoRowChunk ++ threeRowChunk),
            DmlMessage.barrier ⟨2, none⟩] := by
  constructor
  · refine ⟨(flushBatchGroup (pauseAdjust st b)).1, (flushBatchGroup (pauseAdjust st b)).2,
      rfl, ?_⟩
    have hpa := pauseAdjust_fields st b
    have := flushBatchGroup_bound (pauseAdjust st b)
      (by rw [hpa.1, h0]) (by rw [hpa.1]; exact h1)
    rw [hpa.1, h2] at this
    exact this
  · rfl

/-- Witness for C5 at a concrete state with a non-empty batch group. -/
theorem c5_witness :
    (sampleDmlGroupSt.builder.pending = [] ∧ 1 ≤ sampleDmlGroupSt.builder.chunkSize ∧
      sampleDmlGroupSt.builder.chunkSize = sampleDmlGroupSt.chunkSize) ∧
    ((∃ (st' : DmlState Int) (cs : List (Chunk Int)),
        handleBarrier sampleDmlGroupSt ⟨5, none⟩ =
        (st', cs.map DmlMessage.chunk ++ [DmlMessage.barrier ⟨5, none⟩]) ∧
        ∀ c ∈ cs, c.length ≤ sampleDmlGroupSt.chunkSize) ∧
      (dmlRun (dmlInit 1024) s3Inputs).map (fun r => r.2) =
        some [DmlMessage.barrier ⟨1, none⟩,
              DmlMessage.chunk (twoRowChunk ++ threeRowChunk),
              DmlMessage.barrier ⟨2, none⟩]) :=
  ⟨⟨rfl, by decide, rfl⟩,
   c5_dml_barrier_after_flush sampleDmlGroupSt ⟨5, none⟩ rfl (by decide) rfl⟩

end RW

namespace RW

/-- Claim C3: on TxnMsg::End of a known transaction, with T the summed
cardinality of its buffered chunks and G the batch group's, the DML executor
either (T at least chunk_size) flushes the batch group through the chunk
builder and then forwards every buffered chunk as-is, or (T + G at most
chunk_size) appends the transaction's chunks to the batch group and emits
nothing, or otherwise flushes the batch group and makes the transaction's
chunks the new batch group. -/
theorem c3_dml_txn_end_three_way {α : Type} (st : DmlState α) (id : TxnId)
    (buf : TxnBuffer α) (h : mlookup st.activeTxnMap id = some buf) :
    (st.chunkSize ≤ (buf.vec.map chunkCard).sum →
      handleTxnEnd st id =
        some ((flushBatchGroup { st with activeTxnMap := mremove st.activeTxnMap id }).1,
          (flushBatchGroup { st with activeTxnMap := mremove st.activeTxnMap id }).2.map
              DmlMessage.chunk
            ++ buf.vec.map DmlMessage.chunk)) ∧
    ((buf.vec.map chunkCard).sum < st.chunkSize →
      (buf.vec.map chunkCard).sum + (st.batchGroup.map chunkCard).sum ≤ st.chunkSize →
      handleTxnEnd st id =
        some ({ st with activeTxnMap := mremove st.activeTxnMap id,
                        batchGroup := st.batchGroup ++ buf.vec }, [])) ∧
    ((buf.vec.map chunkCard).sum < st.chunkSize →
      st.chunkSize < (buf.vec.map chunkCard).sum + (st.batchGroup.map chunkCard).sum →
      handleTxnEnd st id =
        some ({ (flushBatchGroup { st with activeTxnMap := mremove st.activeTxnMap id }).1
                  with batchGroup := buf.vec },
          (flushBatchGroup { st with activeTxnMap := mremove st.activeTxnMap id }).2.map
            DmlMessage.chunk)) := by
  refine ⟨?_, ?_, ?_⟩ <;> intro h1 <;> try intro h2
  all_goals simp only [handleTxnEnd, h]
  all_goals split_ifs <;> first | rfl | omega

/-- Witness for C3 at a concrete state: a 2-row transaction joins the empty
batch group of a chunk_size-4 executor. -/
theorem c3_witness :
    mlookup sampleDmlSt.activeTxnMap 7 = some ⟨[twoRowChunk], false⟩ ∧
    handleTxnEnd sampleDmlSt 7 =
      some ({ sampleDmlSt with activeTxnMap := [], batchGroup := [twoRowChunk] }, []) := by
  refine ⟨rfl, ?_⟩
  have h := (c3_dml_txn_end_three_way sampleDmlSt 7 ⟨[twoRowChunk], false⟩ rfl).2.1
    (by decide) (by decide)
  rw [h]
  decide

/-- Claim C4: while a transaction's buffer has not overflowed, TxnMsg::Data
appends the chunk; as soon as the buffer length exceeds
MAX_CHUNK_FOR_ATOMICITY = 32 all buffered chunks are drained downstream in
order, overflow becomes true and a warning is logged; afterwards every Data
chunk is forwarded immediately without buffering, and a Rollback of an
overflowed transaction only logs a warning and emits nothing (no retraction
of forwarded chunks). -/
theorem c4_dml_atomicity_overflow {α : Type} (st : DmlState α) (id : TxnId)
    (c : Chunk α) (buf : TxnBuffer α) (h : mlookup st.activeTxnMap id = some buf) :
    MAX_CHUNK_FOR_ATOMICITY = 32 ∧
    (buf.overflow = false → (buf.vec ++ [c]).length ≤ MAX_CHUNK_FOR_ATOMICITY →
      handleTxnData st id c =
        some ({ st with activeTxnMap := mreplace st.activeTxnMap id ⟨buf.vec ++ [c], false⟩ },
          [], false)) ∧
    (buf.overflow = false → MAX_CHUNK_FOR_ATOMICITY < (buf.vec ++ [c]).length →
      handleTxnData st id c =
        some ({ st with activeTxnMap := mreplace st.activeTxnMap id ⟨[], true⟩ },
          (buf.vec ++ [c]).map DmlMessage.chunk, true)) ∧
    (buf.overflow = true →
      handleTxnData st id c = some (st, [DmlMessage.chunk c], false)) ∧
    (buf.overflow = true →
      handleTxnRollback st id =
        some ({ st with activeTxnMap := mremove st.activeTxnMap id }, [], true)) := by
  refine ⟨rfl, ?_, ?_, ?_, ?_⟩
  · intro hov hlen
    simp only [handleTxnData, h, hov]
    split_ifs <;> first | rfl | omega | simp_all
  · intro hov hlen
    simp only [handleTxnData, h, hov]
    split_ifs <;> first | rfl | omega | simp_all
  · intro hov
    simp [handleTxnData, h, hov]
  · intro hov
    simp [handleTxnRollback, h, hov]

/-- Witness for C4 at a concrete state: a buffered append and the overflow
behaviours of a separate overflowed transaction. -/
theorem c4_witness :
    mlookup sampleDmlSt.activeTxnMap 7 = some ⟨[twoRowChunk], false⟩ ∧
    (MAX_CHUNK_FOR_ATOMICITY = 32 ∧
      handleTxnData sampleDmlSt 7 threeRowChunk =
        some ({ sampleDmlSt with
                  activeTxnMap := [(7, ⟨[twoRowChunk, threeRowChunk], false⟩)] }, [], false)) := by
  refine ⟨rfl, rfl, ?_⟩
  have h := (c4_dml_atomicity_overflow sampleDmlSt 7 threeRowChunk
    ⟨[twoRowChunk], false⟩ rfl).2.1 rfl (by decide)
  rw [h]
  decide

end RW

namespace RW

/-- Claim C6 counterexample: the claim states the in-place duplicated-operation
check fires only in debug builds, but it is an unconditional Rust panic; with
debug assertions compiled out (dbg = false) a duplicated insert still aborts
in-place compaction, while reconstruct mode logs one warning and keeps the
newer value. -/
theorem c6_counterexample_release_mode_panics :
    intoCompactedChunks false Prod.fst dupInsChunks =
      .error "receive duplicated insert on the stream" ∧
    (reconstructedCompactedChunks Prod.fst 10 dupInsChunks).2 = 1 ∧
    (reconstructedCompactedChunks Prod.fst 10 dupInsChunks).1 =
      [[⟨.insert, (1, 2), true⟩]] := by
  refine ⟨rfl, rfl, rfl⟩

/-- Claim C6 (amended): on a duplicate insert or duplicate delete for the same
stream key, reconstruct mode logs a warning and the newer value wins, while
in in-place mode the duplicated-operation panic fires in every build (it is a
plain panic, not a debug assertion); no mode silently drops the duplicate. -/
theorem c6_duplicate_handling {α κ : Type} [DecidableEq κ] (dbg : Bool)
    (st : CompSt α κ) (k : κ) (t : OpRowTuple) (p : Pos) (lrec : Rec α)
    (hla : readAt st.f t.latest = some lrec) (hvis : lrec.vis = true) :
    (lrec.op = .insert →
      pushStep dbg st k t p .insert = .error "receive duplicated insert on the stream") ∧
    (lrec.op = .delete →
      pushStep dbg st k t p .delete = .error "receive duplicated delete on the stream") ∧
    (∀ (m : RowOpMapL α κ) (v w : α), mlookup m k = some (.ins w) →
      (rmInsert m k v).2 = true ∧ mlookup (rmInsert m k v).1 k = some (.ins v)) ∧
    (∀ (m : RowOpMapL α κ) (v old w : α), mlookup m k = some (.upd old w) →
      (rmInsert m k v).2 = true ∧ mlookup (rmInsert m k v).1 k = some (.upd old v)) ∧
    (∀ (m : RowOpMapL α κ) (v w : α), mlookup m k = some (.del w) →
      (rmDelete m k v).2 = true ∧ mlookup (rmDelete m k v).1 k = some (.del v)) := by
  refine ⟨?_, ?_, fun m v w hm => rmInsert_dup_ins m k v w hm,
    fun m v old w hm => rmInsert_dup_upd m k v old w hm,
    fun m v w hm => rmDelete_dup_del m k v w hm⟩
  · intro hop
    simp only [pushStep, hla, hvis, hop]
    simp
  · intro hop
    simp only [pushStep, hla, hvis, hop]
    simp

/-- Witness for C6 (amended) at a concrete compaction state holding a
surviving insert for key 5. -/
theorem c6_witness :
    (readAt dupSampleSt.f (0, 0) = some ⟨.insert, 5, true⟩ ∧
      (⟨.insert, (5 : Int), true⟩ : Rec Int).vis = true) ∧
    (((⟨.insert, (5 : Int), true⟩ : Rec Int).op = .insert →
      pushStep false dupSampleSt 5 ⟨none, (0, 0)⟩ (0, 1) .insert =
        .error "receive duplicated insert on the stream") ∧
    ((⟨.insert, (5 : Int), true⟩ : Rec Int).op = .delete →
      pushStep false dupSampleSt 5 ⟨none, (0, 0)⟩ (0, 1) .delete =
        .error "receive duplicated delete on the stream") ∧
    (∀ (m : RowOpMapL Int Int) (v w : Int), mlookup m 5 = some (.ins w) →
      (rmInsert m 5 v).2 = true ∧ mlookup (rmInsert m 5 v).1 5 = some (.ins v)) ∧
    (∀ (m : RowOpMapL Int Int) (v old w : Int), mlookup m 5 = some (.upd old w) →
      (rmInsert m 5 v).2 = true ∧ mlookup (rmInsert m 5 v).1 5 = some (.upd old v)) ∧
    (∀ (m : RowOpMapL Int Int) (v w : Int), mlookup m 5 = some (.del w) →
      (rmDelete m 5 v).2 = true ∧ mlookup (rmDelete m 5 v).1 5 = some (.del v))) :=
  ⟨⟨rfl, rfl⟩, c6_duplicate_handling false dupSampleSt 5 ⟨none, (0, 0)⟩ (0, 1)
    ⟨.insert, 5, true⟩ rfl rfl⟩

/-- Claim C8: an InjectBarrier whose to_collect set contains an actor id with
no local handle yields a structured error: the barrier is not recorded in
managed state, nothing is sent to any actor, there is no panic, and the
control-stream reset status renders a list of actor ids containing the
missing one. -/
theorem c8_inject_barrier_unknown_actor (st : BarrierWorkerState) (b : PbBarrier)
    (toSend toCollect : List ActorId) (a : ActorId)
    (hmem : a ∈ toCollect) (hmiss : st.handles.contains a = false) :
    sendBarrier st b toSend toCollect =
      ⟨st, [], some (.toCollectNotFound toCollect), none⟩ ∧
    injectBarrierResetStatus (sendBarrier st b toSend toCollect) =
      some (.toCollectNotFound toCollect) ∧
    a ∈ sendErrMentions (.toCollectNotFound toCollect) := by
  have hmiss' : a ∈ toCollect.filter (fun id => !(st.handles.contains id)) := by
    rw [List.mem_filter]
    exact ⟨hmem, by simpa using hmiss⟩
  have hne : toCollect.filter (fun id => !(st.handles.contains id)) ≠ [] :=
    List.ne_nil_of_mem hmiss'
  have hmain : sendBarrier st b toSend toCollect =
      ⟨st, [], some (.toCollectNotFound toCollect), none⟩ := by
    simp only [sendBarrier]
    rw [if_pos hne]
  exact ⟨hmain, by rw [injectBarrierResetStatus, hmain], by simpa [sendErrMentions] using hmem⟩

/-- Witness for C8: actor 3 is in to_collect but has no handle. -/
theorem c8_witness :
    ((3 : ActorId) ∈ [2, 3] ∧ sampleWorkerSt.handles.contains 3 = false) ∧
    (sendBarrier sampleWorkerSt sampleBarrier [1] [2, 3] =
      ⟨sampleWorkerSt, [], some (.toCollectNotFound [2, 3]), none⟩ ∧
    injectBarrierResetStatus (sendBarrier sampleWorkerSt sampleBarrier [1] [2, 3]) =
      some (.toCollectNotFound [2, 3]) ∧
    (3 : ActorId) ∈ sendErrMentions (.toCollectNotFound [2, 3])) :=
  ⟨⟨by decide, by decide⟩,
   c8_inject_barrier_unknown_actor sampleWorkerSt sampleBarrier [1] [2, 3] 3
     (by decide) (by decide)⟩

/-- Claim C9 counterexample: a failure collection that contains a
channel-closed executor error and an internal executor error, plus a third
executor error of another kind, selects the third error (score 2999), not the
internal executor error — the claim as stated quantifies over every such
collection and is false. -/
theorem c9_counterexample_third_error_outranks :
    tryFindRootActorFailure tripleErrs = some ⟨3, .executor .otherExec⟩ ∧
    (⟨3, .executor .otherExec⟩ : StreamErr).kind ≠ .executor .internalErr ∧
    (∃ e ∈ tripleErrs, e.kind = .executor .channelClosed) ∧
    (∃ e ∈ tripleErrs, e.kind = .executor .internalErr) := by
  refine ⟨by decide, by decide, ⟨⟨1, .executor .channelClosed⟩, by decide, rfl⟩,
    ⟨⟨2, .executor .internalErr⟩, by decide, rfl⟩⟩

/-- Claim C9 (amended): when the recorded errors are all of the two kinds
channel-closed executor error and internal executor error, and at least one
internal executor error is present, try_find_root_actor_failure selects an
internal executor error (its score 2001 strictly exceeds channel-closed's
2000), so the control-stream reset carries the internal executor error. -/
theorem c9_amended_internal_executor_selected (l : List StreamErr)
    (hk : ∀ e ∈ l, e.kind = .executor .channelClosed ∨ e.kind = .executor .internalErr)
    (hex : ∃ e ∈ l, e.kind = .executor .internalErr) :
    ∃ r, tryFindRootActorFailure l = some r ∧ r.kind = .executor .internalErr := by
  cases l with
  | nil =>
    obtain ⟨e, he, -⟩ := hex
    simp at he
  | cons e t =>
    have hfold : tryFindRootActorFailure (e :: t) = t.foldl rootFold (some e) := rfl
    rw [hfold]
    refine rootFold_two_kinds t e (fun x hx => hk x (by simp [hx])) (hk e (by simp)) ?_
    obtain ⟨x, hx, hxi⟩ := hex
    rcases List.mem_cons.mp hx with rfl | hx
    · exact Or.inl hxi
    · exact Or.inr ⟨x, hx, hxi⟩

/-- Witness for C9 (amended) at the two-error collection of scenario S6. -/
theorem c9_witness :
    ((∀ e ∈ pairErrs,
        e.kind = .executor .channelClosed ∨ e.kind = .executor .internalErr) ∧
      (∃ e ∈ pairErrs, e.kind = .executor .internalErr)) ∧
    ∃ r, tryFindRootActorFailure pairErrs = some r ∧
      r.kind = .executor .internalErr :=
  ⟨⟨by decide, ⟨⟨2, .executor .internalErr⟩, by decide, rfl⟩⟩,
   c9_amended_internal_executor_selected pairErrs (by decide)
     ⟨⟨2, .executor .internalErr⟩, by decide, rfl⟩⟩

/-- Claim C10: an InjectBarrier with an empty actor_ids_to_collect reaches the
assertion in send_barrier and panics the worker instead of returning a
structured error; nothing is sent and nothing is recorded in managed state. -/
theorem c10_empty_to_collect_panics (st : BarrierWorkerState) (b : PbBarrier)
    (toSend : List ActorId) :
    (sendBarrier st b toSend []).panicked =
      some "assertion failed: !to_collect.is_empty()" ∧
    (sendBarrier st b toSend []).errResult = none ∧
    (sendBarrier st b toSend []).sent = [] ∧
    (sendBarrier st b toSend []).newState.issued = st.issued := by
  have h : sendBarrier st b toSend [] =
      ⟨if b.kind = .initial then { st with watermark := b.currEpoch } else st, [],
        none, some "assertion failed: !to_collect.is_empty()"⟩ := by
    simp [sendBarrier]
  rw [h]
  refine ⟨rfl, rfl, rfl, ?_⟩
  split <;> rfl

end RW


namespace RW

/-! ## Basic lemmas on positioned records -/

theorem posOf_writeAt {α : Type} (f : FChunks α) (p : Pos) (g : Rec α → Rec α) :
    posOf (writeAt f p g) = posOf f := by
  induction f with
  | nil => rfl
  | cons e t ih =>
    obtain ⟨q, r⟩ := e
    by_cases h : q = p <;> simp [writeAt, posOf, h] <;> simpa [posOf] using ih

theorem skel_writeAt {α : Type} (f : FChunks α) (p : Pos) (g : Rec α → Rec α)
    (hg : ∀ r, (g r).row = r.row) : skel (writeAt f p g) = skel f := by
  induction f with
  | nil => rfl
  | cons e t ih =>
    obtain ⟨q, r⟩ := e
    by_cases h : q = p <;> simp [writeAt, skel, h, hg] <;> simpa [skel] using ih

theorem skel_setOpAt {α : Type} (f : FChunks α) (p : Pos) (o : Op) :
    skel (setOpAt f p o) = skel f :=
  skel_writeAt f p _ (fun _ => rfl)

theorem skel_setVisAt {α : Type} (f : FChunks α) (p : Pos) (b : Bool) :
    skel (setVisAt f p b) = skel f :=
  skel_writeAt f p _ (fun _ => rfl)

theorem posOf_eq_of_skel {α : Type} {f1 f2 : FChunks α} (h : skel f1 = skel f2) :
    posOf f1 = posOf f2 := by
  have hview : ∀ (f : FChunks α), posOf f = (skel f).map (fun e => e.1) := by
    intro f
    unfold posOf skel
    rw [List.map_map]
    rfl
  rw [hview, hview, h]

theorem length_eq_of_skel {α : Type} {f1 f2 : FChunks α} (h : skel f1 = skel f2) :
    f1.length = f2.length := by
  have : (skel f1).length = (skel f2).length := by rw [h]
  simpa [skel] using this

theorem readAt_writeAt_self {α : Type} (f : FChunks α) (p : Pos) (g : Rec α → Rec α) :
    readAt (writeAt f p g) p = (readAt f p).map g := by
  induction f with
  | nil => rfl
  | cons e t ih =>
    obtain ⟨q, r⟩ := e
    by_cases h : q = p <;> simp [writeAt, readAt, h, ih]

theorem readAt_writeAt_ne {α : Type} (f : FChunks α) {p q : Pos} (g : Rec α → Rec α)
    (h : q ≠ p) : readAt (writeAt f p g) q = readAt f q := by
  induction f with
  | nil => rfl
  | cons e t ih =>
    obtain ⟨x, r⟩ := e
    by_cases hx : x = p
    · subst hx
      simp only [writeAt, if_pos rfl]
      simp only [readAt]
      rw [if_neg (fun hc => h hc.symm), if_neg (fun hc => h hc.symm)]
      exact ih
    · simp only [writeAt, if_neg hx]
      simp only [readAt]
      by_cases hq : x = q
      · simp [hq]
      · rw [if_neg hq, if_neg hq]
        exact ih

theorem writeAt_take {α : Type} (f : FChunks α) (p : Pos) (g : Rec α → Rec α) (n : Nat) :
    (writeAt f p g).take n = writeAt (f.take n) p g := by
  induction f generalizing n with
  | nil => simp [writeAt]
  | cons e t ih =>
    obtain ⟨q, r⟩ := e
    cases n with
    | zero => simp [writeAt]
    | succ n =>
      by_cases h : q = p <;> simp [writeAt, h, List.take_succ_cons, ih]

theorem writeAt_drop {α : Type} (f : FChunks α) (p : Pos) (g : Rec α → Rec α) (n : Nat) :
    (writeAt f p g).drop n = writeAt (f.drop n) p g := by
  induction f generalizing n with
  | nil => simp [writeAt]
  | cons e t ih =>
    obtain ⟨q, r⟩ := e
    cases n with
    | zero => rfl
    | succ n =>
      by_cases h : q = p <;> simp [writeAt, h, List.drop_succ_cons, ih]

theorem writeAt_not_mem {α : Type} {f : FChunks α} {p : Pos} (g : Rec α → Rec α)
    (h : p ∉ posOf f) : writeAt f p g = f := by
  induction f with
  | nil => rfl
  | cons e t ih =>
    obtain ⟨q, r⟩ := e
    simp only [posOf, List.map_cons, List.mem_cons, not_or] at h
    rw [writeAt, if_neg (fun hc => h.1 hc.symm)]
    rw [ih (by simpa [posOf] using h.2)]

theorem readAt_of_mem {α : Type} {f : FChunks α} {p : Pos} {r : Rec α}
    (hnd : posNodup f) (hm : (p, r) ∈ f) : readAt f p = some r := by
  induction f with
  | nil => simp at hm
  | cons e t ih =>
    obtain ⟨q, s⟩ := e
    have hnd' : q ∉ posOf t ∧ posNodup t := by
      unfold posNodup posOf at hnd ⊢
      simpa using hnd
    rcases List.mem_cons.mp hm with he | ht
    · injection he with h1 h2
      subst h1
      subst h2
      simp [readAt]
    · simp only [readAt]
      by_cases hq : q = p
      · subst hq
        exact absurd (List.mem_map_of_mem (fun e => e.1) ht) hnd'.1
      · rw [if_neg hq]
        exact ih hnd'.2 ht

theorem mem_of_readAt {α : Type} {f : FChunks α} {p : Pos} {r : Rec α}
    (h : readAt f p = some r) : (p, r) ∈ f := by
  induction f with
  | nil => simp [readAt] at h
  | cons e t ih =>
    obtain ⟨q, s⟩ := e
    rw [readAt] at h
    by_cases hq : q = p
    · rw [if_pos hq] at h
      injection h with h
      subst hq h
      simp
    · rw [if_neg hq] at h
      exact List.mem_cons_of_mem _ (ih h)

theorem readAt_isSome_of_mem_posOf {α : Type} {f : FChunks α} {p : Pos}
    (h : p ∈ posOf f) : (readAt f p).isSome := by
  induction f with
  | nil => simp [posOf] at h
  | cons e t ih =>
    obtain ⟨q, s⟩ := e
    rw [readAt]
    by_cases hq : q = p
    · simp [hq]
    · rw [if_neg hq]
      simp only [posOf, List.map_cons, List.mem_cons] at h
      rcases h with h | h
      · exact absurd h.symm hq
      · exact ih (by simpa [posOf] using h)

end RW

namespace RW

/-! ## Lemmas on keyFilter and the per-key machine -/

theorem keyFilter_append {α κ : Type} [DecidableEq κ] (proj : α → κ) (k : κ)
    (l1 l2 : FChunks α) :
    keyFilter proj k (l1 ++ l2) = keyFilter proj k l1 ++ keyFilter proj k l2 := by
  induction l1 with
  | nil => rfl
  | cons e t ih =>
    by_cases h : e.2.vis = true ∧ proj e.2.row = k <;>
      simp [keyFilter, h, ih]

theorem keyFilter_sublist {α κ : Type} [DecidableEq κ] (proj : α → κ) (k : κ)
    (l : FChunks α) : (keyFilter proj k l).Sublist l := by
  induction l with
  | nil => exact List.Sublist.refl _
  | cons e t ih =>
    by_cases h : e.2.vis = true ∧ proj e.2.row = k
    · rw [keyFilter, if_pos h]
      exact List.Sublist.cons₂ e ih
    · rw [keyFilter, if_neg h]
      exact List.Sublist.cons e ih

theorem mem_keyFilter {α κ : Type} [DecidableEq κ] {proj : α → κ} {k : κ}
    {l : FChunks α} {e : Pos × Rec α} :
    e ∈ keyFilter proj k l ↔ e ∈ l ∧ e.2.vis = true ∧ proj e.2.row = k := by
  induction l with
  | nil => simp [keyFilter]
  | cons x t ih =>
    by_cases h : x.2.vis = true ∧ proj x.2.row = k
    · rw [keyFilter, if_pos h]
      constructor
      · intro hm
        rcases List.mem_cons.mp hm with rfl | hm
        · exact ⟨List.mem_cons_self _ _, h⟩
        · have := ih.mp hm
          exact ⟨List.mem_cons_of_mem _ this.1, this.2⟩
      · intro ⟨hm, he⟩
        rcases List.mem_cons.mp hm with rfl | hm
        · exact List.mem_cons_self _ _
        · exact List.mem_cons_of_mem _ (ih.mpr ⟨hm, he⟩)
    · rw [keyFilter, if_neg h]
      constructor
      · intro hm
        have := ih.mp hm
        exact ⟨List.mem_cons_of_mem _ this.1, this.2⟩
      · intro ⟨hm, he⟩
        rcases List.mem_cons.mp hm with rfl | hm
        · exact absurd he h
        · exact ih.mpr ⟨hm, he⟩

theorem posNodup_keyFilter {α κ : Type} [DecidableEq κ] (proj : α → κ) (k : κ)
    {l : FChunks α} (h : posNodup l) : posNodup (keyFilter proj k l) := by
  unfold posNodup posOf at h ⊢
  exact List.Nodup.sublist (List.Sublist.map _ (keyFilter_sublist proj k l)) h

theorem keyFilter_writeAt_pres {α κ : Type} [DecidableEq κ] (proj : α → κ) (k : κ)
    (f : FChunks α) (x : Pos) (g : Rec α → Rec α)
    (hg : ∀ r, (g r).vis = r.vis ∧ proj (g r).row = proj r.row) :
    keyFilter proj k (writeAt f x g) = writeAt (keyFilter proj k f) x g := by
  induction f with
  | nil => rfl
  | cons e t ih =>
    obtain ⟨q, r⟩ := e
    by_cases hq : q = x
    · rw [writeAt, if_pos hq]
      by_cases hr : r.vis = true ∧ proj r.row = k
      · rw [keyFilter, if_pos (by rw [(hg r).1, (hg r).2]; exact hr)]
        rw [keyFilter, if_pos hr, writeAt, if_pos hq, ih]
      · rw [keyFilter, if_neg (by rw [(hg r).1, (hg r).2]; exact hr)]
        rw [keyFilter, if_neg hr, ih]
    · rw [writeAt, if_neg hq]
      by_cases hr : r.vis = true ∧ proj r.row = k
      · rw [keyFilter, if_pos hr, keyFilter, if_pos hr, writeAt, if_neg hq, ih]
      · rw [keyFilter, if_neg hr, keyFilter, if_neg hr, ih]

theorem keyFilter_writeAt_kill {α κ : Type} [DecidableEq κ] (proj : α → κ) (k : κ)
    (f : FChunks α) (x : Pos) (g : Rec α → Rec α) (hg : ∀ r, (g r).vis = false) :
    keyFilter proj k (writeAt f x g) =
      (keyFilter proj k f).filter (fun e => !(decide (e.1 = x))) := by
  induction f with
  | nil => rfl
  | cons e t ih =>
    obtain ⟨q, r⟩ := e
    by_cases hq : q = x
    · rw [writeAt, if_pos hq]
      rw [keyFilter, if_neg (by simp [hg r])]
      by_cases hr : r.vis = true ∧ proj r.row = k
      · rw [keyFilter, if_pos hr, List.filter_cons]
        rw [if_neg (by simp [hq])]
        exact ih
      · rw [keyFilter, if_neg hr]
        exact ih
    · rw [writeAt, if_neg hq]
      by_cases hr : r.vis = true ∧ proj r.row = k
      · rw [keyFilter, if_pos hr, keyFilter, if_pos hr, List.filter_cons]
        rw [if_pos (by simp [hq])]
        rw [ih]
      · rw [keyFilter, if_neg hr, keyFilter, if_neg hr, ih]

theorem keyFilter_setOpAt {α κ : Type} [DecidableEq κ] (proj : α → κ) (k : κ)
    (f : FChunks α) (x : Pos) (o : Op) :
    keyFilter proj k (setOpAt f x o) = writeAt (keyFilter proj k f) x (fun r => { r with op := o }) :=
  keyFilter_writeAt_pres proj k f x _ (fun _ => ⟨rfl, rfl⟩)

theorem keyFilter_setVisAt_false {α κ : Type} [DecidableEq κ] (proj : α → κ) (k : κ)
    (f : FChunks α) (x : Pos) :
    keyFilter proj k (setVisAt f x false) =
      (keyFilter proj k f).filter (fun e => !(decide (e.1 = x))) :=
  keyFilter_writeAt_kill proj k f x _ (fun _ => rfl)

theorem foldlM_except_append {σ β : Type} (f : σ → β → Except String σ) :
    ∀ (l1 l2 : List β) (s : σ),
      (l1 ++ l2).foldlM f s =
        match l1.foldlM f s with
        | .ok s' => l2.foldlM f s'
        | .error e => .error e := by
  intro l1
  induction l1 with
  | nil => intro l2 s; rfl
  | cons x t ih =>
    intro l2 s
    rw [List.cons_append, List.foldlM_cons, List.foldlM_cons]
    cases hx : f s x with
    | error e => rfl
    | ok s' => exact ih l2 s'

theorem machineRun_ok_append {α : Type} {l1 : List (Pos × Op × α)}
    {s : Option (KSt α)} (h : machineRun l1 = .ok s) (l2 : List (Pos × Op × α)) :
    machineRun (l1 ++ l2) = l2.foldlM kstep s := by
  have hsplit := foldlM_except_append kstep l1 l2 none
  unfold machineRun at h ⊢
  rw [hsplit, h]

theorem machineRun_error_append {α : Type} {l1 : List (Pos × Op × α)} {e : String}
    (h : machineRun l1 = .error e) (l2 : List (Pos × Op × α)) :
    machineRun (l1 ++ l2) = .error e := by
  have hsplit := foldlM_except_append kstep l1 l2 none
  unfold machineRun at h ⊢
  rw [hsplit, h]

theorem pat_append {α κ : Type} [DecidableEq κ] (proj : α → κ) (k : κ)
    (l1 l2 : FChunks α) :
    pat proj k (l1 ++ l2) = pat proj k l1 ++ pat proj k l2 := by
  unfold pat
  rw [keyFilter_append, List.map_append]

theorem pat_singleton {α κ : Type} [DecidableEq κ] (proj : α → κ) (k : κ)
    (p : Pos) (r : Rec α) :
    pat proj k [(p, r)] =
      if r.vis = true ∧ proj r.row = k then [(p, r.op.normalizeUpdate, r.row)] else [] := by
  unfold pat keyFilter
  by_cases h : r.vis = true ∧ proj r.row = k
  · rw [if_pos h, if_pos h]
    rfl
  · rw [if_neg h, if_neg h]
    rfl

end RW

namespace RW

/-! ## Association-map and positional micro-lemmas -/

theorem tupEntry_eq_none {α : Type} {tup : Option (KSt α)} :
    tupEntry tup = none ↔ tup = none := by
  cases tup with
  | none => simp [tupEntry]
  | some s => cases s <;> simp [tupEntry]

theorem mlookup_eq_none_iff {κ β : Type} [DecidableEq κ] {m : List (κ × β)} {k : κ} :
    mlookup m k = none ↔ k ∉ m.map (fun e => e.1) := by
  induction m with
  | nil => simp [mlookup]
  | cons e t ih =>
    obtain ⟨k', v⟩ := e
    by_cases h : k' = k
    · subst h
      simp [mlookup]
    · rw [mlookup, if_neg h]
      simp only [List.map_cons, List.mem_cons]
      rw [ih]
      constructor
      · intro hn hc
        rcases hc with hc | hc
        · exact h hc.symm
        · exact hn hc
      · intro hn hc
        exact hn (Or.inr hc)

theorem mlookup_append_singleton_ne {κ β : Type} [DecidableEq κ]
    (m : List (κ × β)) {k k0 : κ} (t : β) (h : k ≠ k0) :
    mlookup (m ++ [(k0, t)]) k = mlookup m k := by
  induction m with
  | nil =>
    show mlookup [(k0, t)] k = none
    rw [mlookup, if_neg (fun hc : k0 = k => h hc.symm)]
    rfl
  | cons e t' ih =>
    obtain ⟨k', v⟩ := e
    by_cases hk : k' = k
    · simp [mlookup, hk]
    · simp only [List.cons_append, mlookup, if_neg hk]
      exact ih

theorem mlookup_append_singleton_self {κ β : Type} [DecidableEq κ]
    {m : List (κ × β)} {k0 : κ} (t : β) (h : mlookup m k0 = none) :
    mlookup (m ++ [(k0, t)]) k0 = some t := by
  induction m with
  | nil => simp [mlookup]
  | cons e t' ih =>
    obtain ⟨k', v⟩ := e
    by_cases hk : k' = k0
    · rw [mlookup, if_pos hk] at h
      exact absurd h (by simp)
    · rw [mlookup, if_neg hk] at h
      simp only [List.cons_append, mlookup, if_neg hk]
      exact ih h

theorem mreplace_map_fst {κ β : Type} [DecidableEq κ] (m : List (κ × β)) (k : κ) (t : β) :
    (mreplace m k t).map (fun e => e.1) = m.map (fun e => e.1) := by
  induction m with
  | nil => rfl
  | cons e t' ih =>
    obtain ⟨k', v⟩ := e
    by_cases h : k' = k <;> simp [mreplace, h, ih]

theorem mlookup_mreplace_self {κ β : Type} [DecidableEq κ]
    {m : List (κ × β)} {k : κ} (t : β) (h : (mlookup m k).isSome) :
    mlookup (mreplace m k t) k = some t := by
  induction m with
  | nil => simp [mlookup] at h
  | cons e t' ih =>
    obtain ⟨k', v⟩ := e
    by_cases hk : k' = k
    · rw [mreplace, if_pos hk, mlookup, if_pos hk]
    · rw [mlookup, if_neg hk] at h
      rw [mreplace, if_neg hk, mlookup, if_neg hk]
      exact ih h

theorem mlookup_mreplace_ne {κ β : Type} [DecidableEq κ]
    (m : List (κ × β)) {k k' : κ} (t : β) (h : k' ≠ k) :
    mlookup (mreplace m k t) k' = mlookup m k' := by
  induction m with
  | nil => rfl
  | cons e t' ih =>
    obtain ⟨k'', v⟩ := e
    by_cases hk : k'' = k
    · subst hk
      rw [mreplace, if_pos rfl, mlookup, if_neg (fun hc => h hc.symm), mlookup,
        if_neg (fun hc => h hc.symm)]
    · rw [mreplace, if_neg hk, mlookup, mlookup]
      by_cases hk' : k'' = k'
      · rw [if_pos hk', if_pos hk']
      · rw [if_neg hk', if_neg hk']
        exact ih

theorem mremove_map_fst_sublist {κ β : Type} [DecidableEq κ] (m : List (κ × β)) (k : κ) :
    ((mremove m k).map (fun e => e.1)).Sublist (m.map (fun e => e.1)) := by
  induction m with
  | nil => exact List.Sublist.refl _
  | cons e t ih =>
    obtain ⟨k', v⟩ := e
    by_cases h : k' = k
    · rw [mremove, if_pos h]
      simp only [List.map_cons]
      exact List.Sublist.cons _ (List.Sublist.refl _)
    · rw [mremove, if_neg h]
      simp only [List.map_cons]
      exact List.Sublist.cons₂ _ ih

theorem mlookup_mremove_self {κ β : Type} [DecidableEq κ]
    {m : List (κ × β)} {k : κ} (hnd : (m.map (fun e => e.1)).Nodup) :
    mlookup (mremove m k) k = none := by
  induction m with
  | nil => rfl
  | cons e t ih =>
    obtain ⟨k', v⟩ := e
    simp only [List.map_cons, List.nodup_cons] at hnd
    by_cases h : k' = k
    · subst h
      rw [mremove, if_pos rfl]
      rw [mlookup_eq_none_iff]
      exact hnd.1
    · rw [mremove, if_neg h, mlookup, if_neg h]
      exact ih hnd.2

theorem mlookup_mremove_ne {κ β : Type} [DecidableEq κ]
    (m : List (κ × β)) {k k' : κ} (h : k' ≠ k) :
    mlookup (mremove m k) k' = mlookup m k' := by
  induction m with
  | nil => rfl
  | cons e t ih =>
    obtain ⟨k'', v⟩ := e
    by_cases hk : k'' = k
    · subst hk
      rw [mremove, if_pos rfl, mlookup, if_neg (fun hc => h hc.symm)]
    · rw [mremove, if_neg hk, mlookup, mlookup]
      by_cases hk' : k'' = k'
      · rw [if_pos hk', if_pos hk']
      · rw [if_neg hk', if_neg hk']
        exact ih

theorem filter_pos_ne_of_not_mem {α : Type} {l : FChunks α} {x : Pos}
    (h : x ∉ posOf l) : l.filter (fun e => !(decide (e.1 = x))) = l := by
  induction l with
  | nil => rfl
  | cons e t ih =>
    simp only [posOf, List.map_cons, List.mem_cons, not_or] at h
    rw [List.filter_cons, if_pos (by simp; exact fun hc => h.1 hc.symm)]
    rw [ih (by simpa [posOf] using h.2)]

theorem writeAt_append {α : Type} (l1 l2 : FChunks α) (p : Pos) (g : Rec α → Rec α) :
    writeAt (l1 ++ l2) p g = writeAt l1 p g ++ writeAt l2 p g := by
  induction l1 with
  | nil => rfl
  | cons e t ih =>
    obtain ⟨q, r⟩ := e
    by_cases h : q = p <;> simp [writeAt, h, ih]

theorem normalizeUpdate_cases (o : Op) :
    o.normalizeUpdate = .insert ∨ o.normalizeUpdate = .delete := by
  cases o <;> simp [Op.normalizeUpdate]

theorem keyFilter_singleton {α κ : Type} [DecidableEq κ] (proj : α → κ) (k : κ)
    (p : Pos) (r : Rec α) :
    keyFilter proj k [(p, r)] =
      if r.vis = true ∧ proj r.row = k then [(p, r)] else [] := by
  by_cases h : r.vis = true ∧ proj r.row = k <;> simp [keyFilter, h]

theorem pos_unique_of_mem {α : Type} {f : FChunks α} {p : Pos} {a b : Rec α}
    (hnd : posNodup f) (ha : (p, a) ∈ f) (hb : (p, b) ∈ f) : a = b := by
  have h1 := readAt_of_mem hnd ha
  have h2 := readAt_of_mem hnd hb
  rw [h1] at h2
  exact Option.some.injEq .. ▸ h2

end RW

namespace RW

/-! ## Positional helpers for the pass invariant -/

theorem drop_succ_eq {β : Type} {f1 f2 : List β} {n : Nat} (h : f1.drop n = f2.drop n) :
    f1.drop (n + 1) = f2.drop (n + 1) := by
  have h1 := List.drop_drop 1 n f1
  have h2 := List.drop_drop 1 n f2
  rw [← h1, ← h2, h]

theorem getElem?_eq_of_drop_eq {β : Type} {f1 f2 : List β} {n : Nat}
    (h : f1.drop n = f2.drop n) : f1[n]? = f2[n]? := by
  have h1 := List.getElem?_drop f1 n 0
  have h2 := List.getElem?_drop f2 n 0
  rw [Nat.add_zero] at h1 h2
  rw [← h1, ← h2, h]

theorem posOf_take {α : Type} (f : FChunks α) (n : Nat) :
    posOf (f.take n) = (posOf f).take n := by
  unfold posOf
  rw [List.map_take]

theorem posOf_drop {α : Type} (f : FChunks α) (n : Nat) :
    posOf (f.drop n) = (posOf f).drop n := by
  unfold posOf
  rw [List.map_drop]

theorem posOf_getElem {α : Type} {f : FChunks α} {n : Nat} {p : Pos} {r : Rec α}
    (hget : f[n]? = some (p, r)) : (posOf f)[n]? = some p := by
  rw [posOf, List.getElem?_map, hget]
  rfl

theorem not_mem_take_pos {α : Type} {f : FChunks α} {n : Nat} {p : Pos} {r : Rec α}
    (hnd : posNodup f) (hget : f[n]? = some (p, r)) : p ∉ posOf (f.take n) := by
  intro hmem
  rw [posOf_take] at hmem
  have hp := posOf_getElem hget
  have hdrop : p ∈ (posOf f).drop n := by
    have h0 : ((posOf f).drop n)[0]? = some p := by
      rw [List.getElem?_drop, Nat.add_zero]
      exact hp
    exact List.getElem?_mem h0
  exact (List.disjoint_take_drop hnd (Nat.le_refl n)) hmem hdrop

theorem not_mem_drop_succ_pos {α : Type} {f : FChunks α} {n : Nat} {p : Pos} {r : Rec α}
    (hnd : posNodup f) (hget : f[n]? = some (p, r)) : p ∉ posOf (f.drop (n + 1)) := by
  intro hmem
  rw [posOf_drop] at hmem
  have hp := posOf_getElem hget
  have htake : p ∈ (posOf f).take (n + 1) := by
    rw [List.take_succ, hp]
    simp
  exact (List.disjoint_take_drop hnd (Nat.le_refl (n + 1))) htake hmem

theorem take_mem_not_drop_succ {α : Type} {f : FChunks α} {n : Nat} {x : Pos}
    (hnd : posNodup f) (hmem : x ∈ posOf (f.take n)) : x ∉ posOf (f.drop (n + 1)) := by
  intro hdrop
  rw [posOf_take] at hmem
  rw [posOf_drop] at hdrop
  have hmem' : x ∈ (posOf f).take (n + 1) := by
    have := List.take_take n (n + 1) (posOf f)
    rw [min_eq_left (Nat.le_succ n)] at this
    exact List.mem_of_mem_take (this ▸ hmem)
  exact (List.disjoint_take_drop hnd (Nat.le_refl (n + 1))) hmem' hdrop

theorem take_succ_of_getElem {β : Type} {f : List β} {n : Nat} {e : β}
    (hget : f[n]? = some e) : f.take (n + 1) = f.take n ++ [e] := by
  rw [List.take_succ, hget]
  rfl

end RW

namespace RW

/-! ## Invariant preservation for the first compaction pass -/

theorem foldlM_except_singleton {σ β : Type} (f : σ → β → Except String σ)
    (s : σ) (x : β) : List.foldlM f s [x] = f s x := by
  rw [List.foldlM_cons]
  cases f s x <;> rfl

theorem mainInv_facts {α κ : Type} [DecidableEq κ] {proj : α → κ} {f0 : FChunks α}
    {n : Nat} {st : CompSt α κ} {p : Pos} {r : Rec α}
    (hnd : posNodup f0) (inv : MainInv proj f0 n st) (hget : f0[n]? = some (p, r)) :
    st.f[n]? = some (p, r) ∧ posNodup st.f ∧ readAt st.f p = some r ∧
    p ∉ posOf (st.f.take n) ∧ f0.take (n + 1) = f0.take n ++ [(p, r)] ∧
    st.f.take (n + 1) = st.f.take n ++ [(p, r)] := by
  have hstget : st.f[n]? = some (p, r) := by
    rw [getElem?_eq_of_drop_eq inv.future]
    exact hget
  have hndst : posNodup st.f := by
    unfold posNodup
    rw [posOf_eq_of_skel inv.skelEq]
    exact hnd
  exact ⟨hstget, hndst, readAt_of_mem hndst (List.getElem?_mem hstget),
    not_mem_take_pos hndst hstget, take_succ_of_getElem hget,
    take_succ_of_getElem hstget⟩

theorem invStep_skip {α κ : Type} [DecidableEq κ] {proj : α → κ} {f0 : FChunks α}
    {n : Nat} {st : CompSt α κ} {p : Pos} {r : Rec α}
    (hnd : posNodup f0) (inv : MainInv proj f0 n st) (hget : f0[n]? = some (p, r))
    (hvis : r.vis = false) : MainInv proj f0 (n + 1) st := by
  obtain ⟨hstget, hndst, hread, hpnot, htk0, htks⟩ := mainInv_facts hnd inv hget
  refine ⟨inv.skelEq, drop_succ_eq inv.future, inv.invis, inv.mkeys, ?_⟩
  intro k
  obtain ⟨tup, hrun, hlk, hkf⟩ := inv.keys k
  refine ⟨tup, ?_, hlk, ?_⟩
  · rw [htk0, pat_append, pat_singleton, if_neg (by rw [hvis]; simp)]
    rw [List.append_nil]
    exact hrun
  · rw [htks, keyFilter_append, keyFilter_singleton, if_neg (by rw [hvis]; simp)]
    rw [List.append_nil]
    exact hkf

theorem writeAt_singleton_self {α : Type} (p : Pos) (r : Rec α) (g : Rec α → Rec α) :
    writeAt [(p, r)] p g = [(p, g r)] := by
  simp [writeAt]

theorem invStep_vacant {α κ : Type} [DecidableEq κ] {proj : α → κ} {f0 : FChunks α}
    {n : Nat} {st : CompSt α κ} {p : Pos} {r : Rec α}
    (hnd : posNodup f0) (inv : MainInv proj f0 n st) (hget : f0[n]? = some (p, r))
    (hvis : r.vis = true) (hlk : mlookup st.m (proj r.row) = none) :
    MainInv proj f0 (n + 1)
      ⟨setOpAt st.f p r.op.normalizeUpdate,
        st.m ++ [(proj r.row, ⟨none, p⟩)]⟩ := by
  obtain ⟨hstget, hndst, hread, hpnot, htk0, htks⟩ := mainInv_facts hnd inv hget
  have hktup := inv.keys (proj r.row)
  obtain ⟨tup0, hrun0, hlk0, hkf0⟩ := hktup
  have htup0 : tup0 = none := by
    rw [hlk] at hlk0
    exact tupEntry_eq_none.mp hlk0.symm
  subst htup0
  -- the new chunk state in normal form
  have hsetk : (setOpAt st.f p r.op.normalizeUpdate).take (n + 1) =
      st.f.take n ++ [(p, { r with op := r.op.normalizeUpdate })] := by
    rw [setOpAt, writeAt_take, htks, writeAt_append, writeAt_singleton_self]
    rw [writeAt_not_mem _ hpnot]
  constructor
  · rw [skel_setOpAt]
    exact inv.skelEq
  · rw [setOpAt, writeAt_drop, writeAt_not_mem _ (not_mem_drop_succ_pos hndst hstget)]
    exact drop_succ_eq inv.future
  · intro p2 r2 hm2 hv2
    have hne : p2 ≠ p := by
      intro he
      subst he
      rw [inv.invis p2 r2 hm2 hv2] at hread
      injection hread with hread
      rw [← hread] at hvis
      rw [hv2] at hvis
      exact absurd hvis (by simp)
    rw [setOpAt, readAt_writeAt_ne _ _ hne]
    exact inv.invis p2 r2 hm2 hv2
  · rw [List.map_append]
    refine List.Nodup.append inv.mkeys (by simp) ?_
    intro a ha hb
    simp only [List.map_cons, List.map_nil, List.mem_singleton] at hb
    subst hb
    exact absurd ha (mlookup_eq_none_iff.mp hlk)
  · intro k
    by_cases hk : k = proj r.row
    · subst hk
      rcases normalizeUpdate_cases r.op with hnop | hnop
      · refine ⟨some (.ins p r.row), ?_, ?_, ?_⟩
        · rw [htk0, pat_append, pat_singleton, if_pos ⟨hvis, rfl⟩, hnop]
          rw [machineRun_ok_append hrun0, foldlM_except_singleton]
          rfl
        · rw [mlookup_append_singleton_self _ hlk]
          rfl
        · rw [hsetk, keyFilter_append, keyFilter_singleton]
          rw [if_pos (by constructor; exact hvis; exact rfl)]
          rw [hkf0]
          rw [tupRecs, tupRecs]
          have : ({ r with op := r.op.normalizeUpdate } : Rec α) =
              ⟨Op.insert, r.row, true⟩ := by
            rw [hnop]
            cases r
            simp_all
          rw [this]
          rfl
      · refine ⟨some (.del p r.row), ?_, ?_, ?_⟩
        · rw [htk0, pat_append, pat_singleton, if_pos ⟨hvis, rfl⟩, hnop]
          rw [machineRun_ok_append hrun0, foldlM_except_singleton]
          rfl
        · rw [mlookup_append_singleton_self _ hlk]
          rfl
        · rw [hsetk, keyFilter_append, keyFilter_singleton]
          rw [if_pos (by constructor; exact hvis; exact rfl)]
          rw [hkf0]
          rw [tupRecs, tupRecs]
          have : ({ r with op := r.op.normalizeUpdate } : Rec α) =
              ⟨Op.delete, r.row, true⟩ := by
            rw [hnop]
            cases r
            simp_all
          rw [this]
          rfl
    · obtain ⟨tup, hrun, hlkk, hkf⟩ := inv.keys k
      refine ⟨tup, ?_, ?_, ?_⟩
      · rw [htk0, pat_append, pat_singleton, if_neg (by intro hc; exact hk hc.2.symm)]
        rw [List.append_nil]
        exact hrun
      · rw [mlookup_append_singleton_ne _ _ hk]
        exact hlkk
      · rw [hsetk, keyFilter_append, keyFilter_singleton]
        rw [if_neg (by intro hc; exact hk hc.2.symm)]
        rw [List.append_nil]
        exact hkf

end RW

namespace RW

theorem tupRec_read {α κ : Type} [DecidableEq κ] {proj : α → κ} {k : κ}
    {st : CompSt α κ} {n : Nat} {tup : Option (KSt α)} {q : Pos} {rec : Rec α}
    (hndst : posNodup st.f)
    (hkf : keyFilter proj k (st.f.take n) = tupRecs tup)
    (hm : (q, rec) ∈ tupRecs tup) :
    readAt st.f q = some rec ∧ q ∈ posOf (st.f.take n) ∧ proj rec.row = k ∧
      rec.vis = true := by
  have hmem : (q, rec) ∈ keyFilter proj k (st.f.take n) := by
    rw [hkf]
    exact hm
  have h2 := mem_keyFilter.mp hmem
  exact ⟨readAt_of_mem hndst (List.mem_of_mem_take h2.1),
    List.mem_map_of_mem (fun e => e.1) h2.1, h2.2.2, h2.2.1⟩

theorem pos_not_in_other_key {α κ : Type} [DecidableEq κ] {proj : α → κ} {k : κ}
    {st : CompSt α κ} {n : Nat} {tupk : Option (KSt α)} {x : Pos} {xrec : Rec α}
    (hndst : posNodup st.f)
    (hkfk : keyFilter proj k (st.f.take n) = tupRecs tupk)
    (hreadx : readAt st.f x = some xrec) (hkey : proj xrec.row ≠ k) :
    x ∉ posOf (tupRecs tupk) := by
  intro hmem
  unfold posOf at hmem
  obtain ⟨e, he, hex⟩ := List.mem_map.mp hmem
  obtain ⟨q, rec2⟩ := e
  simp only at hex
  subst hex
  have hmem2 : (q, rec2) ∈ keyFilter proj k (st.f.take n) := by
    rw [hkfk]
    exact he
  have h2 := mem_keyFilter.mp hmem2
  have hr2 : readAt st.f q = some rec2 :=
    readAt_of_mem hndst (List.mem_of_mem_take h2.1)
  rw [hreadx] at hr2
  injection hr2 with hr2
  rw [← hr2] at h2
  exact hkey h2.2.2

theorem invStep_insdel {α κ : Type} [DecidableEq κ] {proj : α → κ} {f0 : FChunks α}
    {n : Nat} {st : CompSt α κ} {p p' : Pos} {r : Rec α} {r' : α}
    (hnd : posNodup f0) (inv : MainInv proj f0 n st) (hget : f0[n]? = some (p, r))
    (hvis : r.vis = true) (hnop : r.op.normalizeUpdate = .delete)
    (hrun0 : machineRun (pat proj (proj r.row) (f0.take n)) = .ok (some (.ins p' r')))
    (hkf0 : keyFilter proj (proj r.row) (st.f.take n) = tupRecs (some (.ins p' r'))) :
    MainInv proj f0 (n + 1)
      ⟨setVisAt (setVisAt (setOpAt st.f p r.op.normalizeUpdate) p' false) p false,
        mremove st.m (proj r.row)⟩ := by
  obtain ⟨hstget, hndst, hread, hpnot, htk0, htks⟩ := mainInv_facts hnd inv hget
  have hp' := tupRec_read hndst hkf0 (by rw [tupRecs]; exact List.mem_singleton.mpr rfl)
  obtain ⟨hreadp', hp'take, hp'key, -⟩ := hp'
  have hpp' : p ≠ p' := fun he => hpnot (he ▸ hp'take)
  have hp'drop : p' ∉ posOf (st.f.drop (n + 1)) := take_mem_not_drop_succ hndst hp'take
  have hpdrop : p ∉ posOf (st.f.drop (n + 1)) := not_mem_drop_succ_pos hndst hstget
  -- normal form of the new prefix
  have hsetk : (setOpAt st.f p r.op.normalizeUpdate).take (n + 1) =
      st.f.take n ++ [(p, { r with op := r.op.normalizeUpdate })] := by
    rw [setOpAt, writeAt_take, htks, writeAt_append, writeAt_singleton_self]
    rw [writeAt_not_mem _ hpnot]
  have hposbase : posOf ((setOpAt st.f p r.op.normalizeUpdate).take (n + 1)) =
      posOf (st.f.take (n + 1)) := by
    rw [setOpAt, writeAt_take, posOf_writeAt]
  constructor
  · rw [skel_setVisAt, skel_setVisAt, skel_setOpAt]
    exact inv.skelEq
  · rw [setVisAt, writeAt_drop, setVisAt, writeAt_drop, setOpAt, writeAt_drop]
    rw [writeAt_not_mem _ hpdrop, writeAt_not_mem _ hp'drop, writeAt_not_mem _ hpdrop]
    exact drop_succ_eq inv.future
  · intro p2 r2 hm2 hv2
    have hne : p2 ≠ p := by
      intro he
      subst he
      rw [inv.invis p2 r2 hm2 hv2] at hread
      injection hread with hread
      rw [← hread, hv2] at hvis
      exact absurd hvis (by simp)
    have hne' : p2 ≠ p' := by
      intro he
      subst he
      rw [inv.invis p2 r2 hm2 hv2] at hreadp'
      injection hreadp' with hreadp'
      have : r2.vis = true := by rw [hreadp']
      rw [hv2] at this
      exact absurd this (by simp)
    rw [setVisAt, readAt_writeAt_ne _ _ hne, setVisAt, readAt_writeAt_ne _ _ hne']
    rw [setOpAt, readAt_writeAt_ne _ _ hne]
    exact inv.invis p2 r2 hm2 hv2
  · exact List.Nodup.sublist (mremove_map_fst_sublist st.m (proj r.row)) inv.mkeys
  · intro k
    have hktake :
        (setVisAt (setVisAt (setOpAt st.f p r.op.normalizeUpdate) p' false) p false).take (n + 1) =
        setVisAt (setVisAt (st.f.take n ++
          [(p, { r with op := r.op.normalizeUpdate })]) p' false) p false := by
      rw [setVisAt, writeAt_take, setVisAt, writeAt_take, hsetk]
      rfl
    by_cases hk : k = proj r.row
    · subst hk
      refine ⟨none, ?_, ?_, ?_⟩
      · rw [htk0, pat_append, pat_singleton, if_pos ⟨hvis, rfl⟩, hnop]
        rw [machineRun_ok_append hrun0, foldlM_except_singleton]
        rfl
      · rw [mlookup_mremove_self inv.mkeys]
        rfl
      · rw [hktake]
        rw [keyFilter_setVisAt_false, keyFilter_setVisAt_false]
        rw [keyFilter_append, hkf0, keyFilter_singleton]
        rw [if_pos (And.intro hvis rfl)]
        simp [tupRecs, hpp']
    · obtain ⟨tup, hrun, hlkk, hkf⟩ := inv.keys k
      have hirec : readAt st.f p' = some (⟨.insert, r', true⟩ : Rec α) := hreadp'
      refine ⟨tup, ?_, ?_, ?_⟩
      · rw [htk0, pat_append, pat_singleton, if_neg (by intro hc; exact hk hc.2.symm)]
        rw [List.append_nil]
        exact hrun
      · rw [mlookup_mremove_ne _ hk]
        exact hlkk
      · rw [hktake]
        rw [keyFilter_setVisAt_false, keyFilter_setVisAt_false]
        rw [keyFilter_append, hkf, keyFilter_singleton]
        rw [if_neg (by intro hc; exact hk hc.2.symm)]
        rw [List.append_nil]
        have hnp' : p' ∉ posOf (tupRecs tup) :=
          pos_not_in_other_key hndst hkf hirec
            (fun h => hk ((hp'key ▸ h) : proj r.row = k).symm)
        have hnp : p ∉ posOf (tupRecs tup) := by
          intro hmem
          apply hpnot
          rw [← hkf] at hmem
          unfold posOf at hmem ⊢
          obtain ⟨e, he, hex⟩ := List.mem_map.mp hmem
          exact List.mem_map.mpr ⟨e, (keyFilter_sublist proj k _).mem he, hex⟩
        rw [filter_pos_ne_of_not_mem hnp', filter_pos_ne_of_not_mem hnp]

end RW

namespace RW

theorem invStep_delins {α κ : Type} [DecidableEq κ] {proj : α → κ} {f0 : FChunks α}
    {n : Nat} {st : CompSt α κ} {p q : Pos} {r : Rec α} {d : α}
    (hnd : posNodup f0) (inv : MainInv proj f0 n st) (hget : f0[n]? = some (p, r))
    (hvis : r.vis = true) (hnop : r.op.normalizeUpdate = .insert)
    (hrun0 : machineRun (pat proj (proj r.row) (f0.take n)) = .ok (some (.del q d)))
    (hlk : mlookup st.m (proj r.row) = some ⟨none, q⟩)
    (hkf0 : keyFilter proj (proj r.row) (st.f.take n) = tupRecs (some (.del q d))) :
    MainInv proj f0 (n + 1)
      ⟨setOpAt st.f p r.op.normalizeUpdate,
        mreplace st.m (proj r.row) ⟨some q, p⟩⟩ := by
  obtain ⟨hstget, hndst, hread, hpnot, htk0, htks⟩ := mainInv_facts hnd inv hget
  have hq := tupRec_read hndst hkf0 (by rw [tupRecs]; exact List.mem_singleton.mpr rfl)
  obtain ⟨hreadq, hqtake, hqkey, -⟩ := hq
  have hsetk : (setOpAt st.f p r.op.normalizeUpdate).take (n + 1) =
      st.f.take n ++ [(p, { r with op := r.op.normalizeUpdate })] := by
    rw [setOpAt, writeAt_take, htks, writeAt_append, writeAt_singleton_self]
    rw [writeAt_not_mem _ hpnot]
  constructor
  · rw [skel_setOpAt]
    exact inv.skelEq
  · rw [setOpAt, writeAt_drop, writeAt_not_mem _ (not_mem_drop_succ_pos hndst hstget)]
    exact drop_succ_eq inv.future
  · intro p2 r2 hm2 hv2
    have hne : p2 ≠ p := by
      intro he
      subst he
      rw [inv.invis p2 r2 hm2 hv2] at hread
      injection hread with hread
      rw [← hread, hv2] at hvis
      exact absurd hvis (by simp)
    rw [setOpAt, readAt_writeAt_ne _ _ hne]
    exact inv.invis p2 r2 hm2 hv2
  · rw [mreplace_map_fst]
    exact inv.mkeys
  · intro k
    by_cases hk : k = proj r.row
    · subst hk
      refine ⟨some (.delins q d p r.row), ?_, ?_, ?_⟩
      · rw [htk0, pat_append, pat_singleton, if_pos ⟨hvis, rfl⟩, hnop]
        rw [machineRun_ok_append hrun0, foldlM_except_singleton]
        rfl
      · rw [mlookup_mreplace_self _ (by rw [hlk]; rfl)]
        rfl
      · rw [hsetk, keyFilter_append, hkf0, keyFilter_singleton]
        rw [if_pos (And.intro hvis rfl)]
        have : ({ r with op := r.op.normalizeUpdate } : Rec α) =
            ⟨Op.insert, r.row, true⟩ := by
          rw [hnop]
          cases r
          simp_all
        rw [this]
        rfl
    · obtain ⟨tup, hrun, hlkk, hkf⟩ := inv.keys k
      refine ⟨tup, ?_, ?_, ?_⟩
      · rw [htk0, pat_append, pat_singleton, if_neg (by intro hc; exact hk hc.2.symm)]
        rw [List.append_nil]
        exact hrun
      · rw [mlookup_mreplace_ne _ _ hk]
        exact hlkk
      · rw [hsetk, keyFilter_append, hkf, keyFilter_singleton]
        rw [if_neg (by intro hc; exact hk hc.2.symm)]
        rw [List.append_nil]

theorem invStep_delinsdel {α κ : Type} [DecidableEq κ] {proj : α → κ} {f0 : FChunks α}
    {n : Nat} {st : CompSt α κ} {p q p2 : Pos} {r : Rec α} {d i : α}
    (hnd : posNodup f0) (inv : MainInv proj f0 n st) (hget : f0[n]? = some (p, r))
    (hvis : r.vis = true) (hnop : r.op.normalizeUpdate = .delete)
    (hrun0 : machineRun (pat proj (proj r.row) (f0.take n)) = .ok (some (.delins q d p2 i)))
    (hlk : mlookup st.m (proj r.row) = some ⟨some q, p2⟩)
    (hkf0 : keyFilter proj (proj r.row) (st.f.take n) = tupRecs (some (.delins q d p2 i))) :
    MainInv proj f0 (n + 1)
      ⟨setVisAt (setVisAt (setOpAt st.f p r.op.normalizeUpdate) p2 false) p false,
        mreplace st.m (proj r.row) ⟨none, q⟩⟩ := by
  obtain ⟨hstget, hndst, hread, hpnot, htk0, htks⟩ := mainInv_facts hnd inv hget
  have hqm : ((q, (⟨.delete, d, true⟩ : Rec α)) ∈ tupRecs (some (KSt.delins q d p2 i))) := by
    rw [tupRecs]
    simp
  have hp2m : ((p2, (⟨.insert, i, true⟩ : Rec α)) ∈ tupRecs (some (KSt.delins q d p2 i))) := by
    rw [tupRecs]
    simp
  obtain ⟨hreadq, hqtake, hqkey, -⟩ := tupRec_read hndst hkf0 hqm
  obtain ⟨hreadp2, hp2take, hp2key, -⟩ := tupRec_read hndst hkf0 hp2m
  have hpq : p ≠ q := fun he => hpnot (he ▸ hqtake)
  have hpp2 : p ≠ p2 := fun he => hpnot (he ▸ hp2take)
  have hqp2 : q ≠ p2 := by
    have hndtk : posNodup (st.f.take n) := by
      unfold posNodup
      rw [posOf_take]
      exact List.Nodup.sublist (List.take_sublist n _) hndst
    have := posNodup_keyFilter proj (proj r.row) hndtk
    rw [hkf0] at this
    unfold posNodup posOf at this
    rw [tupRecs] at this
    simp at this
    exact this
  have hp2drop : p2 ∉ posOf (st.f.drop (n + 1)) := take_mem_not_drop_succ hndst hp2take
  have hpdrop : p ∉ posOf (st.f.drop (n + 1)) := not_mem_drop_succ_pos hndst hstget
  have hsetk : (setOpAt st.f p r.op.normalizeUpdate).take (n + 1) =
      st.f.take n ++ [(p, { r with op := r.op.normalizeUpdate })] := by
    rw [setOpAt, writeAt_take, htks, writeAt_append, writeAt_singleton_self]
    rw [writeAt_not_mem _ hpnot]
  have hktake :
      (setVisAt (setVisAt (setOpAt st.f p r.op.normalizeUpdate) p2 false) p false).take (n + 1) =
      setVisAt (setVisAt (st.f.take n ++
        [(p, { r with op := r.op.normalizeUpdate })]) p2 false) p false := by
    rw [setVisAt, writeAt_take, setVisAt, writeAt_take, hsetk]
    rfl
  constructor
  · rw [skel_setVisAt, skel_setVisAt, skel_setOpAt]
    exact inv.skelEq
  · rw [setVisAt, writeAt_drop, setVisAt, writeAt_drop, setOpAt, writeAt_drop]
    rw [writeAt_not_mem _ hpdrop, writeAt_not_mem _ hp2drop, writeAt_not_mem _ hpdrop]
    exact drop_succ_eq inv.future
  · intro p3 r3 hm3 hv3
    have hne : p3 ≠ p := by
      intro he
      subst he
      rw [inv.invis p3 r3 hm3 hv3] at hread
      injection hread with hread
      rw [← hread, hv3] at hvis
      exact absurd hvis (by simp)
    have hne2 : p3 ≠ p2 := by
      intro he
      subst he
      rw [inv.invis p3 r3 hm3 hv3] at hreadp2
      injection hreadp2 with hreadp2
      have : r3.vis = true := by rw [hreadp2]
      rw [hv3] at this
      exact absurd this (by simp)
    rw [setVisAt, readAt_writeAt_ne _ _ hne, setVisAt, readAt_writeAt_ne _ _ hne2]
    rw [setOpAt, readAt_writeAt_ne _ _ hne]
    exact inv.invis p3 r3 hm3 hv3
  · rw [mreplace_map_fst]
    exact inv.mkeys
  · intro k
    by_cases hk : k = proj r.row
    · subst hk
      refine ⟨some (.del q d), ?_, ?_, ?_⟩
      · rw [htk0, pat_append, pat_singleton, if_pos ⟨hvis, rfl⟩, hnop]
        rw [machineRun_ok_append hrun0, foldlM_except_singleton]
        rfl
      · rw [mlookup_mreplace_self _ (by rw [hlk]; rfl)]
        rfl
      · rw [hktake]
        rw [keyFilter_setVisAt_false, keyFilter_setVisAt_false]
        rw [keyFilter_append, hkf0, keyFilter_singleton]
        rw [if_pos (And.intro hvis rfl)]
        simp [tupRecs, hpp2, hqp2, hpq, Ne.symm hpq]
    · obtain ⟨tup, hrun, hlkk, hkf⟩ := inv.keys k
      refine ⟨tup, ?_, ?_, ?_⟩
      · rw [htk0, pat_append, pat_singleton, if_neg (by intro hc; exact hk hc.2.symm)]
        rw [List.append_nil]
        exact hrun
      · rw [mlookup_mreplace_ne _ _ hk]
        exact hlkk
      · rw [hktake]
        rw [keyFilter_setVisAt_false, keyFilter_setVisAt_false]
        rw [keyFilter_append, hkf, keyFilter_singleton]
        rw [if_neg (by intro hc; exact hk hc.2.symm)]
        rw [List.append_nil]
        have hnp2 : p2 ∉ posOf (tupRecs tup) :=
          pos_not_in_other_key hndst hkf hreadp2
            (fun h => hk ((hp2key ▸ h) : proj r.row = k).symm)
        have hnp : p ∉ posOf (tupRecs tup) := by
          intro hmem
          apply hpnot
          rw [← hkf] at hmem
          unfold posOf at hmem ⊢
          obtain ⟨e, he, hex⟩ := List.mem_map.mp hmem
          exact List.mem_map.mpr ⟨e, (keyFilter_sublist proj k _).mem he, hex⟩
        rw [filter_pos_ne_of_not_mem hnp2, filter_pos_ne_of_not_mem hnp]

end RW

namespace RW

theorem rowStep_spec {α κ : Type} [DecidableEq κ] (dbg : Bool) {proj : α → κ}
    {f0 : FChunks α} {n : Nat} {st : CompSt α κ} {p : Pos} {r : Rec α}
    (hnd : posNodup f0) (inv : MainInv proj f0 n st) (hget : f0[n]? = some (p, r)) :
    (∃ st', rowStep dbg proj st p = .ok st' ∧ MainInv proj f0 (n + 1) st') ∨
    (∃ e, rowStep dbg proj st p = .error e ∧
      machineRun (pat proj (proj r.row) (f0.take (n + 1))) = .error e) := by
  obtain ⟨hstget, hndst, hread, hpnot, htk0, htks⟩ := mainInv_facts hnd inv hget
  cases hv : r.vis with
  | false =>
    left
    refine ⟨st, ?_, invStep_skip hnd inv hget hv⟩
    simp [rowStep, hread, hv]
  | true =>
    have hrstep : rowStep dbg proj st p =
        match mlookup st.m (proj r.row) with
        | none => .ok ⟨setOpAt st.f p r.op.normalizeUpdate,
            st.m ++ [(proj r.row, ⟨none, p⟩)]⟩
        | some t => pushStep dbg ⟨setOpAt st.f p r.op.normalizeUpdate, st.m⟩
            (proj r.row) t p r.op.normalizeUpdate := by
      simp [rowStep, hread, hv]
    obtain ⟨tup, hrun0, hlk0, hkf0⟩ := inv.keys (proj r.row)
    have hpat1 : machineRun (pat proj (proj r.row) (f0.take (n + 1))) =
        kstep tup (p, r.op.normalizeUpdate, r.row) := by
      rw [htk0, pat_append, pat_singleton, if_pos ⟨hv, rfl⟩]
      rw [machineRun_ok_append hrun0, foldlM_except_singleton]
    cases tup with
    | none =>
      left
      have hlk : mlookup st.m (proj r.row) = none := by
        rw [hlk0]
        rfl
      refine ⟨_, ?_, invStep_vacant hnd inv hget hv hlk⟩
      rw [hrstep, hlk]
    | some ks =>
      cases ks with
      | ins p' r' =>
        have hlk : mlookup st.m (proj r.row) = some ⟨none, p'⟩ := hlk0
        have hp' := tupRec_read hndst hkf0
          (by rw [tupRecs]; exact List.mem_singleton.mpr rfl)
        obtain ⟨hreadp', hp'take, -, -⟩ := hp'
        have hpp' : p ≠ p' := fun he => hpnot (he ▸ hp'take)
        have hreadp'1 : readAt (setOpAt st.f p r.op.normalizeUpdate) p' =
            some (⟨.insert, r', true⟩ : Rec α) := by
          rw [setOpAt, readAt_writeAt_ne _ _ (fun he => hpp' he.symm)]
          exact hreadp'
        rcases normalizeUpdate_cases r.op with hnop | hnop
        · right
          rw [hnop] at hreadp'1
          refine ⟨"receive duplicated insert on the stream", ?_, ?_⟩
          · rw [hrstep, hlk, hnop]
            simp only [pushStep, hreadp'1]
            rw [if_neg (by simp)]
          · rw [hpat1, hnop]
            rfl
        · left
          refine ⟨_, ?_, invStep_insdel hnd inv hget hv hnop hrun0 hkf0⟩
          rw [hnop] at hreadp'1
          rw [hrstep, hlk, hnop]
          simp only [pushStep, hreadp'1]
          rw [if_neg (by simp)]
      | del q d =>
        have hlk : mlookup st.m (proj r.row) = some ⟨none, q⟩ := hlk0
        have hq := tupRec_read hndst hkf0
          (by rw [tupRecs]; exact List.mem_singleton.mpr rfl)
        obtain ⟨hreadq, hqtake, -, -⟩ := hq
        have hpq : p ≠ q := fun he => hpnot (he ▸ hqtake)
        have hreadq1 : readAt (setOpAt st.f p r.op.normalizeUpdate) q =
            some (⟨.delete, d, true⟩ : Rec α) := by
          rw [setOpAt, readAt_writeAt_ne _ _ (fun he => hpq he.symm)]
          exact hreadq
        rcases normalizeUpdate_cases r.op with hnop | hnop
        · left
          refine ⟨_, ?_, invStep_delins hnd inv hget hv hnop hrun0 hlk hkf0⟩
          rw [hnop] at hreadq1
          rw [hrstep, hlk, hnop]
          simp only [pushStep, hreadq1]
          rw [if_neg (by simp), if_neg (by simp)]
        · right
          rw [hnop] at hreadq1
          refine ⟨"receive duplicated delete on the stream", ?_, ?_⟩
          · rw [hrstep, hlk, hnop]
            simp only [pushStep, hreadq1]
            rw [if_neg (by simp)]
          · rw [hpat1, hnop]
            rfl
      | delins q d p2 i =>
        have hlk : mlookup st.m (proj r.row) = some ⟨some q, p2⟩ := hlk0
        have hp2m : ((p2, (⟨.insert, i, true⟩ : Rec α)) ∈
            tupRecs (some (KSt.delins q d p2 i))) := by
          rw [tupRecs]
          simp
        obtain ⟨hreadp2, hp2take, -, -⟩ := tupRec_read hndst hkf0 hp2m
        have hpp2 : p ≠ p2 := fun he => hpnot (he ▸ hp2take)
        have hreadp21 : readAt (setOpAt st.f p r.op.normalizeUpdate) p2 =
            some (⟨.insert, i, true⟩ : Rec α) := by
          rw [setOpAt, readAt_writeAt_ne _ _ (fun he => hpp2 he.symm)]
          exact hreadp2
        rcases normalizeUpdate_cases r.op with hnop | hnop
        · right
          rw [hnop] at hreadp21
          refine ⟨"receive duplicated insert on the stream", ?_, ?_⟩
          · rw [hrstep, hlk, hnop]
            simp only [pushStep, hreadp21]
            rw [if_neg (by simp)]
          · rw [hpat1, hnop]
            rfl
        · left
          refine ⟨_, ?_, invStep_delinsdel hnd inv hget hv hnop hrun0 hlk hkf0⟩
          rw [hnop] at hreadp21
          rw [hrstep, hlk, hnop]
          simp only [pushStep, hreadp21]
          rw [if_neg (by simp)]

end RW

namespace RW

theorem mainLoop_spec {α κ : Type} [DecidableEq κ] (dbg : Bool) {proj : α → κ}
    {f0 : FChunks α} (hnd : posNodup f0) :
    ∀ (m n : Nat) (st : CompSt α κ), n + m = f0.length → MainInv proj f0 n st →
      (∃ st', ((posOf f0).drop n).foldlM (rowStep dbg proj) st = .ok st' ∧
        MainInv proj f0 f0.length st') ∨
      (∃ e k, ((posOf f0).drop n).foldlM (rowStep dbg proj) st = .error e ∧
        machineRun (pat proj k f0) = .error e) := by
  intro m
  induction m with
  | zero =>
    intro n st hlen inv
    left
    have hn : n = f0.length := by omega
    subst hn
    refine ⟨st, ?_, inv⟩
    rw [List.drop_eq_nil_of_le (by simp [posOf])]
    rfl
  | succ m ih =>
    intro n st hlen inv
    have hlt : n < f0.length := by omega
    have hget : f0[n]? = some ((f0[n]).1, (f0[n]).2) := by
      simp [List.getElem?_eq_getElem hlt]
    have hplen : n < (posOf f0).length := by simp [posOf]; omega
    have hdropc : (posOf f0).drop n = (posOf f0)[n] :: (posOf f0).drop (n + 1) :=
      List.drop_eq_getElem_cons hplen
    have hpos : (posOf f0)[n] = (f0[n]).1 := by
      simp [posOf]
    rcases rowStep_spec dbg hnd inv hget with ⟨st', hok, inv'⟩ | ⟨e, herr, hmach⟩
    · rcases ih (n + 1) st' (by omega) inv' with hL | hR
      · obtain ⟨st'', hfold, invf⟩ := hL
        left
        refine ⟨st'', ?_, invf⟩
        rw [hdropc, List.foldlM_cons, hpos, hok]
        exact hfold
      · obtain ⟨e, k, hfold, hmach⟩ := hR
        right
        refine ⟨e, k, ?_, hmach⟩
        rw [hdropc, List.foldlM_cons, hpos, hok]
        exact hfold
    · right
      refine ⟨e, proj ((f0[n]).2).row, ?_, ?_⟩
      · rw [hdropc, List.foldlM_cons, hpos, herr]
        rfl
      · have hsplit : pat proj (proj ((f0[n]).2).row) f0 =
            pat proj (proj ((f0[n]).2).row) (f0.take (n + 1)) ++
            pat proj (proj ((f0[n]).2).row) (f0.drop (n + 1)) := by
          rw [← pat_append, List.take_append_drop]
        rw [hsplit]
        exact machineRun_error_append hmach _

end RW

namespace RW

theorem mainInv_zero {α κ : Type} [DecidableEq κ] (proj : α → κ) {f0 : FChunks α}
    (hnd : posNodup f0) : MainInv proj f0 0 (⟨f0, []⟩ : CompSt α κ) := by
  constructor
  · rfl
  · rfl
  · intro p r hm _
    exact readAt_of_mem hnd hm
  · simp
  · intro k
    refine ⟨none, rfl, rfl, rfl⟩

theorem mainPass_spec {α κ : Type} [DecidableEq κ] (dbg : Bool) (proj : α → κ)
    {f0 : FChunks α} (hnd : posNodup f0) :
    (∃ st', mainPass dbg proj f0 = .ok st' ∧ MainInv proj f0 f0.length st') ∨
    (∃ e k, mainPass dbg proj f0 = .error e ∧ machineRun (pat proj k f0) = .error e) := by
  have h := mainLoop_spec dbg hnd f0.length 0 ⟨f0, []⟩ (by omega) (mainInv_zero proj hnd)
  rcases h with ⟨st', hfold, inv⟩ | ⟨e, k, hfold, hmach⟩
  · left
    exact ⟨st', hfold, inv⟩
  · right
    exact ⟨e, k, hfold, hmach⟩

end RW

namespace RW

theorem tupRec_readL {α κ : Type} [DecidableEq κ] {proj : α → κ} {k : κ}
    {l : FChunks α} {tup : Option (KSt α)} {q : Pos} {rec : Rec α}
    (hnd : posNodup l) (hkf : keyFilter proj k l = tupRecs tup)
    (hm : (q, rec) ∈ tupRecs tup) :
    readAt l q = some rec ∧ proj rec.row = k ∧ rec.vis = true := by
  have hmem : (q, rec) ∈ keyFilter proj k l := by
    rw [hkf]
    exact hm
  have h2 := mem_keyFilter.mp hmem
  exact ⟨readAt_of_mem hnd h2.1, h2.2.2, h2.2.1⟩

theorem pos_not_in_other_keyL {α κ : Type} [DecidableEq κ] {proj : α → κ} {k : κ}
    {l : FChunks α} {tupk : Option (KSt α)} {x : Pos} {xrec : Rec α}
    (hnd : posNodup l) (hkfk : keyFilter proj k l = tupRecs tupk)
    (hreadx : readAt l x = some xrec) (hkey : proj xrec.row ≠ k) :
    x ∉ posOf (tupRecs tupk) := by
  intro hmem
  unfold posOf at hmem
  obtain ⟨e, he, hex⟩ := List.mem_map.mp hmem
  obtain ⟨q, rec2⟩ := e
  simp only at hex
  subst hex
  have hmem2 : (q, rec2) ∈ keyFilter proj k l := by
    rw [hkfk]
    exact he
  have h2 := mem_keyFilter.mp hmem2
  have hr2 : readAt l q = some rec2 := readAt_of_mem hnd h2.1
  rw [hreadx] at hr2
  injection hr2 with hr2
  rw [← hr2] at h2
  exact hkey h2.2.2

theorem pos_not_mem_keyFilter {α κ : Type} [DecidableEq κ] {proj : α → κ} {k : κ}
    {l : FChunks α} {x : Pos} {xrec : Rec α} (hnd : posNodup l)
    (hread : readAt l x = some xrec) (hkey : proj xrec.row ≠ k) :
    x ∉ posOf (keyFilter proj k l) := by
  intro hmem
  unfold posOf at hmem
  obtain ⟨e, he, hex⟩ := List.mem_map.mp hmem
  obtain ⟨qq, rec2⟩ := e
  simp only at hex
  have h2 := mem_keyFilter.mp he
  have hr2 : readAt l qq = some rec2 := readAt_of_mem hnd h2.1
  rw [hex, hread] at hr2
  injection hr2 with hr2
  rw [← hr2] at h2
  exact hkey h2.2.2

theorem postLoop_spec {α κ : Type} [DecidableEq α] [DecidableEq κ] (dbg : Bool)
    {proj : α → κ} {f0 : FChunks α} (hnd : posNodup f0) :
    ∀ (todo : List (κ × OpRowTuple)) (fp : FChunks α),
      skel fp = skel f0 →
      (∀ p r, (p, r) ∈ f0 → r.vis = false → readAt fp p = some r) →
      (todo.map (fun e => e.1)).Nodup →
      (∀ e ∈ todo, some e.2 = tupEntry (machineTup proj e.1 f0)) →
      (∀ k, keyFilter proj k fp =
        if k ∈ todo.map (fun e => e.1) then tupRecs (machineTup proj k f0)
        else finalRecs (machineTup proj k f0)) →
      ∃ f, todo.foldlM (fun fc e => postTuple dbg fc e.2) fp = .ok f ∧
        skel f = skel f0 ∧
        (∀ p r, (p, r) ∈ f0 → r.vis = false → readAt f p = some r) ∧
        (∀ k, keyFilter proj k f = finalRecs (machineTup proj k f0)) := by
  intro todo
  induction todo with
  | nil =>
    intro fp hskel hinvis _ _ hkeys
    refine ⟨fp, rfl, hskel, hinvis, ?_⟩
    intro k
    have := hkeys k
    simpa using this
  | cons ent rest ih =>
    intro fp hskel hinvis hndk hent hkeys
    obtain ⟨k0, t0⟩ := ent
    have hndfp : posNodup fp := by
      unfold posNodup
      rw [posOf_eq_of_skel hskel]
      exact hnd
    have ht0 : some t0 = tupEntry (machineTup proj k0 f0) :=
      hent (k0, t0) (List.mem_cons_self _ _)
    have hkf0 : keyFilter proj k0 fp = tupRecs (machineTup proj k0 f0) := by
      have := hkeys k0
      rw [if_pos (by simp)] at this
      exact this
    simp only [List.map_cons, List.nodup_cons] at hndk
    have hrestent : ∀ e ∈ rest, some e.2 = tupEntry (machineTup proj e.1 f0) :=
      fun e he => hent e (List.mem_cons_of_mem _ he)
    -- dispatch on the machine state of k0
    cases htup : machineTup proj k0 f0 with
    | none =>
      rw [htup, tupEntry] at ht0
      exact absurd ht0 (by simp)
    | some ks =>
      cases ks with
      | ins pp rr =>
        rw [htup, tupEntry] at ht0
        injection ht0 with ht0
        have hstep : postTuple dbg fp t0 = .ok fp := by
          rw [ht0, postTuple]
        rw [List.foldlM_cons]
        simp only [hstep]
        refine ih fp hskel hinvis hndk.2 hrestent ?_
        intro k
        by_cases hk : k = k0
        · subst hk
          rw [if_neg (by simpa using hndk.1), hkf0, htup]
          rfl
        · have := hkeys k
          rw [List.map_cons] at this
          rw [this]
          by_cases hmem : k ∈ rest.map (fun e => e.1)
          · rw [if_pos hmem, if_pos (by simp [hmem])]
          · rw [if_neg hmem, if_neg (by simp [hmem, fun h : k = k0 => hk h])]
      | del pp rr =>
        rw [htup, tupEntry] at ht0
        injection ht0 with ht0
        have hstep : postTuple dbg fp t0 = .ok fp := by
          rw [ht0, postTuple]
        rw [List.foldlM_cons]
        simp only [hstep]
        refine ih fp hskel hinvis hndk.2 hrestent ?_
        intro k
        by_cases hk : k = k0
        · subst hk
          rw [if_neg (by simpa using hndk.1), hkf0, htup]
          rfl
        · have := hkeys k
          rw [List.map_cons] at this
          rw [this]
          by_cases hmem : k ∈ rest.map (fun e => e.1)
          · rw [if_pos hmem, if_pos (by simp [hmem])]
          · rw [if_neg hmem, if_neg (by simp [hmem, fun h : k = k0 => hk h])]
      | delins q d p2 i =>
        rw [htup, tupEntry] at ht0
        injection ht0 with ht0
        have hqm : ((q, (⟨.delete, d, true⟩ : Rec α)) ∈
            tupRecs (some (KSt.delins q d p2 i))) := by
          rw [tupRecs]
          simp
        have hp2m : ((p2, (⟨.insert, i, true⟩ : Rec α)) ∈
            tupRecs (some (KSt.delins q d p2 i))) := by
          rw [tupRecs]
          simp
        obtain ⟨hreadq, hqkey, -⟩ := tupRec_readL hndfp (htup ▸ hkf0) hqm
        obtain ⟨hreadp2, hp2key, -⟩ := tupRec_readL hndfp (htup ▸ hkf0) hp2m
        have hqp2 : q ≠ p2 := by
          have := posNodup_keyFilter proj k0 hndfp
          rw [hkf0, htup] at this
          unfold posNodup posOf at this
          rw [tupRecs] at this
          simp at this
          exact this
        -- the common rewriting for keys of other entries
        have hother : ∀ (fq : FChunks α), skel fq = skel f0 →
            (∀ k, k ≠ k0 → keyFilter proj k fq = keyFilter proj k fp) →
            ∀ k, keyFilter proj k fq =
              (if k ∈ rest.map (fun e => e.1) then tupRecs (machineTup proj k f0)
                else finalRecs (machineTup proj k f0)) →
            True := fun _ _ _ _ _ => trivial
        rw [List.foldlM_cons]
        by_cases heq : d = i
        · -- equal rows: both rows become invisible
          subst heq
          have hstep : postTuple dbg fp t0 =
              .ok (setVisAt (setVisAt fp q false) p2 false) := by
            simp [ht0, postTuple, hreadq, hreadp2]
          simp only [hstep]
          refine ih _ (by rw [skel_setVisAt, skel_setVisAt]; exact hskel) ?_ hndk.2
            hrestent ?_
          · intro p3 r3 hm3 hv3
            have hne1 : p3 ≠ q := by
              intro he
              subst he
              rw [hinvis p3 r3 hm3 hv3] at hreadq
              injection hreadq with hx
              have : r3.vis = true := by rw [hx]
              rw [hv3] at this
              exact absurd this (by simp)
            have hne2 : p3 ≠ p2 := by
              intro he
              subst he
              rw [hinvis p3 r3 hm3 hv3] at hreadp2
              injection hreadp2 with hx
              have : r3.vis = true := by rw [hx]
              rw [hv3] at this
              exact absurd this (by simp)
            rw [setVisAt, readAt_writeAt_ne _ _ hne2, setVisAt, readAt_writeAt_ne _ _ hne1]
            exact hinvis p3 r3 hm3 hv3
          · intro k
            rw [keyFilter_setVisAt_false, keyFilter_setVisAt_false]
            by_cases hk : k = k0
            · subst hk
              rw [hkf0, htup]
              rw [if_neg (by simpa using hndk.1)]
              rw [finalRecs, if_pos rfl]
              simp [tupRecs, hqp2, Ne.symm hqp2]
            · have := hkeys k
              rw [List.map_cons] at this
              have hkfk : keyFilter proj k fp =
                  (if k ∈ rest.map (fun e => e.1) then tupRecs (machineTup proj k f0)
                    else finalRecs (machineTup proj k f0)) := by
                rw [this]
                by_cases hmem : k ∈ rest.map (fun e => e.1)
                · rw [if_pos hmem, if_pos (by simp [hmem])]
                · rw [if_neg hmem, if_neg (by simp [hmem, fun h : k = k0 => hk h])]
              rw [hkfk]
              -- q and p2 do not occur among the key-k records
              have hnq : q ∉ posOf (if k ∈ rest.map (fun e => e.1)
                  then tupRecs (machineTup proj k f0)
                  else finalRecs (machineTup proj k f0)) :=
                hkfk ▸ pos_not_mem_keyFilter hndfp hreadq
                  (fun h => hk (by rw [← h]; exact hqkey))
              have hnp2 : p2 ∉ posOf (if k ∈ rest.map (fun e => e.1)
                  then tupRecs (machineTup proj k f0)
                  else finalRecs (machineTup proj k f0)) :=
                hkfk ▸ pos_not_mem_keyFilter hndfp hreadp2
                  (fun h => hk (by rw [← h]; exact hp2key))
              rw [filter_pos_ne_of_not_mem hnq, filter_pos_ne_of_not_mem hnp2]
        · -- distinct rows
          by_cases hadj : q.1 = p2.1 ∧ q.2 + 1 = p2.2
          · -- adjacent: re-tag as the update pair
            have hstep : postTuple dbg fp t0 =
                .ok (setOpAt (setOpAt fp q .updateDelete) p2 .updateInsert) := by
              simp [ht0, postTuple, hreadq, hreadp2, heq, hadj.1, hadj.2]
            simp only [hstep]
            refine ih _ (by rw [skel_setOpAt, skel_setOpAt]; exact hskel) ?_ hndk.2
              hrestent ?_
            · intro p3 r3 hm3 hv3
              have hne1 : p3 ≠ q := by
                intro he
                subst he
                rw [hinvis p3 r3 hm3 hv3] at hreadq
                injection hreadq with hx
                have : r3.vis = true := by rw [hx]
                rw [hv3] at this
                exact absurd this (by simp)
              have hne2 : p3 ≠ p2 := by
                intro he
                subst he
                rw [hinvis p3 r3 hm3 hv3] at hreadp2
                injection hreadp2 with hx
                have : r3.vis = true := by rw [hx]
                rw [hv3] at this
                exact absurd this (by simp)
              rw [setOpAt, readAt_writeAt_ne _ _ hne2, setOpAt, readAt_writeAt_ne _ _ hne1]
              exact hinvis p3 r3 hm3 hv3
            · intro k
              rw [keyFilter_setOpAt, keyFilter_setOpAt]
              by_cases hk : k = k0
              · subst hk
                rw [hkf0, htup]
                rw [if_neg (by simpa using hndk.1)]
                rw [finalRecs, if_neg heq, if_pos hadj]
                simp [tupRecs, writeAt, hqp2, Ne.symm hqp2]
              · have := hkeys k
                rw [List.map_cons] at this
                have hkfk : keyFilter proj k fp =
                    (if k ∈ rest.map (fun e => e.1) then tupRecs (machineTup proj k f0)
                      else finalRecs (machineTup proj k f0)) := by
                  rw [this]
                  by_cases hmem : k ∈ rest.map (fun e => e.1)
                  · rw [if_pos hmem, if_pos (by simp [hmem])]
                  · rw [if_neg hmem, if_neg (by simp [hmem, fun h : k = k0 => hk h])]
                have hnq : q ∉ posOf (keyFilter proj k fp) :=
                  pos_not_mem_keyFilter hndfp hreadq
                    (fun h => hk (by rw [← h]; exact hqkey))
                have hnp2 : p2 ∉ posOf (keyFilter proj k fp) :=
                  pos_not_mem_keyFilter hndfp hreadp2
                    (fun h => hk (by rw [← h]; exact hp2key))
                rw [writeAt_not_mem _ hnq]
                rw [writeAt_not_mem _ hnp2]
                exact hkfk
          · -- not adjacent: nothing changes for this entry
            have hstep : postTuple dbg fp t0 = .ok fp := by
              simp [ht0, postTuple, hreadq, hreadp2, heq, hadj]
            simp only [hstep]
            refine ih fp hskel hinvis hndk.2 hrestent ?_
            intro k
            by_cases hk : k = k0
            · subst hk
              rw [if_neg (by simpa using hndk.1), hkf0, htup]
              rw [finalRecs, if_neg heq, if_neg hadj]
              rfl
            · have := hkeys k
              rw [List.map_cons] at this
              rw [this]
              by_cases hmem : k ∈ rest.map (fun e => e.1)
              · rw [if_pos hmem, if_pos (by simp [hmem])]
              · rw [if_neg hmem, if_neg (by simp [hmem, fun h : k = k0 => hk h])]

theorem mlookup_of_mem_nodup {κ β : Type} [DecidableEq κ] {m : List (κ × β)}
    (hnd : (m.map (fun e => e.1)).Nodup) {k : κ} {b : β} (hm : (k, b) ∈ m) :
    mlookup m k = some b := by
  induction m with
  | nil => cases hm
  | cons e t ih =>
    obtain ⟨k1, v⟩ := e
    rw [List.map_cons, List.nodup_cons] at hnd
    rcases List.mem_cons.mp hm with he | ht
    · injection he with h1 h2
      subst h1
      subst h2
      rw [mlookup, if_pos rfl]
    · rw [mlookup]
      by_cases h : k1 = k
      · subst h
        exact absurd (List.mem_map.mpr ⟨(k1, b), ht, rfl⟩) hnd.1
      · rw [if_neg h]
        exact ih hnd.2 ht

/-- The full two-pass in-place compaction, characterised: on a duplicate-free
position list it either succeeds and satisfies `InplaceSpec` (skeleton kept,
invisible rows kept, and per key exactly the machine's final records survive),
or it fails with exactly the error some key's machine raises. -/
theorem compactF_spec {α κ : Type} [DecidableEq α] [DecidableEq κ] (dbg : Bool)
    (proj : α → κ) {f0 : FChunks α} (hnd : posNodup f0) :
    (∃ f, compactF dbg proj f0 = .ok f ∧ InplaceSpec proj f0 f) ∨
    (∃ e k, compactF dbg proj f0 = .error e ∧
      machineRun (pat proj k f0) = .error e) := by
  rcases mainPass_spec dbg proj hnd with ⟨st, hmp, inv⟩ | ⟨e, k, hmp, hm⟩
  · left
    have hlen : st.f.length = f0.length := length_eq_of_skel inv.skelEq
    have hruns : ∀ k, machineRun (pat proj k f0) = .ok (machineTup proj k f0) ∧
        mlookup st.m k = tupEntry (machineTup proj k f0) ∧
        keyFilter proj k st.f = tupRecs (machineTup proj k f0) := by
      intro k
      obtain ⟨tup, hrun, hml, hkf⟩ := inv.keys k
      rw [List.take_length] at hrun
      rw [← hlen, List.take_length] at hkf
      have htup : machineTup proj k f0 = tup := by
        unfold machineTup
        rw [hrun]
      rw [htup]
      exact ⟨hrun, hml, hkf⟩
    have hent : ∀ e ∈ st.m, some e.2 = tupEntry (machineTup proj e.1 f0) := by
      intro e he
      obtain ⟨k1, t1⟩ := e
      have h1 : mlookup st.m k1 = some t1 := mlookup_of_mem_nodup inv.mkeys he
      have h2 := (hruns k1).2.1
      rw [h1] at h2
      exact h2
    have hkeys : ∀ k, keyFilter proj k st.f =
        if k ∈ st.m.map (fun e => e.1) then tupRecs (machineTup proj k f0)
        else finalRecs (machineTup proj k f0) := by
      intro k
      by_cases hmem : k ∈ st.m.map (fun e => e.1)
      · rw [if_pos hmem]
        exact (hruns k).2.2
      · rw [if_neg hmem]
        have hnone : mlookup st.m k = none := mlookup_eq_none_iff.mpr hmem
        have h2 := (hruns k).2.1
        rw [hnone] at h2
        have h3 := tupEntry_eq_none.mp h2.symm
        have h4 := (hruns k).2.2
        rw [h3] at h4 ⊢
        exact h4
    obtain ⟨f, hfold, hskel, hinvis, hfin⟩ :=
      postLoop_spec dbg hnd st.m st.f inv.skelEq inv.invis inv.mkeys hent hkeys
    refine ⟨f, ?_, hskel, hinvis, ?_⟩
    · show compactF dbg proj f0 = .ok f
      unfold compactF
      rw [hmp]
      show postPass dbg st.f st.m = .ok f
      unfold postPass
      exact hfold
    · intro k
      exact ⟨machineTup proj k f0, (hruns k).1, hfin k⟩
  · right
    refine ⟨e, k, ?_, hm⟩
    unfold compactF
    rw [hmp]
    rfl

/-! ## Grid lemmas: flattening and rebuilding chunk sequences -/

theorem chunkRows_length {α : Type} (c : Chunk α) :
    ∀ i j, (chunkRows i j c).length = c.length := by
  induction c with
  | nil => intro i j; rfl
  | cons r rs ih =>
    intro i j
    simp [chunkRows, ih]

theorem chunkRows_map_snd {α : Type} (c : Chunk α) :
    ∀ i j, (chunkRows i j c).map (fun e => e.2) = c := by
  induction c with
  | nil => intro i j; rfl
  | cons r rs ih =>
    intro i j
    simp [chunkRows, ih]

theorem posOf_chunkRows_mem {α : Type} (c : Chunk α) :
    ∀ i j p, p ∈ posOf (chunkRows i j c) → p.1 = i ∧ j ≤ p.2 := by
  induction c with
  | nil =>
    intro i j p hp
    simp [chunkRows, posOf] at hp
  | cons r rs ih =>
    intro i j p hp
    simp only [chunkRows, posOf, List.map_cons, List.mem_cons] at hp
    rcases hp with hp | hp
    · subst hp
      exact ⟨rfl, Nat.le_refl j⟩
    · have := ih i (j + 1) p hp
      exact ⟨this.1, Nat.le_of_succ_le this.2⟩

theorem posNodup_chunkRows {α : Type} (c : Chunk α) :
    ∀ i j, (posOf (chunkRows i j c)).Nodup := by
  induction c with
  | nil => intro i j; simp [chunkRows, posOf]
  | cons r rs ih =>
    intro i j
    simp only [chunkRows, posOf, List.map_cons, List.nodup_cons]
    refine ⟨?_, ih i (j + 1)⟩
    intro hmem
    have := posOf_chunkRows_mem rs i (j + 1) (i, j) hmem
    omega

theorem posOf_flattenFrom_mem {α : Type} (cs : List (Chunk α)) :
    ∀ i p, p ∈ posOf (flattenFrom i cs) → i ≤ p.1 := by
  induction cs with
  | nil =>
    intro i p hp
    simp [flattenFrom, posOf] at hp
  | cons c cs ih =>
    intro i p hp
    simp only [flattenFrom, posOf, List.map_append, List.mem_append] at hp
    rcases hp with hp | hp
    · exact Nat.le_of_eq (posOf_chunkRows_mem c i 0 p hp).1.symm
    · exact Nat.le_of_succ_le (ih (i + 1) p hp)

theorem posNodup_flattenFrom {α : Type} (cs : List (Chunk α)) :
    ∀ i, (posOf (flattenFrom i cs)).Nodup := by
  induction cs with
  | nil => intro i; simp [flattenFrom, posOf]
  | cons c cs ih =>
    intro i
    simp only [flattenFrom, posOf, List.map_append]
    rw [List.nodup_append]
    refine ⟨posNodup_chunkRows c i 0, ih (i + 1), ?_⟩
    intro p hp1 hp2
    have h1 := (posOf_chunkRows_mem c i 0 p hp1).1
    have h2 := posOf_flattenFrom_mem cs (i + 1) p hp2
    omega

theorem posNodup_flattenChunks {α : Type} (cs : List (Chunk α)) :
    posNodup (flattenChunks cs) :=
  posNodup_flattenFrom cs 0

theorem chunkRows_of_posOf {α : Type} (c : Chunk α) :
    ∀ i j (l : FChunks α), posOf l = posOf (chunkRows i j c) →
      chunkRows i j (l.map (fun e => e.2)) = l := by
  induction c with
  | nil =>
    intro i j l h
    cases l with
    | nil => rfl
    | cons e t => simp [chunkRows, posOf] at h
  | cons r rs ih =>
    intro i j l h
    cases l with
    | nil => simp [chunkRows, posOf] at h
    | cons e t =>
      obtain ⟨p, rc⟩ := e
      simp only [chunkRows, posOf, List.map_cons, List.cons.injEq] at h
      rw [List.map_cons]
      rw [chunkRows]
      rw [ih i (j + 1) t h.2]
      rw [h.1]

theorem flattenFrom_unflattenLike {α : Type} (cs : List (Chunk α)) :
    ∀ i (f : FChunks α), posOf f = posOf (flattenFrom i cs) →
      flattenFrom i (unflattenLike cs f) = f := by
  induction cs with
  | nil =>
    intro i f h
    cases f with
    | nil => rfl
    | cons e t => simp [flattenFrom, posOf] at h
  | cons c cs ih =>
    intro i f h
    have hlenA : (posOf (chunkRows i 0 c)).length = c.length := by
      unfold posOf
      rw [List.length_map, chunkRows_length]
    have htk : posOf (f.take c.length) = posOf (chunkRows i 0 c) := by
      unfold posOf
      rw [List.map_take]
      show (posOf f).take c.length = posOf (chunkRows i 0 c)
      rw [h]
      show (posOf (chunkRows i 0 c ++ flattenFrom (i + 1) cs)).take c.length = _
      unfold posOf
      rw [List.map_append, ← hlenA]
      exact List.take_left _ _
    have hdr : posOf (f.drop c.length) = posOf (flattenFrom (i + 1) cs) := by
      unfold posOf
      rw [List.map_drop]
      show (posOf f).drop c.length = posOf (flattenFrom (i + 1) cs)
      rw [h]
      show (posOf (chunkRows i 0 c ++ flattenFrom (i + 1) cs)).drop c.length = _
      unfold posOf
      rw [List.map_append, ← hlenA]
      exact List.drop_left _ _
    show chunkRows i 0 ((f.take c.length).map (fun e => e.2)) ++
        flattenFrom (i + 1) (unflattenLike cs (f.drop c.length)) = f
    rw [chunkRows_of_posOf c i 0 _ htk, ih (i + 1) _ hdr]
    exact List.take_append_drop _ _

theorem flattenChunks_unflattenLike {α : Type} {cs : List (Chunk α)} {f : FChunks α}
    (h : skel f = skel (flattenChunks cs)) :
    flattenChunks (unflattenLike cs f) = f :=
  flattenFrom_unflattenLike cs 0 f (posOf_eq_of_skel h)

theorem unflattenLike_flattenFrom {α : Type} (cs : List (Chunk α)) :
    ∀ i, unflattenLike cs (flattenFrom i cs) = cs := by
  induction cs with
  | nil => intro i; rfl
  | cons c cs ih =>
    intro i
    show ((chunkRows i 0 c ++ flattenFrom (i + 1) cs).take c.length).map (fun e => e.2) ::
        unflattenLike cs ((chunkRows i 0 c ++ flattenFrom (i + 1) cs).drop c.length) = c :: cs
    rw [← chunkRows_length c i 0, List.take_left, List.drop_left]
    rw [chunkRows_map_snd, ih (i + 1)]

theorem unflattenLike_flattenChunks {α : Type} (cs : List (Chunk α)) :
    unflattenLike cs (flattenChunks cs) = cs :=
  unflattenLike_flattenFrom cs 0

theorem unflattenLike_rows {α : Type} (cs : List (Chunk α)) :
    ∀ i (f : FChunks α), skel f = skel (flattenFrom i cs) →
      (unflattenLike cs f).map (List.map (fun r => r.row)) =
        cs.map (List.map (fun r => r.row)) := by
  induction cs with
  | nil => intro i f h; rfl
  | cons c cs ih =>
    intro i f h
    have hlenA : (skel (chunkRows i 0 c)).length = c.length := by
      unfold skel
      rw [List.length_map, chunkRows_length]
    have htk : skel (f.take c.length) = skel (chunkRows i 0 c) := by
      unfold skel
      rw [List.map_take]
      show (skel f).take c.length = skel (chunkRows i 0 c)
      rw [h]
      show (skel (chunkRows i 0 c ++ flattenFrom (i + 1) cs)).take c.length = _
      unfold skel
      rw [List.map_append, ← hlenA]
      exact List.take_left _ _
    have hdr : skel (f.drop c.length) = skel (flattenFrom (i + 1) cs) := by
      unfold skel
      rw [List.map_drop]
      show (skel f).drop c.length = skel (flattenFrom (i + 1) cs)
      rw [h]
      show (skel (chunkRows i 0 c ++ flattenFrom (i + 1) cs)).drop c.length = _
      unfold skel
      rw [List.map_append, ← hlenA]
      exact List.drop_left _ _
    show ((f.take c.length).map (fun e => e.2)).map (fun r => r.row) ::
        (unflattenLike cs (f.drop c.length)).map (List.map (fun r => r.row)) =
        c.map (fun r => r.row) :: cs.map (List.map (fun r => r.row))
    rw [ih (i + 1) _ hdr]
    have hrows : ((f.take c.length).map (fun e => e.2)).map (fun r => r.row) =
        c.map (fun r => r.row) := by
      have h1 : (skel (f.take c.length)).map (fun x => x.2) =
          (skel (chunkRows i 0 c)).map (fun x => x.2) := by rw [htk]
      unfold skel at h1
      rw [List.map_map, List.map_map] at h1
      simp only [Function.comp_def] at h1
      rw [List.map_map]
      simp only [Function.comp_def]
      rw [h1]
      have h2 := congrArg (List.map (fun r : Rec α => r.row)) (chunkRows_map_snd c i 0)
      rw [List.map_map] at h2
      simp only [Function.comp_def] at h2
      exact h2
    rw [hrows]

theorem intoCompactedChunks_inv {α κ : Type} [DecidableEq α] [DecidableEq κ]
    {dbg : Bool} {proj : α → κ} {cs out : List (Chunk α)}
    (h : intoCompactedChunks dbg proj cs = .ok out) :
    ∃ f, compactF dbg proj (flattenChunks cs) = .ok f ∧ out = unflattenLike cs f := by
  unfold intoCompactedChunks at h
  cases hc : compactF dbg proj (flattenChunks cs) with
  | ok f =>
    rw [hc] at h
    change Except.ok (unflattenLike cs f) = Except.ok out at h
    refine ⟨f, rfl, ?_⟩
    injection h with h
    exact h.symm
  | error e =>
    rw [hc] at h
    change (Except.error e : Except String (List (Chunk α))) = Except.ok out at h
    cases h

theorem compactF_ok_spec {α κ : Type} [DecidableEq α] [DecidableEq κ]
    {dbg : Bool} {proj : α → κ} {f0 f : FChunks α} (hnd : posNodup f0)
    (h : compactF dbg proj f0 = .ok f) : InplaceSpec proj f0 f := by
  rcases compactF_spec dbg proj hnd with ⟨f2, h2, spec⟩ | ⟨e, k, h2, _⟩
  · rw [h] at h2
    injection h2 with h3
    rw [h3]
    exact spec
  · rw [h] at h2
    cases h2

/-- C7: in-place mode is a pure frame effect on everything but op tags and
visibility: for every input on which `into_compacted_chunks` succeeds, the
output has exactly as many chunks as the input, in the same order, and every
output chunk carries exactly the input chunk's row data (so column contents
and chunk boundaries are identical); only the op tags and visibility bits may
differ. -/
theorem c7_inplace_frame_effect {α κ : Type} [DecidableEq α] [DecidableEq κ]
    (dbg : Bool) (proj : α → κ) {cs out : List (Chunk α)}
    (h : intoCompactedChunks dbg proj cs = .ok out) :
    out.length = cs.length ∧
    out.map (List.map (fun r => r.row)) = cs.map (List.map (fun r => r.row)) := by
  obtain ⟨f, hc, hout⟩ := intoCompactedChunks_inv h
  have spec := compactF_ok_spec (posNodup_flattenChunks cs) hc
  have hrows := unflattenLike_rows cs 0 f spec.skelEq
  subst hout
  refine ⟨?_, hrows⟩
  have hlen := congrArg List.length hrows
  rw [List.length_map, List.length_map] at hlen
  exact hlen

theorem c7_witness :
    intoCompactedChunks true sampleKeyProj sampleChunks = .ok sampleCompacted ∧
    (sampleCompacted.length = sampleChunks.length ∧
      sampleCompacted.map (List.map (fun r => r.row)) =
        sampleChunks.map (List.map (fun r => r.row))) :=
  ⟨by rfl, c7_inplace_frame_effect true sampleKeyProj (by rfl)⟩

/-! ## Idempotence of the in-place compactor -/

theorem eq_of_skel_readAt {α : Type} : ∀ {f2 f1 : FChunks α}, skel f1 = skel f2 →
    posNodup f2 → (∀ p r, (p, r) ∈ f2 → readAt f1 p = some r) → f1 = f2 := by
  intro f2
  induction f2 with
  | nil =>
    intro f1 hsk _ _
    cases f1 with
    | nil => rfl
    | cons e t => simp [skel] at hsk
  | cons e2 t2 ih =>
    intro f1 hsk hnd hread
    obtain ⟨p, r⟩ := e2
    cases f1 with
    | nil => simp [skel] at hsk
    | cons e1 t1 =>
      obtain ⟨p1, r1⟩ := e1
      simp only [skel, List.map_cons, List.cons.injEq, Prod.mk.injEq] at hsk
      obtain ⟨⟨hp, _⟩, hsk2⟩ := hsk
      subst hp
      unfold posNodup at hnd
      simp only [posOf, List.map_cons, List.nodup_cons] at hnd
      have hr1 : r1 = r := by
        have := hread p1 r (List.mem_cons_self _ _)
        rw [readAt, if_pos rfl] at this
        exact Option.some.inj this
      subst hr1
      have htl : t1 = t2 := by
        refine ih hsk2 hnd.2 ?_
        intro p2 r2 hm
        have hp2 : p2 ∈ posOf t2 := List.mem_map_of_mem _ hm
        have hne : p1 ≠ p2 := fun hc => hnd.1 (by rw [hc]; exact hp2)
        have := hread p2 r2 (List.mem_cons_of_mem _ hm)
        rw [readAt, if_neg hne] at this
        exact this
      rw [htl]

theorem machineRun_finalRecs {α : Type} [DecidableEq α] (tup : Option (KSt α)) :
    ∃ tup', machineRun ((finalRecs tup).map
        (fun e => (e.1, e.2.op.normalizeUpdate, e.2.row))) = .ok tup' ∧
      finalRecs tup' = finalRecs tup := by
  cases tup with
  | none => exact ⟨none, rfl, rfl⟩
  | some s =>
    cases s with
    | ins p r => exact ⟨some (.ins p r), rfl, rfl⟩
    | del p r => exact ⟨some (.del p r), rfl, rfl⟩
    | delins q d p i =>
      by_cases hd : d = i
      · refine ⟨none, ?_, ?_⟩
        · have hfr : finalRecs (some (.delins q d p i)) = ([] : FChunks α) := by
            simp [finalRecs, hd]
          rw [hfr]
          rfl
        · have hfr : finalRecs (some (.delins q d p i)) = ([] : FChunks α) := by
            simp [finalRecs, hd]
          rw [hfr]
          rfl
      · refine ⟨some (.delins q d p i), ?_, rfl⟩
        by_cases ha : q.1 = p.1 ∧ q.2 + 1 = p.2
        · have hfr : finalRecs (some (.delins q d p i)) =
              [(q, ⟨.updateDelete, d, true⟩), (p, ⟨.updateInsert, i, true⟩)] := by
            simp [finalRecs, hd, ha]
          rw [hfr]
          rfl
        · have hfr : finalRecs (some (.delins q d p i)) =
              [(q, ⟨.delete, d, true⟩), (p, ⟨.insert, i, true⟩)] := by
            simp [finalRecs, hd, ha]
          rw [hfr]
          rfl

/-- C2: in-place compaction is idempotent: whenever `into_compacted_chunks`
succeeds on an input, running it again with the same key projection on its own
output succeeds and returns the output unchanged. -/
theorem c2_inplace_idempotent {α κ : Type} [DecidableEq α] [DecidableEq κ]
    (dbg : Bool) (proj : α → κ) {cs out : List (Chunk α)}
    (h : intoCompactedChunks dbg proj cs = .ok out) :
    intoCompactedChunks dbg proj out = .ok out := by
  obtain ⟨f, hc, hout⟩ := intoCompactedChunks_inv h
  have hnd0 := posNodup_flattenChunks cs
  have spec := compactF_ok_spec hnd0 hc
  have hflat : flattenChunks out = f := by
    rw [hout]
    exact flattenChunks_unflattenLike spec.skelEq
  have hndf : posNodup f := by
    unfold posNodup
    rw [posOf_eq_of_skel spec.skelEq]
    exact hnd0
  have hkey : ∀ k, ∃ tup', machineRun (pat proj k f) = .ok tup' ∧
      finalRecs tup' = keyFilter proj k f := by
    intro k
    obtain ⟨tup, hrun, hkf⟩ := spec.keys k
    obtain ⟨tup', hrun', hfr⟩ := machineRun_finalRecs tup
    refine ⟨tup', ?_, by rw [hfr, hkf]⟩
    unfold pat
    rw [hkf]
    exact hrun'
  rcases compactF_spec dbg proj hndf with ⟨f2, h2, spec2⟩ | ⟨e, k, h2, herr⟩
  · have hndf2 : posNodup f2 := by
      unfold posNodup
      rw [posOf_eq_of_skel spec2.skelEq]
      exact hndf
    have hf2 : f2 = f := by
      refine eq_of_skel_readAt spec2.skelEq hndf ?_
      intro p r hm
      by_cases hv : r.vis = true
      · have hmk : (p, r) ∈ keyFilter proj (proj r.row) f := mem_keyFilter.mpr ⟨hm, hv, rfl⟩
        obtain ⟨tupk, hrunk, hkfk⟩ := hkey (proj r.row)
        obtain ⟨tup2, hrun2, hkf2⟩ := spec2.keys (proj r.row)
        rw [hrunk] at hrun2
        injection hrun2 with hrun2
        have hmem2 : (p, r) ∈ keyFilter proj (proj r.row) f2 := by
          rw [hkf2, ← hrun2, hkfk]
          exact hmk
        exact readAt_of_mem hndf2 (mem_keyFilter.mp hmem2).1
      · exact spec2.invis p r hm (by simpa using hv)
    have hufl : unflattenLike out f = out := by
      conv_lhs => rw [← hflat]
      exact unflattenLike_flattenChunks out
    unfold intoCompactedChunks
    rw [hflat, h2, hf2]
    show Except.ok (unflattenLike out f) = Except.ok out
    rw [hufl]
  · obtain ⟨tup', hrun', _⟩ := hkey k
    rw [herr] at hrun'
    cases hrun'

theorem c2_witness :
    intoCompactedChunks true sampleKeyProj sampleChunks = .ok sampleCompacted ∧
    intoCompactedChunks true sampleKeyProj sampleCompacted = .ok sampleCompacted :=
  ⟨by rfl, @c2_inplace_idempotent Row3 (Int × Int) _ _ true sampleKeyProj sampleChunks sampleCompacted (by rfl)⟩

/-! ## Downstream replay versus the per-key machine -/

theorem perKeyReplay_cons {α : Type} [DecidableEq α] (v : Option α) (x : Op × α)
    (l : List (Op × α)) :
    perKeyReplay v (x :: l) = match replayStep v x with
      | some w => perKeyReplay w l
      | none => none := by
  unfold perKeyReplay
  rw [List.foldlM_cons]
  cases replayStep v x <;> rfl

theorem replayStep_normalize {α : Type} [DecidableEq α] (v : Option α) (op : Op) (r : α) :
    replayStep v (op.normalizeUpdate, r) = replayStep v (op, r) := by
  cases op <;> rfl

theorem replay_over_pat {α : Type} [DecidableEq α] :
    ∀ (l : FChunks α) (v : Option α),
      perKeyReplay v (l.map (fun e => (e.2.op, e.2.row))) =
        (l.map (fun e => (e.1, e.2.op.normalizeUpdate, e.2.row))).foldlM
          (fun w t => replayStep w (t.2.1, t.2.2)) v := by
  intro l
  induction l with
  | nil => intro v; rfl
  | cons e t ih =>
    intro v
    rw [List.map_cons, List.map_cons, perKeyReplay_cons, List.foldlM_cons]
    cases hs : replayStep v (e.2.op, e.2.row) with
    | none =>
      have hstep : replayStep v ((e.1, e.2.op.normalizeUpdate, e.2.row).2.1,
          (e.1, e.2.op.normalizeUpdate, e.2.row).2.2) = none := by
        show replayStep v (e.2.op.normalizeUpdate, e.2.row) = none
        rw [replayStep_normalize]
        exact hs
      rw [hstep]
      rfl
    | some w =>
      have hstep : replayStep v ((e.1, e.2.op.normalizeUpdate, e.2.row).2.1,
          (e.1, e.2.op.normalizeUpdate, e.2.row).2.2) = some w := by
        show replayStep v (e.2.op.normalizeUpdate, e.2.row) = some w
        rw [replayStep_normalize]
        exact hs
      rw [hstep]
      exact ih w

theorem sim_step {α : Type} [DecidableEq α] {s : Option (KSt α)} {v0 v v' : Option α}
    {p : Pos} {op : Op} {r : α} (hop : op = .insert ∨ op = .delete)
    (hrel : kstRel v0 s v) (hstep : replayStep v (op, r) = some v') :
    ∃ s', kstep s (p, op, r) = .ok s' ∧ kstRel v0 s' v' := by
  rcases hop with hop | hop
  · subst hop
    cases s with
    | none =>
      have hrel2 : v = v0 := hrel
      cases v with
      | none =>
        have hstep2 : (some (some r) : Option (Option α)) = some v' := hstep
        refine ⟨some (.ins p r), rfl, ?_⟩
        exact ⟨hrel2.symm, (Option.some.inj hstep2).symm⟩
      | some w =>
        exact Option.noConfusion (show (none : Option (Option α)) = some v' from hstep)
    | some st =>
      cases st with
      | ins q a =>
        have hrel2 : v0 = none ∧ v = some a := hrel
        rw [hrel2.2] at hstep
        exact Option.noConfusion (show (none : Option (Option α)) = some v' from hstep)
      | del q d =>
        have hrel2 : v0 = some d ∧ v = none := hrel
        rw [hrel2.2] at hstep
        have hstep2 : (some (some r) : Option (Option α)) = some v' := hstep
        refine ⟨some (.delins q d p r), rfl, ?_⟩
        exact ⟨hrel2.1, (Option.some.inj hstep2).symm⟩
      | delins q d q2 i =>
        have hrel2 : v0 = some d ∧ v = some i := hrel
        rw [hrel2.2] at hstep
        exact Option.noConfusion (show (none : Option (Option α)) = some v' from hstep)
  · subst hop
    cases s with
    | none =>
      have hrel2 : v = v0 := hrel
      cases v with
      | none =>
        exact Option.noConfusion (show (none : Option (Option α)) = some v' from hstep)
      | some w =>
        have hstep2 : (if w = r then some none else none) = some v' := hstep
        by_cases hw : w = r
        · rw [if_pos hw] at hstep2
          refine ⟨some (.del p r), rfl, ?_⟩
          refine ⟨?_, (Option.some.inj hstep2).symm⟩
          rw [← hrel2, hw]
        · rw [if_neg hw] at hstep2
          cases hstep2
    | some st =>
      cases st with
      | ins q a =>
        have hrel2 : v0 = none ∧ v = some a := hrel
        rw [hrel2.2] at hstep
        have hstep2 : (if a = r then some none else none) = some v' := hstep
        by_cases ha : a = r
        · rw [if_pos ha] at hstep2
          refine ⟨none, rfl, ?_⟩
          show v' = v0
          rw [← Option.some.inj hstep2, hrel2.1]
        · rw [if_neg ha] at hstep2
          cases hstep2
      | del q d =>
        have hrel2 : v0 = some d ∧ v = none := hrel
        rw [hrel2.2] at hstep
        exact Option.noConfusion (show (none : Option (Option α)) = some v' from hstep)
      | delins q d q2 i =>
        have hrel2 : v0 = some d ∧ v = some i := hrel
        rw [hrel2.2] at hstep
        have hstep2 : (if i = r then some none else none) = some v' := hstep
        by_cases hi : i = r
        · rw [if_pos hi] at hstep2
          refine ⟨some (.del q d), rfl, ?_⟩
          exact ⟨hrel2.1, (Option.some.inj hstep2).symm⟩
        · rw [if_neg hi] at hstep2
          cases hstep2

theorem sim_fold {α : Type} [DecidableEq α] :
    ∀ (l : List (Pos × Op × α)) (s : Option (KSt α)) (v0 v v' : Option α),
      (∀ t ∈ l, t.2.1 = .insert ∨ t.2.1 = .delete) →
      kstRel v0 s v →
      l.foldlM (fun w t => replayStep w (t.2.1, t.2.2)) v = some v' →
      ∃ s', l.foldlM kstep s = .ok s' ∧ kstRel v0 s' v' := by
  intro l
  induction l with
  | nil =>
    intro s v0 v v' _ hrel h
    have h2 : (some v : Option (Option α)) = some v' := h
    refine ⟨s, rfl, ?_⟩
    rw [← Option.some.inj h2]
    exact hrel
  | cons t ts ih =>
    intro s v0 v v' hops hrel h
    obtain ⟨p, op, r⟩ := t
    rw [List.foldlM_cons] at h
    cases hstep : replayStep v (op, r) with
    | none =>
      rw [hstep] at h
      exact Option.noConfusion (show (none : Option (Option α)) = some v' from h)
    | some w =>
      rw [hstep] at h
      have h2 : ts.foldlM (fun w t => replayStep w (t.2.1, t.2.2)) w = some v' := h
      obtain ⟨s2, hk, hrel2⟩ :=
        sim_step (hops (p, op, r) (List.mem_cons_self _ _)) hrel hstep
      obtain ⟨s', hks, hrel'⟩ := ih s2 v0 w v'
        (fun t ht => hops t (List.mem_cons_of_mem _ ht)) hrel2 h2
      refine ⟨s', ?_, hrel'⟩
      rw [List.foldlM_cons, hk]
      exact hks

theorem pat_ops {α κ : Type} [DecidableEq κ] (proj : α → κ) (k : κ) (f : FChunks α) :
    ∀ t ∈ pat proj k f, t.2.1 = .insert ∨ t.2.1 = .delete := by
  intro t ht
  unfold pat at ht
  obtain ⟨e, _, hx⟩ := List.mem_map.mp ht
  rw [← hx]
  exact normalizeUpdate_cases e.2.op

theorem finalRecs_replay {α : Type} [DecidableEq α] {tup : Option (KSt α)}
    {v0 v : Option α} (hrel : kstRel v0 tup v) :
    perKeyReplay v0 ((finalRecs tup).map (fun e => (e.2.op, e.2.row))) = some v := by
  cases tup with
  | none =>
    have hrel2 : v = v0 := hrel
    show some v0 = some v
    rw [hrel2]
  | some st =>
    cases st with
    | ins p r =>
      have hrel2 : v0 = none ∧ v = some r := hrel
      rw [hrel2.1, hrel2.2]
      rfl
    | del p r =>
      have hrel2 : v0 = some r ∧ v = none := hrel
      rw [hrel2.1, hrel2.2]
      show perKeyReplay (some r) [(Op.delete, r)] = some none
      rw [perKeyReplay_cons]
      rw [show replayStep (some r) (Op.delete, r) = some none from by
        show (if r = r then some none else none) = some none
        rw [if_pos rfl]]
      rfl
    | delins q d p i =>
      have hrel2 : v0 = some d ∧ v = some i := hrel
      rw [hrel2.1, hrel2.2]
      by_cases hd : d = i
      · have hfr : finalRecs (some (.delins q d p i)) = ([] : FChunks α) := by
          simp [finalRecs, hd]
        rw [hfr]
        show some (some d) = some (some i)
        rw [hd]
      · by_cases ha : q.1 = p.1 ∧ q.2 + 1 = p.2
        · have hfr : finalRecs (some (.delins q d p i)) =
              [(q, ⟨.updateDelete, d, true⟩), (p, ⟨.updateInsert, i, true⟩)] := by
            simp [finalRecs, hd, ha]
          rw [hfr]
          show perKeyReplay (some d) [(Op.updateDelete, d), (Op.updateInsert, i)] =
            some (some i)
          rw [perKeyReplay_cons]
          rw [show replayStep (some d) (Op.updateDelete, d) = some none from by
            show (if d = d then some none else none) = some none
            rw [if_pos rfl]]
          show perKeyReplay none [(Op.updateInsert, i)] = some (some i)
          rfl
        · have hfr : finalRecs (some (.delins q d p i)) =
              [(q, ⟨.delete, d, true⟩), (p, ⟨.insert, i, true⟩)] := by
            simp [finalRecs, hd, ha]
          rw [hfr]
          show perKeyReplay (some d) [(Op.delete, d), (Op.insert, i)] = some (some i)
          rw [perKeyReplay_cons]
          rw [show replayStep (some d) (Op.delete, d) = some none from by
            show (if d = d then some none else none) = some none
            rw [if_pos rfl]]
          show perKeyReplay none [(Op.insert, i)] = some (some i)
          rfl

/-! ## Visible-record counting -/

theorem countVisF_cons {α : Type} (e : Pos × Rec α) (t : FChunks α) :
    countVisF (e :: t) = (if e.2.vis then 1 else 0) + countVisF t := by
  cases hv : e.2.vis <;> simp [countVisF, List.filter_cons, hv, Nat.add_comm]

theorem countVisF_append {α : Type} (a b : FChunks α) :
    countVisF (a ++ b) = countVisF a + countVisF b := by
  unfold countVisF
  rw [List.filter_append, List.length_append]

theorem countVisF_chunkRows {α : Type} (c : Chunk α) :
    ∀ i j, countVisF (chunkRows i j c) = chunkCard c := by
  induction c with
  | nil => intro i j; rfl
  | cons r rs ih =>
    intro i j
    cases hv : r.vis <;>
      simp [chunkRows, countVisF_cons, ih i (j + 1), chunkCard, List.filter_cons, hv,
        Nat.add_comm]

theorem totalCard_flattenFrom {α : Type} (cs : List (Chunk α)) :
    ∀ i, countVisF (flattenFrom i cs) = totalCard cs := by
  induction cs with
  | nil => intro i; rfl
  | cons c cs ih =>
    intro i
    show countVisF (chunkRows i 0 c ++ flattenFrom (i + 1) cs) = totalCard (c :: cs)
    rw [countVisF_append, countVisF_chunkRows, ih (i + 1)]
    show chunkCard c + totalCard cs = totalCard (c :: cs)
    unfold totalCard
    rw [List.map_cons, List.sum_cons]

theorem totalCard_eq_countVisF {α : Type} (cs : List (Chunk α)) :
    totalCard cs = countVisF (flattenChunks cs) :=
  (totalCard_flattenFrom cs 0).symm

theorem countVisF_mono {α : Type} : ∀ {f0 f : FChunks α}, skel f = skel f0 → posNodup f0 →
    (∀ p r r', readAt f0 p = some r → readAt f p = some r' → r'.vis = true → r.vis = true) →
    countVisF f ≤ countVisF f0 := by
  intro f0
  induction f0 with
  | nil =>
    intro f hsk _ _
    cases f with
    | nil => exact Nat.le_refl _
    | cons e t => simp [skel] at hsk
  | cons e0 t0 ih =>
    intro f hsk hnd hvis
    obtain ⟨p, r0⟩ := e0
    cases f with
    | nil => simp [skel] at hsk
    | cons e1 t1 =>
      obtain ⟨p1, r1⟩ := e1
      simp only [skel, List.map_cons, List.cons.injEq, Prod.mk.injEq] at hsk
      obtain ⟨⟨hp, _⟩, hsk2⟩ := hsk
      subst hp
      unfold posNodup at hnd
      simp only [posOf, List.map_cons, List.nodup_cons] at hnd
      have hhead : r1.vis = true → r0.vis = true := by
        intro hv
        exact hvis p1 r0 r1 (by rw [readAt, if_pos rfl]) (by rw [readAt, if_pos rfl]) hv
      have htail : countVisF t1 ≤ countVisF t0 := by
        refine ih hsk2 hnd.2 ?_
        intro p2 r r' h0 h1 hv
        have hmem : (p2, r) ∈ t0 := mem_of_readAt h0
        have hp2 : p2 ∈ posOf t0 := List.mem_map_of_mem _ hmem
        have hne : p1 ≠ p2 := fun hc => hnd.1 (by rw [hc]; exact hp2)
        refine hvis p2 r r' ?_ ?_ hv
        · rw [readAt, if_neg hne]
          exact h0
        · rw [readAt, if_neg hne]
          exact h1
      rw [countVisF_cons, countVisF_cons]
      cases hv1 : r1.vis with
      | false =>
        cases hv0 : r0.vis <;> simp <;> omega
      | true =>
        rw [hhead hv1]
        simp
        omega

/-! ## In-place mode: replay equivalence and cardinality -/

theorem inplace_replay_key {α κ : Type} [DecidableEq α] [DecidableEq κ]
    {dbg : Bool} {proj : α → κ} {cs out : List (Chunk α)}
    (h : intoCompactedChunks dbg proj cs = .ok out) (k : κ) (v0 v : Option α)
    (hrep : perKeyReplay v0 (keyOps proj k cs) = some v) :
    perKeyReplay v0 (keyOps proj k out) = some v := by
  obtain ⟨f, hc, hout⟩ := intoCompactedChunks_inv h
  have spec := compactF_ok_spec (posNodup_flattenChunks cs) hc
  have hflat : flattenChunks out = f := by
    rw [hout]
    exact flattenChunks_unflattenLike spec.skelEq
  unfold keyOps at hrep
  rw [replay_over_pat] at hrep
  have hfold : (pat proj k (flattenChunks cs)).foldlM
      (fun w t => replayStep w (t.2.1, t.2.2)) v0 = some v := hrep
  obtain ⟨s', hks, hrel'⟩ := sim_fold (pat proj k (flattenChunks cs)) none v0 v0 v
    (pat_ops proj k _) (show v0 = v0 from rfl) hfold
  obtain ⟨tup, hrun, hkf⟩ := spec.keys k
  have hks2 : machineRun (pat proj k (flattenChunks cs)) = .ok s' := hks
  rw [hrun] at hks2
  have hst : tup = s' := Except.ok.inj hks2
  have hkops : keyOps proj k out = (finalRecs tup).map (fun e => (e.2.op, e.2.row)) := by
    unfold keyOps
    rw [hflat, hkf]
  rw [hkops]
  exact finalRecs_replay (hst ▸ hrel')

theorem inplace_card {α κ : Type} [DecidableEq α] [DecidableEq κ]
    {dbg : Bool} {proj : α → κ} {cs out : List (Chunk α)}
    (h : intoCompactedChunks dbg proj cs = .ok out) :
    totalCard out ≤ totalCard cs := by
  obtain ⟨f, hc, hout⟩ := intoCompactedChunks_inv h
  have hnd0 := posNodup_flattenChunks cs
  have spec := compactF_ok_spec hnd0 hc
  have hflat : flattenChunks out = f := by
    rw [hout]
    exact flattenChunks_unflattenLike spec.skelEq
  rw [totalCard_eq_countVisF, totalCard_eq_countVisF, hflat]
  refine countVisF_mono spec.skelEq hnd0 ?_
  intro p r r' h0 h1 hv
  by_cases hvr : r.vis = true
  · exact hvr
  · have hr : readAt f p = some r :=
      spec.invis p r (mem_of_readAt h0) (by simpa using hvr)
    rw [h1] at hr
    have := Option.some.inj hr
    rw [this] at hv
    exact absurd hv hvr

/-! ## Reconstruct-map structural lemmas -/

theorem rmInsert_lookup_ne {α κ : Type} [DecidableEq κ] :
    ∀ (m : RowOpMapL α κ) (k k2 : κ) (v : α), k2 ≠ k →
      mlookup (rmInsert m k v).1 k2 = mlookup m k2 := by
  intro m
  induction m with
  | nil =>
    intro k k2 v h
    have hne : ¬ k = k2 := fun hc => h hc.symm
    simp [rmInsert, mlookup, hne]
  | cons e t ih =>
    intro k k2 v h
    obtain ⟨k1, rop⟩ := e
    by_cases h1 : k1 = k
    · subst h1
      have hne : ¬ k1 = k2 := fun hc => h hc.symm
      cases rop <;> simp [rmInsert, mlookup, hne]
    · simp only [rmInsert, if_neg h1]
      by_cases h2 : k1 = k2
      · simp [mlookup, h2]
      · simp [mlookup, h2, ih k k2 v h]

theorem rmDelete_lookup_ne {α κ : Type} [DecidableEq κ] :
    ∀ (m : RowOpMapL α κ) (k k2 : κ) (v : α), k2 ≠ k →
      mlookup (rmDelete m k v).1 k2 = mlookup m k2 := by
  intro m
  induction m with
  | nil =>
    intro k k2 v h
    have hne : ¬ k = k2 := fun hc => h hc.symm
    simp [rmDelete, mlookup, hne]
  | cons e t ih =>
    intro k k2 v h
    obtain ⟨k1, rop⟩ := e
    by_cases h1 : k1 = k
    · subst h1
      have hne : ¬ k1 = k2 := fun hc => h hc.symm
      cases rop <;> simp [rmDelete, mlookup, hne]
    · simp only [rmDelete, if_neg h1]
      by_cases h2 : k1 = k2
      · simp [mlookup, h2]
      · simp [mlookup, h2, ih k k2 v h]

theorem rmInsert_lookup_self {α κ : Type} [DecidableEq κ] :
    ∀ (m : RowOpMapL α κ) (k : κ) (v : α),
      mlookup (rmInsert m k v).1 k = some (match mlookup m k with
        | none => RowOp.ins v
        | some (.del o) => RowOp.upd o v
        | some (.ins _) => RowOp.ins v
        | some (.upd o _) => RowOp.upd o v) := by
  intro m
  induction m with
  | nil => intro k v; simp [rmInsert, mlookup]
  | cons e t ih =>
    intro k v
    obtain ⟨k1, rop⟩ := e
    by_cases h1 : k1 = k
    · subst h1
      cases rop <;> simp [rmInsert, mlookup]
    · simp [rmInsert, mlookup, h1, ih k v]

theorem rmDelete_lookup_self {α κ : Type} [DecidableEq κ] :
    ∀ (m : RowOpMapL α κ) (k : κ) (v : α), (m.map (fun e => e.1)).Nodup →
      mlookup (rmDelete m k v).1 k = (match mlookup m k with
        | none => some (RowOp.del v)
        | some (.ins _) => none
        | some (.upd o _) => some (RowOp.del o)
        | some (.del _) => some (RowOp.del v)) := by
  intro m
  induction m with
  | nil => intro k v _; simp [rmDelete, mlookup]
  | cons e t ih =>
    intro k v hnd
    obtain ⟨k1, rop⟩ := e
    rw [List.map_cons, List.nodup_cons] at hnd
    by_cases h1 : k1 = k
    · subst h1
      cases rop with
      | ins r => simp [rmDelete, mlookup, mlookup_eq_none_iff.mpr hnd.1]
      | del r => simp [rmDelete, mlookup]
      | upd o n => simp [rmDelete, mlookup]
    · simp [rmDelete, mlookup, h1, ih k v hnd.2]

theorem rmInsert_keys_mem {α κ : Type} [DecidableEq κ] :
    ∀ (m : RowOpMapL α κ) (k : κ) (v : α) (x : κ),
      x ∈ (rmInsert m k v).1.map (fun e => e.1) →
      x ∈ m.map (fun e => e.1) ∨ x = k := by
  intro m
  induction m with
  | nil =>
    intro k v x hx
    simp [rmInsert] at hx
    exact Or.inr hx
  | cons e t ih =>
    intro k v x hx
    obtain ⟨k1, rop⟩ := e
    by_cases h1 : k1 = k
    · subst h1
      cases rop <;> simp [rmInsert] at hx <;> simp [hx]
    · simp only [rmInsert, if_neg h1, List.map_cons, List.mem_cons] at hx
      rcases hx with hx | hx
      · refine Or.inl ?_
        rw [List.map_cons]
        exact List.mem_cons.mpr (Or.inl hx)
      · rcases ih k v x hx with h2 | h2
        · refine Or.inl ?_
          rw [List.map_cons]
          exact List.mem_cons_of_mem _ h2
        · exact Or.inr h2

theorem rmDelete_keys_mem {α κ : Type} [DecidableEq κ] :
    ∀ (m : RowOpMapL α κ) (k : κ) (v : α) (x : κ),
      x ∈ (rmDelete m k v).1.map (fun e => e.1) →
      x ∈ m.map (fun e => e.1) ∨ x = k := by
  intro m
  induction m with
  | nil =>
    intro k v x hx
    simp [rmDelete] at hx
    exact Or.inr hx
  | cons e t ih =>
    intro k v x hx
    obtain ⟨k1, rop⟩ := e
    by_cases h1 : k1 = k
    · subst h1
      cases rop <;> simp [rmDelete] at hx <;> simp [hx]
    · simp only [rmDelete, if_neg h1, List.map_cons, List.mem_cons] at hx
      rcases hx with hx | hx
      · refine Or.inl ?_
        rw [List.map_cons]
        exact List.mem_cons.mpr (Or.inl hx)
      · rcases ih k v x hx with h2 | h2
        · refine Or.inl ?_
          rw [List.map_cons]
          exact List.mem_cons_of_mem _ h2
        · exact Or.inr h2

theorem rmInsert_keys_nodup {α κ : Type} [DecidableEq κ] :
    ∀ (m : RowOpMapL α κ) (k : κ) (v : α), (m.map (fun e => e.1)).Nodup →
      ((rmInsert m k v).1.map (fun e => e.1)).Nodup := by
  intro m
  induction m with
  | nil => intro k v _; simp [rmInsert]
  | cons e t ih =>
    intro k v hnd
    obtain ⟨k1, rop⟩ := e
    rw [List.map_cons, List.nodup_cons] at hnd
    by_cases h1 : k1 = k
    · subst h1
      cases rop with
      | ins r =>
        have he : (rmInsert ((k1, RowOp.ins r) :: t) k1 v).1 = (k1, RowOp.ins v) :: t := by
          simp [rmInsert]
        rw [he, List.map_cons, List.nodup_cons]
        exact ⟨hnd.1, hnd.2⟩
      | del o =>
        have he : (rmInsert ((k1, RowOp.del o) :: t) k1 v).1 = (k1, RowOp.upd o v) :: t := by
          simp [rmInsert]
        rw [he, List.map_cons, List.nodup_cons]
        exact ⟨hnd.1, hnd.2⟩
      | upd o n =>
        have he : (rmInsert ((k1, RowOp.upd o n) :: t) k1 v).1 = (k1, RowOp.upd o v) :: t := by
          simp [rmInsert]
        rw [he, List.map_cons, List.nodup_cons]
        exact ⟨hnd.1, hnd.2⟩
    · simp only [rmInsert, if_neg h1, List.map_cons, List.nodup_cons]
      refine ⟨?_, ih k v hnd.2⟩
      intro hc
      rcases rmInsert_keys_mem t k v k1 hc with h2 | h2
      · exact hnd.1 h2
      · exact h1 h2

theorem rmDelete_keys_nodup {α κ : Type} [DecidableEq κ] :
    ∀ (m : RowOpMapL α κ) (k : κ) (v : α), (m.map (fun e => e.1)).Nodup →
      ((rmDelete m k v).1.map (fun e => e.1)).Nodup := by
  intro m
  induction m with
  | nil => intro k v _; simp [rmDelete]
  | cons e t ih =>
    intro k v hnd
    obtain ⟨k1, rop⟩ := e
    rw [List.map_cons, List.nodup_cons] at hnd
    by_cases h1 : k1 = k
    · subst h1
      cases rop with
      | ins r =>
        have he : (rmDelete ((k1, RowOp.ins r) :: t) k1 v).1 = t := by
          simp [rmDelete]
        rw [he]
        exact hnd.2
      | del r =>
        have he : (rmDelete ((k1, RowOp.del r) :: t) k1 v).1 = (k1, RowOp.del v) :: t := by
          simp [rmDelete]
        rw [he, List.map_cons, List.nodup_cons]
        exact ⟨hnd.1, hnd.2⟩
      | upd o n =>
        have he : (rmDelete ((k1, RowOp.upd o n) :: t) k1 v).1 = (k1, RowOp.del o) :: t := by
          simp [rmDelete]
        rw [he, List.map_cons, List.nodup_cons]
        exact ⟨hnd.1, hnd.2⟩
    · simp only [rmDelete, if_neg h1, List.map_cons, List.nodup_cons]
      refine ⟨?_, ih k v hnd.2⟩
      intro hc
      rcases rmDelete_keys_mem t k v k1 hc with h2 | h2
      · exact hnd.1 h2
      · exact h1 h2

theorem rmWeight_cons {α κ : Type} (e : κ × RowOp α) (m : RowOpMapL α κ) :
    rmWeight (e :: m) = rowOpWeight e.2 + rmWeight m := by
  simp [rmWeight]

theorem rmInsert_weight {α κ : Type} [DecidableEq κ] :
    ∀ (m : RowOpMapL α κ) (k : κ) (v : α),
      rmWeight (rmInsert m k v).1 ≤ rmWeight m + 1 := by
  intro m
  induction m with
  | nil => intro k v; simp [rmInsert, rmWeight, rowOpWeight]
  | cons e t ih =>
    intro k v
    obtain ⟨k1, rop⟩ := e
    by_cases h1 : k1 = k
    · subst h1
      cases rop <;> (simp [rmInsert, rmWeight_cons, rowOpWeight]; try omega)
    · simp only [rmInsert, if_neg h1]
      rw [rmWeight_cons, rmWeight_cons]
      have := ih k v
      omega

theorem rmDelete_weight {α κ : Type} [DecidableEq κ] :
    ∀ (m : RowOpMapL α κ) (k : κ) (v : α),
      rmWeight (rmDelete m k v).1 ≤ rmWeight m + 1 := by
  intro m
  induction m with
  | nil => intro k v; simp [rmDelete, rmWeight, rowOpWeight]
  | cons e t ih =>
    intro k v
    obtain ⟨k1, rop⟩ := e
    by_cases h1 : k1 = k
    · subst h1
      cases rop <;> (simp [rmDelete, rmWeight_cons, rowOpWeight]; try omega)
    · simp only [rmDelete, if_neg h1]
      rw [rmWeight_cons, rmWeight_cons]
      have := ih k v
      omega

theorem rmInsert_keyed {α κ : Type} [DecidableEq κ] {proj : α → κ} :
    ∀ (m : RowOpMapL α κ) (k : κ) (v : α), (∀ e ∈ m, ropKeyed proj e) → proj v = k →
      ∀ e ∈ (rmInsert m k v).1, ropKeyed proj e := by
  intro m
  induction m with
  | nil =>
    intro k v _ hv e he
    simp [rmInsert] at he
    rw [he]
    exact hv
  | cons e0 t ih =>
    intro k v hm hv e he
    obtain ⟨k1, rop⟩ := e0
    by_cases h1 : k1 = k
    · subst h1
      cases rop with
      | ins r =>
        simp only [rmInsert, if_pos rfl] at he
        rcases List.mem_cons.mp he with he | he
        · rw [he]
          exact hv
        · exact hm _ (List.mem_cons_of_mem _ he)
      | del o =>
        simp only [rmInsert, if_pos rfl] at he
        rcases List.mem_cons.mp he with he | he
        · rw [he]
          exact ⟨hm (k1, .del o) (List.mem_cons_self _ _), hv⟩
        · exact hm _ (List.mem_cons_of_mem _ he)
      | upd o n =>
        simp only [rmInsert, if_pos rfl] at he
        rcases List.mem_cons.mp he with he | he
        · rw [he]
          exact ⟨(hm (k1, .upd o n) (List.mem_cons_self _ _)).1, hv⟩
        · exact hm _ (List.mem_cons_of_mem _ he)
    · simp only [rmInsert, if_neg h1] at he
      rcases List.mem_cons.mp he with he | he
      · rw [he]
        exact hm _ (List.mem_cons_self _ _)
      · exact ih k v (fun e2 he2 => hm e2 (List.mem_cons_of_mem _ he2)) hv e he

theorem rmDelete_keyed {α κ : Type} [DecidableEq κ] {proj : α → κ} :
    ∀ (m : RowOpMapL α κ) (k : κ) (v : α), (∀ e ∈ m, ropKeyed proj e) → proj v = k →
      ∀ e ∈ (rmDelete m k v).1, ropKeyed proj e := by
  intro m
  induction m with
  | nil =>
    intro k v _ hv e he
    simp [rmDelete] at he
    rw [he]
    exact hv
  | cons e0 t ih =>
    intro k v hm hv e he
    obtain ⟨k1, rop⟩ := e0
    by_cases h1 : k1 = k
    · subst h1
      cases rop with
      | ins r =>
        simp only [rmDelete, if_pos rfl] at he
        exact hm _ (List.mem_cons_of_mem _ he)
      | del o =>
        simp only [rmDelete, if_pos rfl] at he
        rcases List.mem_cons.mp he with he | he
        · rw [he]
          exact hv
        · exact hm _ (List.mem_cons_of_mem _ he)
      | upd o n =>
        simp only [rmDelete, if_pos rfl] at he
        rcases List.mem_cons.mp he with he | he
        · rw [he]
          exact (hm (k1, .upd o n) (List.mem_cons_self _ _)).1
        · exact hm _ (List.mem_cons_of_mem _ he)
    · simp only [rmDelete, if_neg h1] at he
      rcases List.mem_cons.mp he with he | he
      · rw [he]
        exact hm _ (List.mem_cons_self _ _)
      · exact ih k v (fun e2 he2 => hm e2 (List.mem_cons_of_mem _ he2)) hv e he

/-! ## Reconstruct-mode fold invariants -/

theorem pat_cons {α κ : Type} [DecidableEq κ] (proj : α → κ) (k : κ)
    (e : Pos × Rec α) (t : FChunks α) :
    pat proj k (e :: t) =
      if e.2.vis = true ∧ proj e.2.row = k
      then (e.1, e.2.op.normalizeUpdate, e.2.row) :: pat proj k t
      else pat proj k t := by
  obtain ⟨p, r⟩ := e
  have hsplit : (p, r) :: t = [(p, r)] ++ t := rfl
  rw [hsplit, pat_append, pat_singleton]
  by_cases h : r.vis = true ∧ proj r.row = k
  · rw [if_pos h, if_pos h]
    rfl
  · rw [if_neg h, if_neg h]
    rfl

theorem reconStep_not_vis {α κ : Type} [DecidableEq κ] {proj : α → κ}
    (acc : RowOpMapL α κ × Nat) (e : Pos × Rec α) (hv : ¬ e.2.vis = true) :
    reconStep proj acc e = acc := by
  unfold reconStep
  rw [if_neg hv]

theorem reconFold_weight {α κ : Type} [DecidableEq κ] (proj : α → κ) :
    ∀ (f : FChunks α) (acc : RowOpMapL α κ × Nat),
      rmWeight (f.foldl (reconStep proj) acc).1 ≤ rmWeight acc.1 + countVisF f := by
  intro f
  induction f with
  | nil =>
    intro acc
    simp [countVisF]
  | cons e t ih =>
    intro acc
    rw [List.foldl_cons, countVisF_cons]
    by_cases hv : e.2.vis = true
    · have hstep : rmWeight (reconStep proj acc e).1 ≤ rmWeight acc.1 + 1 := by
        unfold reconStep
        rw [if_pos hv]
        cases ho : e.2.op
        · exact rmInsert_weight acc.1 (proj e.2.row) e.2.row
        · exact rmDelete_weight acc.1 (proj e.2.row) e.2.row
        · exact rmDelete_weight acc.1 (proj e.2.row) e.2.row
        · exact rmInsert_weight acc.1 (proj e.2.row) e.2.row
      rw [if_pos hv]
      have := ih (reconStep proj acc e)
      omega
    · rw [reconStep_not_vis acc e hv, if_neg hv]
      have := ih acc
      omega

theorem rmInsert_tracks {α κ : Type} [DecidableEq α] [DecidableEq κ] {proj : α → κ}
    {m : RowOpMapL α κ} {p : Pos} {row : α}
    (hnd : (m.map (fun e => e.1)).Nodup) (hkeyed : ∀ e2 ∈ m, ropKeyed proj e2)
    {s s2 : Option (KSt α)} (hcur : mlookup m (proj row) = rowOpOf s)
    (hk : kstep s (p, .insert, row) = .ok s2) :
    (((rmInsert m (proj row) row).1).map (fun e => e.1)).Nodup ∧
    (∀ e2 ∈ (rmInsert m (proj row) row).1, ropKeyed proj e2) ∧
    mlookup (rmInsert m (proj row) row).1 (proj row) = rowOpOf s2 ∧
    (∀ k, k ≠ proj row → mlookup (rmInsert m (proj row) row).1 k = mlookup m k) := by
  refine ⟨rmInsert_keys_nodup m (proj row) row hnd,
    rmInsert_keyed m (proj row) row hkeyed rfl, ?_,
    fun k hkk => rmInsert_lookup_ne m (proj row) k row hkk⟩
  cases s with
  | none =>
    have hs2 : some (KSt.ins p row) = s2 := by simpa [kstep] using hk
    have hcur2 : mlookup m (proj row) = none := hcur
    rw [rmInsert_lookup_self m (proj row) row, hcur2, ← hs2]
    rfl
  | some st =>
    cases st with
    | ins q a => simp [kstep] at hk
    | del q d =>
      have hs2 : some (KSt.delins q d p row) = s2 := by simpa [kstep] using hk
      have hcur2 : mlookup m (proj row) = some (RowOp.del d) := hcur
      rw [rmInsert_lookup_self m (proj row) row, hcur2, ← hs2]
      rfl
    | delins q d q2 i => simp [kstep] at hk

theorem rmDelete_tracks {α κ : Type} [DecidableEq α] [DecidableEq κ] {proj : α → κ}
    {m : RowOpMapL α κ} {p : Pos} {row : α}
    (hnd : (m.map (fun e => e.1)).Nodup) (hkeyed : ∀ e2 ∈ m, ropKeyed proj e2)
    {s s2 : Option (KSt α)} (hcur : mlookup m (proj row) = rowOpOf s)
    (hk : kstep s (p, .delete, row) = .ok s2) :
    (((rmDelete m (proj row) row).1).map (fun e => e.1)).Nodup ∧
    (∀ e2 ∈ (rmDelete m (proj row) row).1, ropKeyed proj e2) ∧
    mlookup (rmDelete m (proj row) row).1 (proj row) = rowOpOf s2 ∧
    (∀ k, k ≠ proj row → mlookup (rmDelete m (proj row) row).1 k = mlookup m k) := by
  refine ⟨rmDelete_keys_nodup m (proj row) row hnd,
    rmDelete_keyed m (proj row) row hkeyed rfl, ?_,
    fun k hkk => rmDelete_lookup_ne m (proj row) k row hkk⟩
  cases s with
  | none =>
    have hs2 : some (KSt.del p row) = s2 := by simpa [kstep] using hk
    have hcur2 : mlookup m (proj row) = none := hcur
    rw [rmDelete_lookup_self m (proj row) row hnd, hcur2, ← hs2]
    rfl
  | some st =>
    cases st with
    | ins q a =>
      have hs2 : (none : Option (KSt α)) = s2 := by simpa [kstep] using hk
      have hcur2 : mlookup m (proj row) = some (RowOp.ins a) := hcur
      rw [rmDelete_lookup_self m (proj row) row hnd, hcur2, ← hs2]
      rfl
    | del q d => simp [kstep] at hk
    | delins q d q2 i =>
      have hs2 : some (KSt.del q d) = s2 := by simpa [kstep] using hk
      have hcur2 : mlookup m (proj row) = some (RowOp.upd d i) := hcur
      rw [rmDelete_lookup_self m (proj row) row hnd, hcur2, ← hs2]
      rfl

theorem reconLoop {α κ : Type} [DecidableEq α] [DecidableEq κ] (proj : α → κ) :
    ∀ (f : FChunks α) (m : RowOpMapL α κ) (w : Nat) (σ : κ → Option (KSt α)),
      (m.map (fun e => e.1)).Nodup →
      (∀ e2 ∈ m, ropKeyed proj e2) →
      (∀ k, mlookup m k = rowOpOf (σ k)) →
      (∀ k, ∃ tup, (pat proj k f).foldlM kstep (σ k) = .ok tup) →
      ((f.foldl (reconStep proj) (m, w)).1.map (fun e => e.1)).Nodup ∧
      (∀ e2 ∈ (f.foldl (reconStep proj) (m, w)).1, ropKeyed proj e2) ∧
      (∀ k tup, (pat proj k f).foldlM kstep (σ k) = .ok tup →
        mlookup (f.foldl (reconStep proj) (m, w)).1 k = rowOpOf tup) := by
  intro f
  induction f with
  | nil =>
    intro m w σ hnd hkeyed hlook _
    refine ⟨hnd, hkeyed, ?_⟩
    intro k tup h
    have h2 : (Except.ok (σ k) : Except String (Option (KSt α))) = .ok tup := h
    show mlookup m k = rowOpOf tup
    rw [hlook k, Except.ok.inj h2]
  | cons e t ih =>
    intro m w σ hnd hkeyed hlook hmach
    obtain ⟨p, op, row, vis⟩ := e
    rw [List.foldl_cons]
    cases vis with
    | false =>
      have hstep : reconStep proj (m, w) (p, ⟨op, row, false⟩) = (m, w) :=
        reconStep_not_vis _ _ (by simp)
      rw [hstep]
      have hpat : ∀ k, pat proj k ((p, ⟨op, row, false⟩) :: t) = pat proj k t := by
        intro k
        rw [pat_cons, if_neg (by simp)]
      obtain ⟨h1, h2, h3⟩ :=
        ih m w σ hnd hkeyed hlook (fun k => by rw [← hpat k]; exact hmach k)
      refine ⟨h1, h2, ?_⟩
      intro k tup h
      refine h3 k tup ?_
      rw [hpat k] at h
      exact h
    | true =>
      have hpatk0 : pat proj (proj row) ((p, ⟨op, row, true⟩) :: t)
          = (p, op.normalizeUpdate, row) :: pat proj (proj row) t := by
        rw [pat_cons, if_pos ⟨rfl, rfl⟩]
      obtain ⟨tup0, htup0⟩ := hmach (proj row)
      rw [hpatk0, List.foldlM_cons] at htup0
      cases hk : kstep (σ (proj row)) (p, op.normalizeUpdate, row) with
      | error err =>
        rw [hk] at htup0
        exact Except.noConfusion
          (show (Except.error err : Except String (Option (KSt α))) = .ok tup0 from htup0)
      | ok s2 =>
        rw [hk] at htup0
        have htracks :
            ((reconStep proj (m, w) (p, ⟨op, row, true⟩)).1.map (fun e => e.1)).Nodup ∧
            (∀ e2 ∈ (reconStep proj (m, w) (p, ⟨op, row, true⟩)).1, ropKeyed proj e2) ∧
            mlookup (reconStep proj (m, w) (p, ⟨op, row, true⟩)).1 (proj row) = rowOpOf s2 ∧
            (∀ k, k ≠ proj row →
              mlookup (reconStep proj (m, w) (p, ⟨op, row, true⟩)).1 k = mlookup m k) := by
          cases op
          · exact rmInsert_tracks hnd hkeyed (hlook (proj row)) hk
          · exact rmDelete_tracks hnd hkeyed (hlook (proj row)) hk
          · exact rmDelete_tracks hnd hkeyed (hlook (proj row)) hk
          · exact rmInsert_tracks hnd hkeyed (hlook (proj row)) hk
        obtain ⟨hnd2, hkeyed2, hlookk0, hlookne⟩ := htracks
        have hlook2 : ∀ k, mlookup (reconStep proj (m, w) (p, ⟨op, row, true⟩)).1 k =
            rowOpOf ((fun k => if k = proj row then s2 else σ k) k) := by
          intro k
          by_cases hkk : k = proj row
          · show mlookup _ k = rowOpOf (if k = proj row then s2 else σ k)
            rw [if_pos hkk, hkk]
            exact hlookk0
          · show mlookup _ k = rowOpOf (if k = proj row then s2 else σ k)
            rw [if_neg hkk, hlookne k hkk]
            exact hlook k
        have hmach2 : ∀ k, ∃ tup, (pat proj k t).foldlM kstep
            ((fun k => if k = proj row then s2 else σ k) k) = .ok tup := by
          intro k
          by_cases hkk : k = proj row
          · refine ⟨tup0, ?_⟩
            show (pat proj k t).foldlM kstep (if k = proj row then s2 else σ k) = .ok tup0
            rw [if_pos hkk, hkk]
            exact htup0
          · obtain ⟨tup, htup⟩ := hmach k
            refine ⟨tup, ?_⟩
            show (pat proj k t).foldlM kstep (if k = proj row then s2 else σ k) = .ok tup
            rw [if_neg hkk]
            rw [pat_cons, if_neg (fun hc => hkk hc.2.symm)] at htup
            exact htup
        obtain ⟨h1, h2, h3⟩ := ih _ _ _ hnd2 hkeyed2 hlook2 hmach2
        refine ⟨h1, h2, ?_⟩
        intro k tup h
        by_cases hkk : k = proj row
        · rw [hkk, hpatk0, List.foldlM_cons, hk] at h
          refine h3 k tup ?_
          show (pat proj k t).foldlM kstep (if k = proj row then s2 else σ k) = .ok tup
          rw [if_pos hkk, hkk]
          exact h
        · refine h3 k tup ?_
          show (pat proj k t).foldlM kstep (if k = proj row then s2 else σ k) = .ok tup
          rw [if_neg hkk]
          rw [pat_cons, if_neg (fun hc => hkk hc.2.symm)] at h
          exact h

/-! ## Builder flattening -/

theorem rmEmitStep_flatten {α κ : Type} [DecidableEq α]
    (acc : List (Chunk α) × StreamChunkBuilder α) (e : κ × RowOp α) :
    (rmEmitStep acc e).1.flatten ++
        ((rmEmitStep acc e).2.pending).map (fun t => (⟨t.1, t.2, true⟩ : Rec α)) =
      acc.1.flatten ++
        (acc.2.pending ++ entryEmit e.2).map (fun t => ⟨t.1, t.2, true⟩) := by
  obtain ⟨cs, b⟩ := acc
  obtain ⟨k, rop⟩ := e
  cases rop with
  | ins r =>
    by_cases hc : b.chunkSize ≤ b.pending.length + 1 <;>
      simp [rmEmitStep, StreamChunkBuilder.appendRecord, StreamChunkBuilder.appendRow,
        StreamChunkBuilder.appendRowInner, hc, entryEmit]
  | del r =>
    by_cases hc : b.chunkSize ≤ b.pending.length + 1 <;>
      simp [rmEmitStep, StreamChunkBuilder.appendRecord, StreamChunkBuilder.appendRow,
        StreamChunkBuilder.appendRowInner, hc, entryEmit]
  | upd o n =>
    by_cases ho : o = n
    · simp [rmEmitStep, ho, entryEmit]
    · by_cases hc : b.chunkSize ≤ b.pending.length + 1 + 1 <;>
        simp [rmEmitStep, StreamChunkBuilder.appendRecord, StreamChunkBuilder.appendRow,
          StreamChunkBuilder.appendRowInner, ho, hc, entryEmit]

theorem rmEmitLoop {α κ : Type} [DecidableEq α] :
    ∀ (m : RowOpMapL α κ) (acc : List (Chunk α) × StreamChunkBuilder α),
      (m.foldl rmEmitStep acc).1.flatten ++
        ((m.foldl rmEmitStep acc).2.pending).map (fun t => (⟨t.1, t.2, true⟩ : Rec α)) =
      acc.1.flatten ++
        (acc.2.pending ++ m.flatMap (fun e => entryEmit e.2)).map
          (fun t => ⟨t.1, t.2, true⟩) := by
  intro m
  induction m with
  | nil => intro acc; simp
  | cons e t ih =>
    intro acc
    rw [List.foldl_cons, ih (rmEmitStep acc e)]
    rw [List.map_append, ← List.append_assoc, (rmEmitStep_flatten acc e)]
    rw [List.flatMap_cons]
    simp [List.map_append, List.append_assoc]

theorem rowOpMapIntoChunks_flatten {α κ : Type} [DecidableEq α]
    (m : RowOpMapL α κ) (size : Nat) :
    (rowOpMapIntoChunks m size).flatten =
      (m.flatMap (fun e => entryEmit e.2)).map (fun t => (⟨t.1, t.2, true⟩ : Rec α)) := by
  unfold rowOpMapIntoChunks
  have h := rmEmitLoop m ([], StreamChunkBuilder.new size)
  have h2 : (m.foldl rmEmitStep ([], StreamChunkBuilder.new size)).1.flatten ++
      ((m.foldl rmEmitStep ([], StreamChunkBuilder.new size)).2.pending).map
        (fun t => (⟨t.1, t.2, true⟩ : Rec α)) =
      (m.flatMap (fun e => entryEmit e.2)).map (fun t => ⟨t.1, t.2, true⟩) := by
    rw [h]
    rfl
  rw [List.flatten_append]
  cases hp : (m.foldl rmEmitStep ([], StreamChunkBuilder.new size)).2.pending with
  | nil =>
    have ht : ((m.foldl rmEmitStep ([], StreamChunkBuilder.new size)).2.take).1.toList =
        ([] : List (Chunk α)) := by
      unfold StreamChunkBuilder.take
      rw [hp]
      rfl
    rw [ht]
    rw [hp] at h2
    simpa using h2
  | cons x xs =>
    have ht : ((m.foldl rmEmitStep ([], StreamChunkBuilder.new size)).2.take).1.toList =
        [(x :: xs).map (fun t => (⟨t.1, t.2, true⟩ : Rec α))] := by
      unfold StreamChunkBuilder.take
      rw [hp]
      rfl
    rw [ht]
    rw [hp] at h2
    rw [← h2]
    simp

/-! ## Per-key slices of materialized chunks -/

theorem rowsKeyOps_append {α κ : Type} [DecidableEq κ] (proj : α → κ) (k : κ) :
    ∀ (a b : List (Rec α)),
      rowsKeyOps proj k (a ++ b) = rowsKeyOps proj k a ++ rowsKeyOps proj k b := by
  intro a
  induction a with
  | nil => intro b; rfl
  | cons r t ih =>
    intro b
    rw [List.cons_append]
    by_cases h : r.vis = true ∧ proj r.row = k <;>
      simp [rowsKeyOps, h, ih b]

theorem keyFilter_chunkRows_ops {α κ : Type} [DecidableEq κ] (proj : α → κ) (k : κ) :
    ∀ (c : Chunk α) (i j : Nat),
      (keyFilter proj k (chunkRows i j c)).map (fun e => (e.2.op, e.2.row)) =
        rowsKeyOps proj k c := by
  intro c
  induction c with
  | nil => intro i j; rfl
  | cons r rs ih =>
    intro i j
    show (keyFilter proj k (((i, j), r) :: chunkRows i (j + 1) rs)).map
        (fun e => (e.2.op, e.2.row)) = rowsKeyOps proj k (r :: rs)
    by_cases h : r.vis = true ∧ proj r.row = k <;>
      simp [keyFilter, rowsKeyOps, h, ih i (j + 1)]

theorem keyOps_flattenFrom {α κ : Type} [DecidableEq κ] (proj : α → κ) (k : κ) :
    ∀ (cs : List (Chunk α)) (i : Nat),
      (keyFilter proj k (flattenFrom i cs)).map (fun e => (e.2.op, e.2.row)) =
        rowsKeyOps proj k cs.flatten := by
  intro cs
  induction cs with
  | nil => intro i; rfl
  | cons c cs ih =>
    intro i
    show (keyFilter proj k (chunkRows i 0 c ++ flattenFrom (i + 1) cs)).map
        (fun e => (e.2.op, e.2.row)) = rowsKeyOps proj k ((c :: cs).flatten)
    rw [keyFilter_append, List.map_append, keyFilter_chunkRows_ops, ih (i + 1),
      List.flatten_cons, rowsKeyOps_append]

theorem keyOps_eq_rowsKeyOps {α κ : Type} [DecidableEq κ] (proj : α → κ) (k : κ)
    (cs : List (Chunk α)) :
    keyOps proj k cs = rowsKeyOps proj k cs.flatten :=
  keyOps_flattenFrom proj k cs 0

theorem rowsKeyOps_map_slot {α κ : Type} [DecidableEq κ] (proj : α → κ) (k : κ) :
    ∀ (L : List (Op × α)),
      rowsKeyOps proj k (L.map (fun t => (⟨t.1, t.2, true⟩ : Rec α))) =
        L.filter (fun t => decide (proj t.2 = k)) := by
  intro L
  induction L with
  | nil => rfl
  | cons t ts ih =>
    rw [List.map_cons]
    by_cases h : proj t.2 = k
    · simp [rowsKeyOps, List.filter_cons, h, ih]
    · simp [rowsKeyOps, List.filter_cons, h, ih]

theorem entryEmit_keyed {α κ : Type} [DecidableEq α] {proj : α → κ} {k1 : κ}
    {rop : RowOp α} (h : ropKeyed proj (k1, rop)) :
    ∀ t ∈ entryEmit rop, proj t.2 = k1 := by
  intro t ht
  cases rop with
  | ins r =>
    simp [entryEmit] at ht
    rw [ht]
    exact h
  | del r =>
    simp [entryEmit] at ht
    rw [ht]
    exact h
  | upd o n =>
    by_cases ho : o = n
    · simp [entryEmit, ho] at ht
    · simp [entryEmit, ho] at ht
      rcases ht with ht | ht
      · rw [ht]
        exact h.1
      · rw [ht]
        exact h.2

theorem filter_flatMap_keyed {α κ : Type} [DecidableEq α] [DecidableEq κ] {proj : α → κ} :
    ∀ (m : RowOpMapL α κ) (k : κ), (m.map (fun e => e.1)).Nodup →
      (∀ e ∈ m, ropKeyed proj e) →
      (m.flatMap (fun e => entryEmit e.2)).filter (fun t => decide (proj t.2 = k)) =
        (match mlookup m k with
          | some rop => entryEmit rop
          | none => []) := by
  intro m
  induction m with
  | nil => intro k _ _; rfl
  | cons e t ih =>
    intro k hnd hkeyed
    obtain ⟨k1, rop⟩ := e
    rw [List.map_cons, List.nodup_cons] at hnd
    rw [List.flatMap_cons, List.filter_append]
    by_cases hk1 : k1 = k
    · subst hk1
      have hhead : (entryEmit rop).filter (fun t => decide (proj t.2 = k1)) =
          entryEmit rop := by
        rw [List.filter_eq_self]
        intro t ht
        rw [decide_eq_true_eq]
        exact entryEmit_keyed (hkeyed (k1, rop) (List.mem_cons_self _ _)) t ht
      have htail : (t.flatMap (fun e => entryEmit e.2)).filter
          (fun x => decide (proj x.2 = k1)) = [] := by
        have := ih k1 hnd.2 (fun e2 he2 => hkeyed e2 (List.mem_cons_of_mem _ he2))
        rw [mlookup_eq_none_iff.mpr hnd.1] at this
        exact this
      rw [hhead, htail, List.append_nil, mlookup, if_pos rfl]
    · have hhead : (entryEmit rop).filter (fun t => decide (proj t.2 = k)) = [] := by
        rw [List.filter_eq_nil_iff]
        intro t ht
        rw [decide_eq_true_eq]
        intro hc
        exact hk1 (by
          rw [← entryEmit_keyed (hkeyed (k1, rop) (List.mem_cons_self _ _)) t ht, hc])
      rw [hhead, List.nil_append, mlookup, if_neg hk1]
      exact ih k hnd.2 (fun e2 he2 => hkeyed e2 (List.mem_cons_of_mem _ he2))

theorem entryEmit_replay {α : Type} [DecidableEq α] {tup : Option (KSt α)}
    {v0 v : Option α} (hrel : kstRel v0 tup v) :
    perKeyReplay v0 (match rowOpOf tup with
      | some rop => entryEmit rop
      | none => []) = some v := by
  cases tup with
  | none =>
    have hrel2 : v = v0 := hrel
    show some v0 = some v
    rw [hrel2]
  | some st =>
    cases st with
    | ins p r =>
      have hrel2 : v0 = none ∧ v = some r := hrel
      rw [hrel2.1, hrel2.2]
      rfl
    | del p r =>
      have hrel2 : v0 = some r ∧ v = none := hrel
      rw [hrel2.1, hrel2.2]
      show perKeyReplay (some r) (entryEmit (RowOp.del r)) = some none
      show perKeyReplay (some r) [(Op.delete, r)] = some none
      rw [perKeyReplay_cons]
      rw [show replayStep (some r) (Op.delete, r) = some none from by
        show (if r = r then some none else none) = some none
        rw [if_pos rfl]]
      rfl
    | delins q d p i =>
      have hrel2 : v0 = some d ∧ v = some i := hrel
      rw [hrel2.1, hrel2.2]
      show perKeyReplay (some d) (entryEmit (RowOp.upd d i)) = some (some i)
      by_cases hd : d = i
      · have he : entryEmit (RowOp.upd d i) = ([] : List (Op × α)) := by
          simp [entryEmit, hd]
        rw [he]
        show some (some d) = some (some i)
        rw [hd]
      · have he : entryEmit (RowOp.upd d i) =
            [(Op.updateDelete, d), (Op.updateInsert, i)] := by
          simp [entryEmit, hd]
        rw [he]
        rw [perKeyReplay_cons]
        rw [show replayStep (some d) (Op.updateDelete, d) = some none from by
          show (if d = d then some none else none) = some none
          rw [if_pos rfl]]
        show perKeyReplay none [(Op.updateInsert, i)] = some (some i)
        rfl

/-! ## Reconstruct mode: replay equivalence and cardinality -/

theorem totalCard_flatten {α : Type} : ∀ (cs : List (Chunk α)),
    totalCard cs = ((cs.flatten).filter (fun r => r.vis)).length := by
  intro cs
  induction cs with
  | nil => rfl
  | cons c t ih =>
    rw [List.flatten_cons, List.filter_append, List.length_append, ← ih]
    show totalCard (c :: t) = (c.filter (fun r => r.vis)).length + totalCard t
    unfold totalCard chunkCard
    rw [List.map_cons, List.sum_cons]

theorem flatMap_entryEmit_length {α κ : Type} [DecidableEq α] :
    ∀ (m : RowOpMapL α κ), (m.flatMap (fun e => entryEmit e.2)).length ≤ rmWeight m := by
  intro m
  induction m with
  | nil => simp [rmWeight]
  | cons e t ih =>
    rw [List.flatMap_cons, List.length_append, rmWeight_cons]
    have he : (entryEmit e.2).length ≤ rowOpWeight e.2 := by
      cases e.2 with
      | ins r => simp [entryEmit, rowOpWeight]
      | del r => simp [entryEmit, rowOpWeight]
      | upd o n => by_cases ho : o = n <;> simp [entryEmit, rowOpWeight, ho]
    omega

theorem recon_replay_key {α κ : Type} [DecidableEq α] [DecidableEq κ]
    {dbg : Bool} {proj : α → κ} {cs out : List (Chunk α)} (size : Nat)
    (h : intoCompactedChunks dbg proj cs = .ok out) (k : κ) (v0 v : Option α)
    (hrep : perKeyReplay v0 (keyOps proj k cs) = some v) :
    perKeyReplay v0 (keyOps proj k (reconstructedCompactedChunks proj size cs).1)
      = some v := by
  obtain ⟨f, hc, _⟩ := intoCompactedChunks_inv h
  have spec := compactF_ok_spec (posNodup_flattenChunks cs) hc
  unfold keyOps at hrep
  rw [replay_over_pat] at hrep
  obtain ⟨s', hks, hrel'⟩ := sim_fold (pat proj k (flattenChunks cs)) none v0 v0 v
    (pat_ops proj k _) rfl hrep
  have hmach : ∀ k2, ∃ tup, (pat proj k2 (flattenChunks cs)).foldlM kstep
      ((fun _ => (none : Option (KSt α))) k2) = .ok tup := by
    intro k2
    obtain ⟨tup, hrun, _⟩ := spec.keys k2
    exact ⟨tup, hrun⟩
  obtain ⟨hnd2, hkeyed2, h3⟩ := reconLoop proj (flattenChunks cs) [] 0 (fun _ => none)
    (by simp) (by intro e2 he2; cases he2) (fun k2 => rfl) hmach
  have hlook : mlookup ((flattenChunks cs).foldl (reconStep proj) ([], 0)).1 k =
      rowOpOf s' := h3 k s' hks
  show perKeyReplay v0 (keyOps proj k
    (rowOpMapIntoChunks ((flattenChunks cs).foldl (reconStep proj) ([], 0)).1 size))
    = some v
  rw [keyOps_eq_rowsKeyOps, rowOpMapIntoChunks_flatten, rowsKeyOps_map_slot,
    filter_flatMap_keyed _ k hnd2 hkeyed2, hlook]
  exact entryEmit_replay hrel'

theorem recon_card {α κ : Type} [DecidableEq α] [DecidableEq κ]
    (proj : α → κ) (size : Nat) (cs : List (Chunk α)) :
    totalCard (reconstructedCompactedChunks proj size cs).1 ≤ totalCard cs := by
  show totalCard
    (rowOpMapIntoChunks ((flattenChunks cs).foldl (reconStep proj) ([], 0)).1 size)
    ≤ totalCard cs
  rw [totalCard_flatten, rowOpMapIntoChunks_flatten]
  have hall : ∀ (L : List (Op × α)),
      (L.map (fun t => (⟨t.1, t.2, true⟩ : Rec α))).filter (fun r => r.vis) =
        L.map (fun t => ⟨t.1, t.2, true⟩) := by
    intro L
    rw [List.filter_eq_self]
    intro r hr
    obtain ⟨t, _, ht⟩ := List.mem_map.mp hr
    rw [← ht]
  rw [hall, List.length_map]
  have h1 := flatMap_entryEmit_length ((flattenChunks cs).foldl (reconStep proj) ([], 0)).1
  have h2 := reconFold_weight proj (flattenChunks cs) ([], 0)
  have h3 : rmWeight ((([], 0) : RowOpMapL α κ × Nat)).1 = 0 := rfl
  rw [totalCard_eq_countVisF]
  omega

/-- C1: compaction is state-equivalent to its input and never increases the
visible-record count, in both modes.  Whenever in-place compaction succeeds
(no duplicated-operation error), then for every stream key, every downstream
state that replays the input cleanly replays the in-place output and the
reconstructed output to exactly the same final state; and the summed
cardinality of the in-place output and of the reconstructed output are both
at most the input's. -/
theorem c1_compactor_state_equivalence {α κ : Type} [DecidableEq α] [DecidableEq κ]
    (dbg : Bool) (proj : α → κ) (chunkSize : Nat) {cs out : List (Chunk α)}
    (h : intoCompactedChunks dbg proj cs = .ok out) :
    (∀ k v0 v, perKeyReplay v0 (keyOps proj k cs) = some v →
      perKeyReplay v0 (keyOps proj k out) = some v) ∧
    totalCard out ≤ totalCard cs ∧
    (∀ k v0 v, perKeyReplay v0 (keyOps proj k cs) = some v →
      perKeyReplay v0 (keyOps proj k (reconstructedCompactedChunks proj chunkSize cs).1)
        = some v) ∧
    totalCard (reconstructedCompactedChunks proj chunkSize cs).1 ≤ totalCard cs :=
  ⟨fun k v0 v hr => inplace_replay_key h k v0 v hr,
   inplace_card h,
   fun k v0 v hr => recon_replay_key chunkSize h k v0 v hr,
   recon_card proj chunkSize cs⟩

theorem c1_witness :
    intoCompactedChunks true sampleKeyProj sampleChunks = .ok sampleCompacted ∧
    ((∀ k v0 v, perKeyReplay v0 (keyOps sampleKeyProj k sampleChunks) = some v →
        perKeyReplay v0 (keyOps sampleKeyProj k sampleCompacted) = some v) ∧
      totalCard sampleCompacted ≤ totalCard sampleChunks ∧
      (∀ k v0 v, perKeyReplay v0 (keyOps sampleKeyProj k sampleChunks) = some v →
        perKeyReplay v0 (keyOps sampleKeyProj k
          (reconstructedCompactedChunks sampleKeyProj 10 sampleChunks).1) = some v) ∧
      totalCard (reconstructedCompactedChunks sampleKeyProj 10 sampleChunks).1 ≤
        totalCard sampleChunks) :=
  ⟨by rfl, c1_compactor_state_equivalence true sampleKeyProj 10 (by rfl)⟩

end RW
